import Mathlib

/-!
Verification of the clox bytecode interpreter (arieldon/clox).

This file shallowly embeds the parts of the C source that the claims
C1..C10 are about: the open-addressing hash table (table.c), string
interning (object.c), the chunk constant pool (chunk.c, compiler.c),
the call machinery (vm.c), open upvalues (vm.c), printing (value.c,
object.c), a slice of the compiler (compiler.c), and the mark-sweep
collector (memory.c).  C pointers to heap objects are modelled by
natural-number allocation identities; pointer equality is identity
equality.  Machine integers are Nat with explicit reductions where
the C arithmetic can wrap.  C loops that can diverge (the probe loops
of table.c) are embedded with explicit fuel and return Option, where
the outer none marks divergence of the C loop.
-/

/-- Bytes of a Lox string, as stored in the chars array of ObjString. -/
abbrev Chars := List Char

/-- Model of an ObjString heap object: id is the allocation identity
(the pointer), chars the character array, hash the cached FNV-1a hash.
Pointer equality of two ObjString values is equality of their ids. -/
structure StrObj where
  id : Nat
  chars : Chars
  hash : Nat
deriving DecidableEq, Repr

/-- Model of Value, the tagged-union branch of value.h: nil, boolean,
double-precision number, or heap-object reference.  The numeric payload
is kept opaque as a Nat index, because no claim settled here depends on
IEEE 754 arithmetic; where a claim mentions number formatting the
formatter is taken as a parameter. -/
inductive LoxValue where
  | vnil
  | vbool (b : Bool)
  | vnum (n : Nat)
  | vobj (id : Nat)
deriving DecidableEq, Repr

/-! ## Hash table (table.c)

An Entry is a key/value slot.  A NULL key with a nil value is a truly
empty slot; a NULL key with a non-nil value (the code stores true) is a
tombstone.  Capacity is the length of the entries list. -/

structure Entry where
  key : Option StrObj
  value : LoxValue
deriving DecidableEq, Repr

def emptyEntry : Entry := ⟨none, .vnil⟩

def Entry.isEmptySlot (e : Entry) : Bool := e.key.isNone && (e.value == .vnil)

def Entry.isTombstone (e : Entry) : Bool := e.key.isNone && !(e.value == .vnil)

structure Table where
  count : Nat
  entries : List Entry
deriving DecidableEq, Repr

def initTable : Table := ⟨0, []⟩

/-- Probe loop of findEntry (table.c).  index steps by
(index + 1) & (capacity - 1), which is (index + 1) % capacity when the
capacity is a power of two (asserted in the source).  tombstone records
the first tombstone passed.  Fuel bounds the loop; none means the C
loop did not terminate within fuel steps (the source relies on the
existence of a truly empty slot). -/
def findEntryAux (entries : List Entry) (capacity : Nat) (key : StrObj) :
    Nat → Nat → Option Nat → Option Nat
  | 0, _, _ => none
  | fuel + 1, index, tombstone =>
    match entries.get? index with
    | none => none
    | some e =>
      match e.key with
      | none =>
        if e.value = .vnil then
          some (tombstone.getD index)
        else
          findEntryAux entries capacity key fuel ((index + 1) &&& (capacity - 1))
            (some (tombstone.getD index))
      | some k =>
        if k.id = key.id then some index
        else findEntryAux entries capacity key fuel ((index + 1) &&& (capacity - 1)) tombstone

/-- findEntry (table.c): start at hash & (capacity - 1) and probe.  The
source's pointer comparison entry->key == key is id equality.  Fuel is
the capacity: with a power-of-two capacity the probe sequence visits
every slot within capacity steps. -/
def findEntry (entries : List Entry) (capacity : Nat) (key : StrObj) : Option Nat :=
  findEntryAux entries capacity key capacity (key.hash &&& (capacity - 1)) none

/-- tableGet (table.c).  Outer none marks divergence of the probe loop;
some none is the C false return (key absent); some (some v) is true. -/
def tableGet (t : Table) (key : StrObj) : Option (Option LoxValue) :=
  if t.count = 0 then some none
  else
    match findEntry t.entries t.entries.length key with
    | none => none
    | some i =>
      let e := t.entries.getD i emptyEntry
      match e.key with
      | none => some none
      | some _ => some (some e.value)

/-- GROW_CAPACITY (memory.h). -/
def growCapacity (capacity : Nat) : Nat := if capacity < 8 then 8 else capacity * 2

/-- Loop body of adjustCapacity (table.c): skip slots without a key,
reinsert a keyed slot at its findEntry position in the new array and
count it. -/
def adjustInsert (capacity : Nat) (acc : Option (List Entry × Nat)) (e : Entry) :
    Option (List Entry × Nat) :=
  match acc with
  | none => none
  | some (entries, count) =>
    match e.key with
    | none => some (entries, count)
    | some k =>
      match findEntry entries capacity k with
      | none => none
      | some i => some (entries.set i ⟨some k, e.value⟩, count + 1)

/-- adjustCapacity (table.c): allocate a fresh empty array, reinsert
every keyed entry at its findEntry slot, recount. -/
def adjustCapacity (t : Table) (capacity : Nat) : Option Table :=
  (t.entries.foldl (adjustInsert capacity)
    (some (List.replicate capacity emptyEntry, 0))).map (fun p => ⟨p.2, p.1⟩)

/-- tableSet (table.c).  The load test count + 1 > capacity * 0.75 is
written over naturals as 4 * (count + 1) > 3 * capacity, which is exact
because every capacity the module produces is 0 or a multiple of 4.
Returns the updated table and is_new_key. -/
def tableSet (t : Table) (key : StrObj) (value : LoxValue) : Option (Table × Bool) :=
  match
    (if 4 * (t.count + 1) > 3 * t.entries.length then
      adjustCapacity t (growCapacity t.entries.length)
    else
      some t) with
  | none => none
  | some t =>
    match findEntry t.entries t.entries.length key with
    | none => none
    | some i =>
      let e := t.entries.getD i emptyEntry
      let isNew := e.key.isNone
      let count := if isNew && (e.value == .vnil) then t.count + 1 else t.count
      some (⟨count, t.entries.set i ⟨some key, value⟩⟩, isNew)

/-- tableDelete (table.c): tombstone the slot (key NULL, value true);
count is not decremented. -/
def tableDelete (t : Table) (key : StrObj) : Option (Table × Bool) :=
  if t.count = 0 then some (t, false)
  else
    match findEntry t.entries t.entries.length key with
    | none => none
    | some i =>
      let e := t.entries.getD i emptyEntry
      match e.key with
      | none => some (t, false)
      | some _ => some (⟨t.count, t.entries.set i ⟨none, .vbool true⟩⟩, true)

/-! ## Chunk constant pool (chunk.c, compiler.c) -/

/-- addConstant (chunk.c): append the value to the growable constants
array and return constants.count - 1.  (The push/pop GC guard around
writeValueArray has no observable effect on the pool.) -/
def addConstant (constants : List LoxValue) (value : LoxValue) : List LoxValue × Nat :=
  (constants ++ [value], (constants ++ [value]).length - 1)

def UINT8_MAX : Nat := 255

structure MakeConstantResult where
  constants : List LoxValue
  index : Nat
  compileError : Option String
deriving DecidableEq, Repr

/-- makeConstant (compiler.c): error when the index returned by
addConstant exceeds UINT8_MAX, returning index 0 in that case. -/
def makeConstant (constants : List LoxValue) (value : LoxValue) : MakeConstantResult :=
  let r := addConstant constants value
  if r.2 > UINT8_MAX then ⟨r.1, 0, some "too many constants in one chunk"⟩
  else ⟨r.1, r.2, none⟩

/-! ## call (vm.c) -/

def FRAMES_MAX : Nat := 64

structure CallFrame where
  closure : Nat
  ip : Nat
  slots : Nat
deriving DecidableEq, Repr

structure CallOutcome where
  frames : List CallFrame
  errMsg : Option String
deriving DecidableEq, Repr

/-- call (vm.c): arity check, then frame-capacity check, then push one
frame with ip at the start of the chunk and slots = stack_top -
arg_count - 1.  runtimeError calls resetStack, which empties the frame
stack, so both error branches leave zero frames. -/
def call (arity : Nat) (closure : Nat) (argCount : Nat) (frames : List CallFrame)
    (stackTop : Nat) : CallOutcome :=
  if argCount ≠ arity then
    ⟨[], some s!"expected {arity} arguments but got {argCount}"⟩
  else if frames.length = FRAMES_MAX then
    ⟨[], some "stack overflow"⟩
  else
    ⟨⟨closure, 0, stackTop - argCount - 1⟩ :: frames, none⟩

/-! ## Open upvalues (vm.c) -/

/-- Model of an open ObjUpvalue: id is the allocation identity, location
the stack slot it points into.  The source compares location pointers
with > and >=; stack addresses order like slot indices. -/
structure OpenUpvalue where
  id : Nat
  location : Nat
deriving DecidableEq, Repr

/-- VM slice for upvalue management: the open-upvalue list (head is
vm.open_upvalues), the allocation counter for fresh upvalues, and the
closed cells written by closeUpvalues, keyed by upvalue id. -/
structure UpvalueState where
  openUpvalues : List OpenUpvalue
  nextId : Nat
  closedCells : List (Nat × LoxValue)
deriving DecidableEq, Repr

/-- captureUpvalue (vm.c): walk the open-upvalue list while
upvalue->location > local; if the upvalue the walk stopped at points
exactly at the local slot, reuse it; otherwise link a fresh upvalue
between prev_upvalue and upvalue.  Returns the state and the id of the
returned upvalue. -/
def captureUpvalue (st : UpvalueState) (slot : Nat) : UpvalueState × Nat :=
  let before := st.openUpvalues.takeWhile (fun u => slot < u.location)
  let rest := st.openUpvalues.dropWhile (fun u => slot < u.location)
  match rest with
  | u :: _ =>
    if u.location = slot then (st, u.id)
    else
      ({ st with openUpvalues := before ++ ⟨st.nextId, slot⟩ :: rest,
                 nextId := st.nextId + 1 }, st.nextId)
  | [] =>
      ({ st with openUpvalues := before ++ [⟨st.nextId, slot⟩],
                 nextId := st.nextId + 1 }, st.nextId)

/-- closeUpvalues (vm.c): while the head of the open-upvalue list has
location >= last, copy the stack value at its location into its closed
field, repoint it at that field, and unlink it. -/
def closeUpvalues (stack : List LoxValue) (st : UpvalueState) (last : Nat) : UpvalueState :=
  { st with
    openUpvalues := st.openUpvalues.dropWhile (fun u => last ≤ u.location),
    closedCells :=
      ((st.openUpvalues.takeWhile (fun u => last ≤ u.location)).map
        (fun u => (u.id, stack.getD u.location .vnil))) ++ st.closedCells }

/-- Sortedness by strictly descending stack address, the invariant of
the open-upvalue list. -/
def SortedDesc (l : List OpenUpvalue) : Prop :=
  l.Pairwise (fun a b => b.location < a.location)

instance (l : List OpenUpvalue) : Decidable (SortedDesc l) := by
  unfold SortedDesc; infer_instance

/-! ## Heap objects, call dispatch (object.h, vm.c) -/

/-- Heap-object variants as vm.c dispatches on them.  A closure
references its ObjFunction by id (call reads closure->function->arity
through that reference). -/
inductive HObj where
  | hstring (chars : Chars)
  | hfunction (name : Option Chars) (arity : Nat)
  | hnative (fnId : Nat)
  | hclosure (function : Nat)
  | hclass (name : Chars) (methods : Table)
  | hinstance (cls : Nat) (fields : Table)
  | hboundMethod (receiver : LoxValue) (method : Nat)
deriving DecidableEq, Repr

def heapGet (heap : List (Nat × HObj)) (id : Nat) : Option HObj :=
  (heap.find? (fun p => p.1 = id)).map (fun p => p.2)

/-- VM slice for callValue: heap, allocation counter, value stack (head
is the top), call-frame stack (head is the innermost frame). -/
structure VmState where
  heap : List (Nat × HObj)
  nextId : Nat
  stack : List LoxValue
  frames : List CallFrame
deriving DecidableEq, Repr

/-- resetStack (vm.c), performed by runtimeError. -/
def vmResetStack (st : VmState) : VmState := { st with stack := [], frames := [] }

/-- Outcome of a call: success, runtime error (runtimeError prints the
message and resets the stack), or the undefined behavior of
dereferencing an AS_CLOSURE cast applied to a non-closure object. -/
inductive CallOut where
  | ok (st : VmState)
  | rte (st : VmState) (msg : String)
  | castUB
deriving DecidableEq, Repr

/-- AS_CLOSURE (object.h) is an unchecked pointer cast; call (vm.c)
then dereferences closure->function->arity.  When the object is not an
ObjClosure that dereference reads reinterpreted memory, which is
undefined behavior in the C source, modelled as castUB. -/
def callVm (st : VmState) (closureId : Nat) (argCount : Nat) : CallOut :=
  match heapGet st.heap closureId with
  | some (.hclosure f) =>
    match heapGet st.heap f with
    | some (.hfunction _ arity) =>
      if argCount ≠ arity then
        .rte (vmResetStack st) s!"expected {arity} arguments but got {argCount}"
      else if st.frames.length = FRAMES_MAX then
        .rte (vmResetStack st) "stack overflow"
      else
        .ok { st with frames := ⟨closureId, 0, st.stack.length - argCount - 1⟩ :: st.frames }
    | _ => .castUB
  | _ => .castUB

/-- callValue (vm.c), translated branch by branch.  The OBJ_NATIVE
branch is exactly as the source writes it: call(AS_CLOSURE(callee),
arg_count), reinterpreting the ObjNative as an ObjClosure; the host
callback is never invoked.  Outer none marks divergence of the method
table probe. -/
def callValue (st : VmState) (callee : LoxValue) (argCount : Nat) (initStr : StrObj) :
    Option CallOut :=
  match callee with
  | .vobj id =>
    match heapGet st.heap id with
    | some (.hboundMethod receiver method) =>
      some (callVm { st with stack := st.stack.set argCount receiver } method argCount)
    | some (.hclass _ methods) =>
      let inst := st.nextId
      let st2 : VmState :=
        { st with heap := (inst, .hinstance id initTable) :: st.heap,
                  nextId := st.nextId + 1,
                  stack := st.stack.set argCount (.vobj inst) }
      match tableGet methods initStr with
      | none => none
      | some (some initializer) =>
        match initializer with
        | .vobj m => some (callVm st2 m argCount)
        | _ => some .castUB
      | some none =>
        if argCount ≠ 0 then
          some (.rte (vmResetStack st2) s!"expected 0 arguments but got {argCount}")
        else some (.ok st2)
    | some (.hclosure _) => some (callVm st id argCount)
    | some (.hnative _) => some (callVm st id argCount)
    | some _ => some (.rte (vmResetStack st) "can only call functions and classes")
    | none => some .castUB
  | _ => some (.rte (vmResetStack st) "can only call functions and classes")

/-- Modelled from the spec: the documented OBJ_NATIVE behavior of
callValue, absent from the source (whose OBJ_NATIVE branch funnels
through AS_CLOSURE): invoke the host callback synchronously on the argc
arguments, pop the arguments and the callee, push the callback's return
value; create no call frame.  The callback is a parameter receiving
arg_count and the arguments in stack order. -/
def callValueNativeSpec (native : Nat → List LoxValue → LoxValue)
    (st : VmState) (argCount : Nat) : VmState :=
  { st with
    stack := native argCount (st.stack.take argCount).reverse ::
      st.stack.drop (argCount + 1) }

/-! ## Compiler slice: parse rules and class declarations (compiler.c) -/

/-- TokenType (scanner.h).  Keyword tokens carry a leading k where the C
name collides with a Lean keyword. -/
inductive TokenType where
  | leftParen | rightParen | leftBrace | rightBrace
  | comma | dot | minus | plus | semicolon | slash | star | qmark | colon
  | bang | bangEqual | equal | equalEqual
  | greater | greaterEqual | lesser | lesserEqual
  | identifier | string | number
  | kand | kclass | kelse | kfalse | kfor | kfun | kif | knil | kor
  | kprint | kreturn | ksuper | kthis | ktrue | kvar | kwhile
  | kbreak | kcontinue
  | error | eof
deriving DecidableEq, Repr

/-- The prefix parse functions of compiler.c, as tags. -/
inductive PrefixFn where
  | grouping | unary | variableFn | stringFn | numberFn | literal | thisFn
deriving DecidableEq, Repr

/-- The infix parse functions of compiler.c, as tags. -/
inductive InfixFn where
  | call | dot | binary | andFn | orFn
deriving DecidableEq, Repr

/-- Precedence (compiler.h). -/
inductive Precedence where
  | pnone | passignment | pternary | por | pand | pequality
  | pcomparison | pterm | pfactor | punary | pcall | pprimary
deriving DecidableEq, Repr

structure ParseRule where
  prefixRule : Option PrefixFn
  infixRule : Option InfixFn
  prec : Precedence
deriving DecidableEq, Repr

/-- The rules[] table (compiler.c).  TOKEN_SUPER's entry is written in
the source explicitly as {NULL, NULL, PREC_NONE}: the token has no
prefix parse function.  Tokens the designated initializer does not
mention (qmark, colon, break, continue) are zero-initialized by C to
the same {NULL, NULL, PREC_NONE}. -/
def getRule : TokenType → ParseRule
  | .leftParen => ⟨some .grouping, some .call, .pcall⟩
  | .dot => ⟨none, some .dot, .pcall⟩
  | .minus => ⟨some .unary, some .binary, .pterm⟩
  | .plus => ⟨none, some .binary, .pterm⟩
  | .slash => ⟨none, some .binary, .pfactor⟩
  | .star => ⟨none, some .binary, .pfactor⟩
  | .bang => ⟨some .unary, none, .pnone⟩
  | .bangEqual => ⟨none, some .binary, .pequality⟩
  | .equalEqual => ⟨none, some .binary, .pequality⟩
  | .greater => ⟨none, some .binary, .pcomparison⟩
  | .greaterEqual => ⟨none, some .binary, .pcomparison⟩
  | .lesser => ⟨none, some .binary, .pcomparison⟩
  | .lesserEqual => ⟨none, some .binary, .pcomparison⟩
  | .identifier => ⟨some .variableFn, none, .pnone⟩
  | .string => ⟨some .stringFn, none, .pnone⟩
  | .number => ⟨some .numberFn, none, .pnone⟩
  | .kand => ⟨none, some .andFn, .pand⟩
  | .kfalse => ⟨some .literal, none, .pnone⟩
  | .knil => ⟨some .literal, none, .pnone⟩
  | .kor => ⟨none, some .orFn, .por⟩
  | .ksuper => ⟨none, none, .pnone⟩
  | .kthis => ⟨some .thisFn, none, .pnone⟩
  | .ktrue => ⟨some .literal, none, .pnone⟩
  | _ => ⟨none, none, .pnone⟩

/-- First step of parsePrecedence (compiler.c): fetch the previous
token's prefix rule; when there is none, report "expect expression". -/
def parsePrefixDispatch (previous : TokenType) : Except String PrefixFn :=
  match (getRule previous).prefixRule with
  | none => .error "expect expression"
  | some f => .ok f

/-- consume (compiler.c): advance when the current token has the
expected type, otherwise report the message at the current token. -/
def consume (tokens : List TokenType) (t : TokenType) (message : String) :
    Except String (List TokenType) :=
  match tokens with
  | cur :: rest => if cur = t then .ok rest else .error message
  | [] => .error message

/-- Token-consumption shape of classDeclaration (compiler.c): after the
class keyword, consume the class name (identifierConstant,
declareVariable, OP_CLASS and defineVariable consume no tokens), then
immediately consume the left brace of the class body.  The source
parses no superclass clause here, and no emission path in compiler.c
produces OP_INHERIT, OP_GET_SUPER or OP_SUPER_INVOKE. -/
def classDeclarationHeader (tokens : List TokenType) : Except String (List TokenType) := do
  let tokens ← consume tokens .identifier "expect class name"
  let tokens ← consume tokens .leftBrace "expect '\x7b' before class body"
  pure tokens

/-! ## Printing (value.c, object.c) -/

/-- printFunction (object.c). -/
def printFunction (name : Option Chars) : String :=
  match name with
  | none => "<script>"
  | some n => "<fn " ++ String.mk n ++ ">"

/-- printObject (object.c): the switch covers OBJ_FUNCTION, OBJ_NATIVE
and OBJ_STRING; any other object type hits no case and nothing is
printed. -/
def printObject (heap : List (Nat × HObj)) (id : Nat) : String :=
  match heapGet heap id with
  | some (.hfunction name _) => printFunction name
  | some (.hnative _) => "<native fn>"
  | some (.hstring chars) => String.mk chars
  | _ => ""

/-- printValue (value.c, tagged-union branch): the switch covers
VAL_BOOL, VAL_NIL and VAL_NUMBER only; a VAL_OBJ value falls through
the switch and nothing is printed.  The parameter fmtg renders the
number payload the way the C conversion %g renders the double. -/
def printValue (fmtg : Nat → String) : LoxValue → String
  | .vbool b => if b then "true" else "false"
  | .vnil => "nil"
  | .vnum n => fmtg n
  | .vobj _ => ""

/-- OP_PRINT (vm.c run loop): printValue of the popped value followed
by one newline on standard output. -/
def opPrint (fmtg : Nat → String) (v : LoxValue) : String :=
  printValue fmtg v ++ "\n"

/-- Modelled from the spec: the print pipeline as documented, with a
heap-object value dispatched to printObject (the VAL_OBJ case missing
from the snapshot's printValue switch): numbers via %g, booleans as
true/false, nil as nil, strings as their raw bytes with no quoting,
functions as fn-name brackets or script. -/
def printValueSpec (fmtg : Nat → String) (heap : List (Nat × HObj)) : LoxValue → String
  | .vbool b => if b then "true" else "false"
  | .vnil => "nil"
  | .vnum n => fmtg n
  | .vobj id => printObject heap id

/-! ## Probe-walk observables (table.c) -/

/-- Does slot i hold a key pointer-equal to the probed key? -/
def slotMatches (entries : List Entry) (key : StrObj) (i : Nat) : Bool :=
  match entries.get? i with
  | some ⟨some k, _⟩ => k.id == key.id
  | _ => false

/-- Is slot i a truly empty slot (NULL key, nil value)? -/
def slotEmpty (entries : List Entry) (i : Nat) : Bool :=
  match entries.get? i with
  | some e => e.isEmptySlot
  | none => false

/-- Is slot i a tombstone (NULL key, non-nil value)? -/
def slotTomb (entries : List Entry) (i : Nat) : Bool :=
  match entries.get? i with
  | some e => e.isTombstone
  | none => false

/-- A stop of the findEntry probe walk: a pointer match or a truly
empty slot. -/
def slotStop (entries : List Entry) (key : StrObj) (i : Nat) : Bool :=
  slotMatches entries key i || slotEmpty entries i

/-- The position of the first tombstone among the next j probe
positions starting at index, stepping by +1 modulo the capacity. -/
def firstTombAux (entries : List Entry) (capacity : Nat) : Nat → Nat → Option Nat
  | _, 0 => none
  | index, j + 1 =>
    if slotTomb entries index then some index
    else firstTombAux entries capacity ((index + 1) % capacity) j

/-- Left-biased choice, the accumulation discipline of the tombstone
argument of the probe loop. -/
def optOr : Option Nat → Option Nat → Option Nat
  | some x, _ => some x
  | none, y => y

/-! ## Table-state observables for the OP_SET_GLOBAL and GC claims -/

/-- Number of slots that are not truly empty (keyed slots plus
tombstones); table.c maintains count equal to this. -/
def nonEmptyCount (e : List Entry) : Nat :=
  (e.filter (fun en => !en.isEmptySlot)).length

/-- Number of keyed slots. -/
def keyedCount (e : List Entry) : Nat :=
  (e.filter (fun en => en.key.isSome)).length

/-- No slot of the array holds a key with the given id. -/
def keyAbsentB (e : List Entry) (kid : Nat) : Bool :=
  e.all (fun en =>
    match en.key with
    | some k => k.id != kid
    | none => true)

/-- The OP_SET_GLOBAL handler of run (vm.c): tableSet into the globals
table; when the key turns out to be new, delete the just-inserted entry
again and report the runtime error "undefined variable '<name>'".
Outer none marks divergence of a probe loop. -/
def opSetGlobal (globals : Table) (name : StrObj) (v : LoxValue) :
    Option (Table × Option String) :=
  match tableSet globals name v with
  | none => none
  | some (g2, isNew) =>
    if isNew then
      match tableDelete g2 name with
      | none => none
      | some (g3, _) => some (g3, some s!"undefined variable '{String.mk name.chars}'")
    else some (g2, none)

/-! ## String interning (object.c) -/

/-- hashString (object.c): FNV-1a over the byte array in uint32
arithmetic, with the seed 216613621 exactly as the source writes it.
The cast to uint8_t is the mod 256. -/
def hashString (chars : Chars) : Nat :=
  chars.foldl (fun h c => ((h ^^^ (c.toNat % 256)) * 16777619) % 2 ^ 32) 216613621

/-- Does slot i hold a key whose length, hash and bytes all equal the
probed ones (the comparison of tableFindString)? -/
def slotContent (entries : List Entry) (chars : Chars) (hash : Nat) (i : Nat) : Bool :=
  match entries.get? i with
  | some ⟨some k, _⟩ =>
    (k.chars.length == chars.length) && (k.hash == hash) && (k.chars == chars)
  | _ => false

/-- A stop of the tableFindString probe walk: a content match or a
truly empty slot (tombstones are skipped). -/
def slotFsStop (entries : List Entry) (chars : Chars) (hash : Nat) (i : Nat) : Bool :=
  slotContent entries chars hash i || slotEmpty entries i

/-- Probe loop of tableFindString (table.c). -/
def tableFindStringAux (entries : List Entry) (capacity : Nat) (chars : Chars) (hash : Nat) :
    Nat → Nat → Option (Option StrObj)
  | 0, _ => none
  | fuel + 1, index =>
    match entries.get? index with
    | none => none
    | some e =>
      match e.key with
      | none =>
        if e.value = .vnil then some none
        else tableFindStringAux entries capacity chars hash fuel
          ((index + 1) &&& (capacity - 1))
      | some k =>
        if k.chars.length = chars.length ∧ k.hash = hash ∧ k.chars = chars then
          some (some k)
        else tableFindStringAux entries capacity chars hash fuel
          ((index + 1) &&& (capacity - 1))

/-- tableFindString (table.c).  Outer none marks divergence; some none
is the C NULL return. -/
def tableFindString (t : Table) (chars : Chars) (hash : Nat) : Option (Option StrObj) :=
  if t.count = 0 then some none
  else tableFindStringAux t.entries t.entries.length chars hash t.entries.length
    (hash &&& (t.entries.length - 1))

/-- VM slice for interning: the allocation counter (fresh pointer
identities) and the vm.strings set. -/
structure InternState where
  nextId : Nat
  strings : Table
deriving DecidableEq, Repr

/-- allocateString (object.c): build the ObjString and intern it via
tableSet into vm.strings under a nil value. -/
def allocateString (st : InternState) (chars : Chars) (hash : Nat) :
    Option (InternState × StrObj) :=
  match tableSet st.strings ⟨st.nextId, chars, hash⟩ .vnil with
  | none => none
  | some r => some (⟨st.nextId + 1, r.1⟩, ⟨st.nextId, chars, hash⟩)

/-- copyString (object.c): hash, look the byte sequence up among the
interned strings, return the interned object on a hit, otherwise copy
the characters and allocate. -/
def copyString (st : InternState) (chars : Chars) : Option (InternState × StrObj) :=
  match tableFindString st.strings chars (hashString chars) with
  | none => none
  | some (some interned) => some (st, interned)
  | some none => allocateString st chars (hashString chars)

/-- takeString (object.c): the same dedup logic; on a hit the passed
char buffer is freed (no observable effect here), on a miss it is
adopted. -/
def takeString (st : InternState) (chars : Chars) : Option (InternState × StrObj) :=
  match tableFindString st.strings chars (hashString chars) with
  | none => none
  | some (some interned) => some (st, interned)
  | some none => allocateString st chars (hashString chars)

/-- Chooser between the two interning entry points. -/
def mkString (take : Bool) (st : InternState) (chars : Chars) :
    Option (InternState × StrObj) :=
  if take then takeString st chars else copyString st chars

/-- Every interned key is found again by tableFindString on its own
bytes and hash (the lookup invariant of vm.strings). -/
def keysFindable (t : Table) : Bool :=
  t.entries.all (fun en =>
    match en.key with
    | some k => tableFindString t k.chars k.hash == some (some k)
    | none => true)

/-- Every interned key caches the hash of its own bytes. -/
def keysHashed (t : Table) : Bool :=
  t.entries.all (fun en =>
    match en.key with
    | some k => k.hash == hashString k.chars
    | none => true)

/-- Every interned key's allocation id is below the allocation
counter. -/
def idsBounded (st : InternState) : Bool :=
  st.strings.entries.all (fun en =>
    match en.key with
    | some k => decide (k.id < st.nextId)
    | none => true)

/-- Pairwise-distinct allocation ids across the key slots. -/
def idsInjectiveB : List Entry → Bool
  | [] => true
  | en :: rest =>
    (match en.key with
     | some k => rest.all (fun en2 =>
         match en2.key with
         | some k2 => k.id != k2.id
         | none => true)
     | none => true) && idsInjectiveB rest


/-! ## Garbage collector (memory.c, compiler.c markCompilerRoots, table.c
tableRemoveWhite)

Objects carry the fields blackenObject traverses.  The snapshot's
object.h lists only closure/function/native/string/upvalue, but
memory.c's switches also handle bound methods, classes and instances;
their payloads are modelled from the accesses in blackenObject and
freeObject.  Pointers are object ids; NULL is none. -/
inductive GObj where
  | gboundMethod (receiver : LoxValue) (method : Option Nat)
  | gclass (name : Option Nat) (methods : Table)
  | gclosure (function : Option Nat) (upvalues : List (Option Nat))
  | gfunction (name : Option Nat) (constants : List LoxValue)
  | ginstance (cls : Option Nat) (fields : Table)
  | gnative
  | gstring
  | gupvalue (closed : LoxValue)
deriving DecidableEq, Repr

/-- The GC-relevant slice of the VM: the vm.objects chain with each
object's payload, the mark bits, the gray stack, and the root sets
(value stack, frame closures, open upvalues, globals, compiler chain,
init string) plus the interned-strings table. -/
structure GcState where
  heap : List (Nat × GObj)
  marked : List Nat
  grayStack : List Nat
  stack : List LoxValue
  frames : List (Option Nat)
  openUpvalues : List Nat
  globals : Table
  compilerFunctions : List (Option Nat)
  initString : Option Nat
  strings : Table
deriving DecidableEq, Repr

/-- markObject (memory.c): NULL and already-marked objects are skipped,
otherwise the object is marked and pushed on the gray stack. -/
def markObject (st : GcState) (o : Option Nat) : GcState :=
  match o with
  | none => st
  | some i =>
    if i ∈ st.marked then st
    else { st with marked := i :: st.marked, grayStack := i :: st.grayStack }

/-- markValue (memory.c): only object values are marked. -/
def markValue (st : GcState) (v : LoxValue) : GcState :=
  match v with
  | .vobj i => markObject st (some i)
  | _ => st

/-- markTable (table.c): mark every entry's key object and value. -/
def markTable (st : GcState) (t : Table) : GcState :=
  t.entries.foldl (fun s en => markValue (markObject s (en.key.map StrObj.id)) en.value) st

/-- markArray (memory.c): mark every constant of a chunk. -/
def markArray (st : GcState) (vs : List LoxValue) : GcState :=
  vs.foldl markValue st

/-- markRoots (memory.c): value stack, frame closures, open upvalues,
globals, compiler chain (markCompilerRoots, compiler.c), init string. -/
def markRoots (st : GcState) : GcState :=
  markObject
    ((st.compilerFunctions.foldl markObject
      (markTable
        (st.openUpvalues.foldl (fun s i => markObject s (some i))
          (st.frames.foldl markObject
            (st.stack.foldl markValue st)))
        st.globals)))
    st.initString

/-- Heap lookup by object id along the vm.objects chain. -/
def heapFind (heap : List (Nat × GObj)) (i : Nat) : Option GObj :=
  (heap.find? (fun p => p.1 == i)).map Prod.snd

/-- blackenObject (memory.c): traverse one object's references. -/
def blackenObject (st : GcState) (i : Nat) : GcState :=
  match heapFind st.heap i with
  | none => st
  | some (.gboundMethod receiver method) => markObject (markValue st receiver) method
  | some (.gclass name methods) => markTable (markObject st name) methods
  | some (.gclosure f ups) => ups.foldl markObject (markObject st f)
  | some (.gfunction name consts) => markArray (markObject st name) consts
  | some (.ginstance cls fields) => markTable (markObject st cls) fields
  | some .gnative => st
  | some .gstring => st
  | some (.gupvalue closed) => markValue st closed

/-- traceReferences (memory.c): pop gray objects and blacken them until
the gray stack is exhausted (fuel bounds the loop; none = divergence). -/
def traceReferences : Nat → GcState → Option GcState
  | 0, st => match st.grayStack with | [] => some st | _ :: _ => none
  | fuel + 1, st =>
    match st.grayStack with
    | [] => some st
    | i :: rest => traceReferences fuel (blackenObject { st with grayStack := rest } i)

/-- Body of tableRemoveWhite's loop (table.c): walk the slot indices,
deleting every key whose object is unmarked. -/
def removeWhiteFrom (marked : List Nat) : List Nat → Table → Option Table
  | [], t => some t
  | i :: rest, t =>
    match (t.entries.getD i emptyEntry).key with
    | none => removeWhiteFrom marked rest t
    | some k =>
      if k.id ∈ marked then removeWhiteFrom marked rest t
      else
        match tableDelete t k with
        | none => none
        | some r => removeWhiteFrom marked rest r.1

/-- tableRemoveWhite (table.c). -/
def tableRemoveWhite (marked : List Nat) (t : Table) : Option Table :=
  removeWhiteFrom marked (List.range t.entries.length) t

/-- sweep (memory.c): unlink and free unmarked objects, keep marked
ones (their mark bit is reset).  Returns the surviving chain and the
freed ids, both in chain order. -/
def sweepAux (marked : List Nat) : List (Nat × GObj) → List (Nat × GObj) × List Nat
  | [] => ([], [])
  | (i, o) :: rest =>
    if i ∈ marked then ((i, o) :: (sweepAux marked rest).1, (sweepAux marked rest).2)
    else ((sweepAux marked rest).1, i :: (sweepAux marked rest).2)

/-- collectGarbage (memory.c): markRoots, traceReferences, then
tableRemoveWhite on vm.strings, then sweep.  Returns the new state and
the list of freed object ids. -/
def collectGarbage (fuel : Nat) (st : GcState) : Option (GcState × List Nat) :=
  match traceReferences fuel (markRoots st) with
  | none => none
  | some st2 =>
    match tableRemoveWhite st2.marked st2.strings with
    | none => none
    | some strings2 =>
      let r := sweepAux st2.marked st2.heap
      some ({ st2 with strings := strings2, heap := r.1, marked := [] }, r.2)

/-- Object ids held by a value. -/
def valueIds (v : LoxValue) : List Nat :=
  match v with
  | .vobj i => [i]
  | _ => []

/-- Object ids held by a table slot (key object and value object). -/
def entryIds (en : Entry) : List Nat :=
  (en.key.map StrObj.id).toList ++ valueIds en.value

/-- All object ids reachable directly from a table. -/
def tableIds (t : Table) : List Nat :=
  t.entries.foldr (fun en acc => entryIds en ++ acc) []

/-- The references blackenObject traverses out of one object. -/
def objRefs (o : GObj) : List Nat :=
  match o with
  | .gboundMethod receiver method => valueIds receiver ++ method.toList
  | .gclass name methods => name.toList ++ tableIds methods
  | .gclosure f ups => f.toList ++ ups.filterMap id
  | .gfunction name consts => name.toList ++ consts.foldr (fun v acc => valueIds v ++ acc) []
  | .ginstance cls fields => cls.toList ++ tableIds fields
  | .gnative => []
  | .gstring => []
  | .gupvalue closed => valueIds closed

/-- The root ids markRoots starts from. -/
def rootIds (st : GcState) : List Nat :=
  st.stack.foldr (fun v acc => valueIds v ++ acc) [] ++
  st.frames.filterMap id ++
  st.openUpvalues ++
  tableIds st.globals ++
  st.compilerFunctions.filterMap id ++
  st.initString.toList

/-- Reachability from the GC roots through object references. -/
inductive Reachable (st : GcState) : Nat → Prop where
  | root (i : Nat) (h : i ∈ rootIds st) : Reachable st i
  | step (i j : Nat) (o : GObj) (hi : Reachable st i)
      (ho : heapFind st.heap i = some o) (hj : j ∈ objRefs o) : Reachable st j

/-- One marking step: heap and strings untouched, marks and gray stack
only grow, and an object that is marked but not gray afterwards was
already marked and not gray before (new marks always enter gray). -/
def GcMono (st st2 : GcState) : Prop :=
  st2.heap = st.heap ∧ st2.strings = st.strings ∧
  (∀ x, x ∈ st.marked → x ∈ st2.marked) ∧
  (∀ x, x ∈ st.grayStack → x ∈ st2.grayStack) ∧
  (∀ x, x ∈ st2.marked → x ∉ st2.grayStack → x ∈ st.marked ∧ x ∉ st.grayStack)

/-- The tri-color invariant: a marked object that is not gray has all
its references marked. -/
def MarkInv (st : GcState) : Prop :=
  ∀ i, i ∈ st.marked → i ∉ st.grayStack →
    ∀ o, heapFind st.heap i = some o → ∀ j, j ∈ objRefs o → j ∈ st.marked

/-- Every key of the table is returned by findEntry probing for it, at
its own slot (the pointer-findability invariant tableSet maintains). -/
def keyFoundAtOwnSlot (t : Table) : Bool :=
  t.entries.all (fun en =>
    match en.key with
    | none => true
    | some k =>
      match findEntry t.entries t.entries.length k with
      | some i => (t.entries.getD i emptyEntry).key == some k
      | none => false)

-- ===================== THEOREMS =====================

theorem sortedDesc_tail {a : OpenUpvalue} {l : List OpenUpvalue}
    (h : SortedDesc (a :: l)) : SortedDesc l :=
  (List.pairwise_cons.mp h).2

theorem sortedDesc_head {a : OpenUpvalue} {l : List OpenUpvalue}
    (h : SortedDesc (a :: l)) : ∀ b ∈ l, b.location < a.location :=
  (List.pairwise_cons.mp h).1

/-- In a strictly descending list, everything at or past the stopping
point of the captureUpvalue walk has location at most the probed slot. -/
theorem sortedDesc_dropWhile_le {l : List OpenUpvalue} {x : Nat}
    (hs : SortedDesc l) :
    ∀ u ∈ l.dropWhile (fun u => x < u.location), u.location ≤ x := by
  induction l with
  | nil => simp
  | cons a t ih =>
    by_cases h : x < a.location
    · rw [List.dropWhile_cons_of_pos (by simpa using h)]
      exact ih (sortedDesc_tail hs)
    · rw [List.dropWhile_cons_of_neg (by simpa using h)]
      intro u hu
      rcases List.mem_cons.mp hu with rfl | hu
      · omega
      · have := sortedDesc_head hs u hu
        omega

/-- The walk of captureUpvalue stops exactly at an existing upvalue for
slot x when the list contains one. -/
theorem sortedDesc_dropWhile_mem {l : List OpenUpvalue} {x : Nat} {u : OpenUpvalue}
    (hs : SortedDesc l) (hu : u ∈ l) (hx : u.location = x) :
    ∃ tl, l.dropWhile (fun u => x < u.location) = u :: tl := by
  induction l with
  | nil => simp at hu
  | cons a t ih =>
    rcases List.mem_cons.mp hu with rfl | hu
    · have h : ¬ (x < u.location) := by omega
      exact ⟨t, by rw [List.dropWhile_cons_of_neg (by simpa using h)]⟩
    · have hlt : u.location < a.location := sortedDesc_head hs u hu
      have h : x < a.location := by omega
      rw [List.dropWhile_cons_of_pos (by simpa using h)]
      exact ih (sortedDesc_tail hs) hu

theorem sortedDesc_dropWhile_ge_eq_filter {l : List OpenUpvalue} {x : Nat}
    (hs : SortedDesc l) :
    l.dropWhile (fun u => x ≤ u.location) = l.filter (fun u => u.location < x) := by
  induction l with
  | nil => simp
  | cons a t ih =>
    by_cases h : x ≤ a.location
    · have h2 : ¬ (a.location < x) := by omega
      rw [List.dropWhile_cons_of_pos (by simpa using h),
        List.filter_cons_of_neg (by simpa using h2)]
      exact ih (sortedDesc_tail hs)
    · have h2 : a.location < x := by omega
      rw [List.dropWhile_cons_of_neg (by simpa using h),
        List.filter_cons_of_pos (by simpa using h2)]
      have heq : t.filter (fun u => decide (u.location < x)) = t := by
        apply List.filter_eq_self.mpr
        intro u hu
        have := sortedDesc_head hs u hu
        simpa using by omega
      rw [heq]

theorem sortedDesc_takeWhile_ge_eq_filter {l : List OpenUpvalue} {x : Nat}
    (hs : SortedDesc l) :
    l.takeWhile (fun u => x ≤ u.location) = l.filter (fun u => x ≤ u.location) := by
  induction l with
  | nil => simp
  | cons a t ih =>
    by_cases h : x ≤ a.location
    · rw [List.takeWhile_cons_of_pos (by simpa using h),
        List.filter_cons_of_pos (by simpa using h)]
      rw [ih (sortedDesc_tail hs)]
    · rw [List.takeWhile_cons_of_neg (by simpa using h),
        List.filter_cons_of_neg (by simpa using h)]
      have heq : t.filter (fun u => decide (x ≤ u.location)) = [] := by
        apply List.filter_eq_nil_iff.mpr
        intro u hu
        have := sortedDesc_head hs u hu
        simpa using by omega
      rw [heq]

/-- C6: with the open-upvalue list sorted by strictly descending stack
address, captureUpvalue reuses the existing upvalue when one points at
the requested slot (returning its id and leaving the state unchanged);
otherwise it links a fresh upvalue for the slot at the sorted position
(the new list is a permutation of the old plus the new cell and is again
sorted); and closeUpvalues removes exactly the upvalues whose location
is >= last, recording for each the pointed-to stack value in its closed
field, with the remaining list still sorted. -/
theorem upvalue_list_spec (st : UpvalueState) (stack : List LoxValue) (slot last : Nat)
    (hs : SortedDesc st.openUpvalues) :
    (∀ u ∈ st.openUpvalues, u.location = slot → captureUpvalue st slot = (st, u.id)) ∧
    ((∀ u ∈ st.openUpvalues, u.location ≠ slot) →
      (captureUpvalue st slot).2 = st.nextId ∧
      (captureUpvalue st slot).1.openUpvalues.Perm
        (⟨st.nextId, slot⟩ :: st.openUpvalues)) ∧
    SortedDesc (captureUpvalue st slot).1.openUpvalues ∧
    ((closeUpvalues stack st last).openUpvalues =
      st.openUpvalues.filter (fun u => u.location < last)) ∧
    ((closeUpvalues stack st last).closedCells =
      ((st.openUpvalues.filter (fun u => last ≤ u.location)).map
        (fun u => (u.id, stack.getD u.location .vnil))) ++ st.closedCells) ∧
    SortedDesc (closeUpvalues stack st last).openUpvalues := by
  have hb : ∀ u ∈ st.openUpvalues.takeWhile (fun u => slot < u.location),
      slot < u.location := by
    intro u hu
    simpa using List.mem_takeWhile_imp hu
  have hr : ∀ u ∈ st.openUpvalues.dropWhile (fun u => slot < u.location),
      u.location ≤ slot := sortedDesc_dropWhile_le hs
  have hins : ∀ (hne : ∀ u ∈ st.openUpvalues, u.location ≠ slot),
      (captureUpvalue st slot).1.openUpvalues =
        st.openUpvalues.takeWhile (fun u => slot < u.location) ++
          ⟨st.nextId, slot⟩ :: st.openUpvalues.dropWhile (fun u => slot < u.location) ∧
      (captureUpvalue st slot).2 = st.nextId := by
    intro hne
    unfold captureUpvalue
    cases hrest : st.openUpvalues.dropWhile (fun u => slot < u.location) with
    | nil => simp [hrest]
    | cons u tl =>
      have hu : u ∈ st.openUpvalues := by
        have hmem : u ∈ st.openUpvalues.dropWhile (fun u => slot < u.location) := by
          rw [hrest]; exact List.mem_cons_self u tl
        exact (List.dropWhile_sublist _).mem hmem
      have hneq : u.location ≠ slot := hne u hu
      simp [hrest, hneq]
  refine ⟨?_, ?_, ?_, ?_, ?_, ?_⟩
  · intro u hu hx
    obtain ⟨tl, htl⟩ := sortedDesc_dropWhile_mem hs hu hx
    simp [captureUpvalue, htl, hx]
  · intro hne
    obtain ⟨h1, h2⟩ := hins hne
    refine ⟨h2, ?_⟩
    rw [h1]
    refine List.Perm.trans List.perm_middle ?_
    rw [List.takeWhile_append_dropWhile]
  · by_cases hex : ∃ u ∈ st.openUpvalues, u.location = slot
    · obtain ⟨u, hu, hx⟩ := hex
      obtain ⟨tl, htl⟩ := sortedDesc_dropWhile_mem hs hu hx
      have : captureUpvalue st slot = (st, u.id) := by
        simp [captureUpvalue, htl, hx]
      rw [this]
      exact hs
    · push_neg at hex
      obtain ⟨h1, _⟩ := hins hex
      rw [h1]
      have hsl : SortedDesc (st.openUpvalues.takeWhile (fun u => slot < u.location)) :=
        List.Pairwise.sublist (List.takeWhile_sublist _) hs
      have hsr : SortedDesc (st.openUpvalues.dropWhile (fun u => slot < u.location)) :=
        List.Pairwise.sublist (List.dropWhile_sublist _) hs
      have hrlt : ∀ v ∈ st.openUpvalues.dropWhile (fun u => slot < u.location),
          v.location < slot := by
        intro v hv
        have h1 := hr v hv
        have h2 := hex v ((List.dropWhile_sublist _).mem hv)
        omega
      simp only [SortedDesc, List.pairwise_append, List.pairwise_cons]
      refine ⟨hsl, ⟨fun v hv => hrlt v hv, hsr⟩, ?_⟩
      intro a ha b hb2
      rcases List.mem_cons.mp hb2 with rfl | hb2
      · exact hb a ha
      · have h1 := hr b hb2
        have h2 := hb a ha
        omega
  · show st.openUpvalues.dropWhile (fun u => last ≤ u.location) = _
    exact sortedDesc_dropWhile_ge_eq_filter hs
  · show ((st.openUpvalues.takeWhile (fun u => last ≤ u.location)).map _) ++ _ = _
    rw [sortedDesc_takeWhile_ge_eq_filter hs]
  · show SortedDesc (st.openUpvalues.dropWhile (fun u => last ≤ u.location))
    exact List.Pairwise.sublist (List.dropWhile_sublist _) hs

/-- Witness for C6 at a concrete state: open upvalues at stack slots 5
and 2, capturing slot 3 and closing from slot 3. -/
theorem upvalue_list_spec_witness :
    SortedDesc [⟨10, 5⟩, ⟨11, 2⟩] ∧
      (captureUpvalue ⟨[⟨10, 5⟩, ⟨11, 2⟩], 12, []⟩ 3).2 = 12 :=
  ⟨by decide, ((upvalue_list_spec ⟨[⟨10, 5⟩, ⟨11, 2⟩], 12, []⟩
      [.vnil, .vnil, .vnum 2, .vnum 3, .vnil, .vnum 5] 3 3 (by decide)).2.1
      (by decide)).1⟩

/-- C7: call reports "expected N arguments but got M" on arity mismatch
and pushes no frame; reports "stack overflow" when a 65th frame would be
pushed and pushes no frame; otherwise pushes exactly one new frame; and
the frame count never exceeds FRAMES_MAX = 64. -/
theorem call_frame_discipline (arity closure argCount stackTop : Nat)
    (frames : List CallFrame) (hfc : frames.length ≤ FRAMES_MAX) :
    (argCount ≠ arity →
      call arity closure argCount frames stackTop =
        ⟨[], some s!"expected {arity} arguments but got {argCount}"⟩) ∧
    (argCount = arity → frames.length = FRAMES_MAX →
      call arity closure argCount frames stackTop = ⟨[], some "stack overflow"⟩) ∧
    (argCount = arity → frames.length ≠ FRAMES_MAX →
      call arity closure argCount frames stackTop =
        ⟨⟨closure, 0, stackTop - argCount - 1⟩ :: frames, none⟩) ∧
    (call arity closure argCount frames stackTop).frames.length ≤ FRAMES_MAX := by
  unfold call
  refine ⟨fun h => by simp [h], fun h hful => by simp [h, hful], fun h hnful => by simp [h, hnful], ?_⟩
  by_cases h : argCount ≠ arity
  · simp [h]
  · by_cases hful : frames.length = FRAMES_MAX
    · simp [h, hful]
    · simp only [h, hful, if_false, if_neg hful]
      simp only [List.length_cons]
      omega

/-- Witness for C7 at a concrete input: arity 0, argc 0, empty frame
stack. -/
theorem call_frame_discipline_witness :
    ([] : List CallFrame).length ≤ FRAMES_MAX ∧
      (call 0 7 0 [] 1).frames.length ≤ FRAMES_MAX :=
  ⟨by decide, (call_frame_discipline 0 7 0 1 [] (by decide)).2.2.2⟩

set_option maxRecDepth 8000 in
/-- C8 counterexample: adding the 256th constant to a chunk that holds
255 does not raise the compile error; it succeeds with index 255.  The
error fires only on the 257th constant (index 256). -/
theorem makeConstant_256th_ok :
    (makeConstant (List.replicate 255 LoxValue.vnil) LoxValue.vnil).compileError = none ∧
    (makeConstant (List.replicate 255 LoxValue.vnil) LoxValue.vnil).index = 255 ∧
    (makeConstant (List.replicate 256 LoxValue.vnil) LoxValue.vnil).compileError =
      some "too many constants in one chunk" := by decide

/-- C8 (amended): makeConstant raises "too many constants in one chunk"
exactly when the chunk already holds at least 256 constants (the 257th
add, index 256); every index makeConstant returns fits in one byte. -/
theorem makeConstant_limit (constants : List LoxValue) (value : LoxValue) :
    ((makeConstant constants value).compileError = some "too many constants in one chunk"
       ↔ 256 ≤ constants.length) ∧
    (makeConstant constants value).index ≤ UINT8_MAX := by
  have hlen : (constants ++ [value]).length - 1 = constants.length := by simp
  unfold makeConstant addConstant UINT8_MAX
  simp only [hlen]
  by_cases h : constants.length > 255
  · simp only [if_pos h]
    exact ⟨⟨fun _ => by omega, fun _ => by simp⟩, Nat.zero_le _⟩
  · simp only [if_neg h]
    refine ⟨⟨fun hc => by simp at hc, fun hc => absurd hc (by omega)⟩, by omega⟩


/-- C1: the OBJ_NATIVE branch of callValue executes
call(AS_CLOSURE(callee), arg_count), reinterpreting the ObjNative as an
ObjClosure: at the concrete state holding the registered clock native
as the callee with zero arguments, evaluation reaches the undefined
cast dereference; the host callback is never invoked, nothing is popped
and no result is pushed, where the documented behavior would leave the
callback's return value as the single stack slot.  This holds for every
possible host callback. -/
theorem callValue_native_cast_bug (native : Nat → List LoxValue → LoxValue) :
    callValue ⟨[(0, .hnative 0)], 1, [.vobj 0], []⟩ (.vobj 0) 0 ⟨99, [], 0⟩ =
      some .castUB ∧
    callValueNativeSpec native ⟨[(0, .hnative 0)], 1, [.vobj 0], []⟩ 0 =
      ⟨[(0, .hnative 0)], 1, [native 0 []], []⟩ ∧
    some .castUB ≠
      some (CallOut.ok (callValueNativeSpec native ⟨[(0, .hnative 0)], 1, [.vobj 0], []⟩ 0)) := by
  refine ⟨rfl, rfl, ?_⟩
  intro h
  exact CallOut.noConfusion (Option.some.inj h)

/-- C2: the compiler rejects the claimed program: classDeclaration
consumes the class-body brace immediately after the class name, so the
lesser token of a superclass clause (class B less-than A) raises the
compile error about the expected class-body brace, OP_INHERIT is never
emitted, and the rules table gives TOKEN_SUPER no prefix rule, so a
super expression raises "expect expression"; the program of the claim
cannot compile, let alone print A then B. -/
theorem class_inheritance_unsupported :
    classDeclarationHeader [.identifier, .lesser, .identifier, .leftBrace] =
      .error "expect '\x7b' before class body" ∧
    (getRule .ksuper).prefixRule = none ∧
    parsePrefixDispatch .ksuper = .error "expect expression" := by
  refine ⟨rfl, rfl, rfl⟩

/-- C3: executing print on a string value writes only the newline: the
printValue switch in value.c has no VAL_OBJ case, so the existing
printObject (which would write the raw bytes foo) is never reached;
booleans and nil do print as claimed, and a number prints as the
formatter output. -/
theorem print_string_writes_nothing (fmtg : Nat → String) (n : Nat) :
    opPrint fmtg (.vobj 7) = "\n" ∧
    printObject [(7, .hstring "foo".data)] 7 = "foo" ∧
    printValueSpec fmtg [(7, .hstring "foo".data)] (.vobj 7) ++ "\n" = "foo\n" ∧
    opPrint fmtg (.vbool true) = "true\n" ∧
    opPrint fmtg (.vbool false) = "false\n" ∧
    opPrint fmtg .vnil = "nil\n" ∧
    opPrint fmtg (.vnum n) = fmtg n ++ "\n" := by
  refine ⟨rfl, rfl, rfl, rfl, rfl, rfl, rfl⟩


theorem optOr_none_left (y : Option Nat) : optOr none y = y := rfl

theorem optOr_getD (t : Option Nat) (x d : Nat) :
    (optOr t (some x)).getD d = t.getD x := by
  cases t <;> rfl

theorem optOr_none_right (t : Option Nat) : optOr t none = t := by
  cases t <;> rfl

theorem slotMatches_get? {e : List Entry} {i : Nat} {en : Entry} (h : e.get? i = some en)
    (key : StrObj) :
    slotMatches e key i = (match en.key with | some k => k.id == key.id | none => false) := by
  unfold slotMatches
  rw [h]
  obtain ⟨ek, ev⟩ := en
  cases ek <;> rfl

theorem slotEmpty_get? {e : List Entry} {i : Nat} {en : Entry} (h : e.get? i = some en) :
    slotEmpty e i = en.isEmptySlot := by
  unfold slotEmpty
  rw [h]

theorem slotTomb_get? {e : List Entry} {i : Nat} {en : Entry} (h : e.get? i = some en) :
    slotTomb e i = en.isTombstone := by
  unfold slotTomb
  rw [h]

theorem get?_of_lt {e : List Entry} {i : Nat} (h : i < e.length) :
    ∃ en, e.get? i = some en := by
  rcases List.get?_eq_some.mpr ⟨h, rfl⟩ with h2
  exact ⟨_, h2⟩

theorem firstTombAux_zero (e : List Entry) (cap idx : Nat) :
    firstTombAux e cap idx 0 = none := rfl

theorem firstTombAux_succ (e : List Entry) (cap idx j : Nat) :
    firstTombAux e cap idx (j + 1) =
      if slotTomb e idx then some idx
      else firstTombAux e cap ((idx + 1) % cap) j := rfl

/-- Characterization of the probe loop of findEntry: when the first
stop (pointer match or truly empty slot) lies J steps ahead and within
fuel, the loop returns the stop position on a match, and otherwise the
recorded or first-seen tombstone position, defaulting to the stop
position. -/
theorem findEntryAux_spec (e : List Entry) (key : StrObj) (m : Nat)
    (hlen : e.length = 2 ^ m) :
    ∀ (J fuel idx : Nat) (tomb : Option Nat), J < fuel → idx < 2 ^ m →
      slotStop e key ((idx + J) % 2 ^ m) = true →
      (∀ j < J, slotStop e key ((idx + j) % 2 ^ m) = false) →
      findEntryAux e (2 ^ m) key fuel idx tomb =
        (if slotMatches e key ((idx + J) % 2 ^ m) then some ((idx + J) % 2 ^ m)
         else some ((optOr tomb (firstTombAux e (2 ^ m) idx J)).getD ((idx + J) % 2 ^ m))) := by
  intro J
  induction J with
  | zero =>
    intro fuel idx tomb hfuel hidx hstop _hleast
    obtain ⟨f, rfl⟩ : ∃ f, fuel = f + 1 := ⟨fuel - 1, by omega⟩
    have hmod : (idx + 0) % 2 ^ m = idx := by
      rw [Nat.add_zero]; exact Nat.mod_eq_of_lt hidx
    rw [hmod] at hstop ⊢
    obtain ⟨en, hen⟩ := get?_of_lt (hlen ▸ hidx)
    unfold slotStop at hstop
    cases hk : en.key with
    | some k =>
      have hmatch : (k.id == key.id) = true := by
        rw [slotMatches_get? hen key, hk] at hstop
        rcases Bool.or_eq_true_iff.mp hstop with h | h
        · exact h
        · rw [slotEmpty_get? hen] at h
          unfold Entry.isEmptySlot at h
          rw [hk] at h
          simp at h
      have hm : slotMatches e key idx = true := by
        rw [slotMatches_get? hen key, hk]; exact hmatch
      rw [hm]
      unfold findEntryAux
      rw [hen]
      dsimp only
      rw [hk]
      dsimp only
      rw [if_pos (by simpa using hmatch), if_pos rfl]
    | none =>
      have hempty2 : en.isEmptySlot = true := by
        rw [slotMatches_get? hen key, hk, slotEmpty_get? hen] at hstop
        simpa using hstop
      have hnil : en.value = .vnil := by
        unfold Entry.isEmptySlot at hempty2
        rw [Bool.and_eq_true] at hempty2
        simpa using hempty2.2
      have hm : slotMatches e key idx = false := by
        rw [slotMatches_get? hen key, hk]
      rw [hm]
      unfold findEntryAux
      rw [hen]
      dsimp only
      rw [hk]
      dsimp only
      rw [if_pos hnil]
      rw [if_neg (by simp)]
      rw [firstTombAux_zero, optOr_none_right]
  | succ j ih =>
    intro fuel idx tomb hfuel hidx hstop hleast
    obtain ⟨f, rfl⟩ : ∃ f, fuel = f + 1 := ⟨fuel - 1, by omega⟩
    have hpos : 0 < 2 ^ m := Nat.pos_pow_of_pos m (by omega)
    have hmod : (idx + 0) % 2 ^ m = idx := by
      rw [Nat.add_zero]; exact Nat.mod_eq_of_lt hidx
    have hnostop : slotStop e key idx = false := by
      have := hleast 0 (Nat.succ_pos j)
      rwa [hmod] at this
    obtain ⟨en, hen⟩ := get?_of_lt (hlen ▸ hidx)
    have hnm : slotMatches e key idx = false := by
      unfold slotStop at hnostop
      exact (Bool.or_eq_false_iff.mp hnostop).1
    have hne : slotEmpty e idx = false := by
      unfold slotStop at hnostop
      exact (Bool.or_eq_false_iff.mp hnostop).2
    have hmask : (idx + 1) &&& (2 ^ m - 1) = (idx + 1) % 2 ^ m :=
      Nat.and_pow_two_sub_one_eq_mod (idx + 1) m
    have hidx2 : (idx + 1) % 2 ^ m < 2 ^ m := Nat.mod_lt _ hpos
    have hshift : ∀ i : Nat, ((idx + 1) % 2 ^ m + i) % 2 ^ m = (idx + (i + 1)) % 2 ^ m := by
      intro i
      rw [Nat.mod_add_mod]
      congr 1
      omega
    have hstop2 : slotStop e key (((idx + 1) % 2 ^ m + j) % 2 ^ m) = true := by
      rw [hshift j]; exact hstop
    have hleast2 : ∀ i < j, slotStop e key (((idx + 1) % 2 ^ m + i) % 2 ^ m) = false := by
      intro i hi
      rw [hshift i]
      exact hleast (i + 1) (by omega)
    have hjf : j < f := by omega
    unfold findEntryAux
    rw [hen]
    dsimp only
    cases hk : en.key with
    | some k =>
      have hkid : ¬ (k.id = key.id) := by
        rw [slotMatches_get? hen key, hk] at hnm
        simpa using hnm
      dsimp only
      rw [if_neg hkid]
      rw [hmask]
      have ihres := ih f ((idx + 1) % 2 ^ m) tomb hjf hidx2 hstop2 hleast2
      rw [ihres, hshift j]
      have htomb : slotTomb e idx = false := by
        rw [slotTomb_get? hen]
        unfold Entry.isTombstone
        rw [hk]
        rfl
      have hft : firstTombAux e (2 ^ m) idx (j + 1) =
          firstTombAux e (2 ^ m) ((idx + 1) % 2 ^ m) j := by
        rw [firstTombAux_succ, htomb]
        simp
      rw [hft]
    | none =>
      have hnnil : ¬ (en.value = .vnil) := by
        rw [slotEmpty_get? hen] at hne
        unfold Entry.isEmptySlot at hne
        rw [hk] at hne
        simpa using hne
      dsimp only
      rw [if_neg hnnil]
      rw [hmask]
      have ihres := ih f ((idx + 1) % 2 ^ m) (some (tomb.getD idx)) hjf hidx2 hstop2 hleast2
      rw [ihres, hshift j]
      have htomb : slotTomb e idx = true := by
        rw [slotTomb_get? hen]
        unfold Entry.isTombstone
        rw [hk]
        simpa using hnnil
      have hft : firstTombAux e (2 ^ m) idx (j + 1) = some idx := by
        rw [firstTombAux_succ, htomb]
        simp
      rw [hft]
      by_cases hm2 : slotMatches e key ((idx + (j + 1)) % 2 ^ m) = true
      · rw [if_pos hm2, if_pos hm2]
      · rw [if_neg hm2, if_neg hm2]
        congr 1
        cases tomb <;> rfl

/-- Existence of a stop within capacity steps: the +1 probe walk covers
every slot, so any stop slot is reached. -/
theorem stop_exists_of_slot (e : List Entry) (key : StrObj) (m : Nat) (start p : Nat)
    (hstart : start < 2 ^ m) (hp : p < 2 ^ m) (hstop : slotStop e key p = true) :
    ∃ j < 2 ^ m, slotStop e key ((start + j) % 2 ^ m) = true := by
  by_cases hge : start ≤ p
  · refine ⟨p - start, by omega, ?_⟩
    have : start + (p - start) = p := by omega
    rw [this, Nat.mod_eq_of_lt hp]
    exact hstop
  · refine ⟨p + 2 ^ m - start, by omega, ?_⟩
    have h1 : start + (p + 2 ^ m - start) = p + 2 ^ m := by omega
    rw [h1, Nat.add_mod_right, Nat.mod_eq_of_lt hp]
    exact hstop

/-- findEntry unfolded through findEntryAux_spec at the least stop. -/
theorem findEntry_spec (e : List Entry) (key : StrObj) (m : Nat)
    (hlen : e.length = 2 ^ m)
    (hstop : ∃ p < 2 ^ m, slotStop e key p = true) :
    ∃ J < 2 ^ m,
      slotStop e key ((key.hash % 2 ^ m + J) % 2 ^ m) = true ∧
      (∀ j < J, slotStop e key ((key.hash % 2 ^ m + j) % 2 ^ m) = false) ∧
      findEntry e e.length key =
        (if slotMatches e key ((key.hash % 2 ^ m + J) % 2 ^ m) then
          some ((key.hash % 2 ^ m + J) % 2 ^ m)
         else
          some ((firstTombAux e (2 ^ m) (key.hash % 2 ^ m) J).getD
            ((key.hash % 2 ^ m + J) % 2 ^ m))) := by
  have hpos : 0 < 2 ^ m := Nat.pos_pow_of_pos m (by omega)
  have hstart : key.hash % 2 ^ m < 2 ^ m := Nat.mod_lt _ hpos
  obtain ⟨p, hp, hps⟩ := hstop
  have hex : ∃ j, slotStop e key ((key.hash % 2 ^ m + j) % 2 ^ m) = true := by
    obtain ⟨j, _, hj⟩ := stop_exists_of_slot e key m (key.hash % 2 ^ m) p hstart hp hps
    exact ⟨j, hj⟩
  classical
  let J := Nat.find hex
  have hJ : slotStop e key ((key.hash % 2 ^ m + J) % 2 ^ m) = true := Nat.find_spec hex
  have hJleast : ∀ j < J, slotStop e key ((key.hash % 2 ^ m + j) % 2 ^ m) = false := by
    intro j hj
    have := Nat.find_min hex hj
    simpa using this
  have hJlt : J < 2 ^ m := by
    obtain ⟨j, hjlt, hj⟩ := stop_exists_of_slot e key m (key.hash % 2 ^ m) p hstart hp hps
    have : J ≤ j := Nat.find_min' hex hj
    omega
  refine ⟨J, hJlt, hJ, hJleast, ?_⟩
  have hmask : key.hash &&& (2 ^ m - 1) = key.hash % 2 ^ m :=
    Nat.and_pow_two_sub_one_eq_mod key.hash m
  unfold findEntry
  rw [hlen, hmask]
  have := findEntryAux_spec e key m hlen J (2 ^ m) (key.hash % 2 ^ m) none hJlt hstart hJ hJleast
  rw [this]
  rw [optOr_none_left]

theorem firstTombAux_none (e : List Entry) (m : Nat) :
    ∀ (J idx : Nat), idx < 2 ^ m →
      (∀ j < J, slotTomb e ((idx + j) % 2 ^ m) = false) →
      firstTombAux e (2 ^ m) idx J = none := by
  intro J
  induction J with
  | zero => intro idx _ _; rfl
  | succ j ih =>
    intro idx hidx hall
    have hpos : 0 < 2 ^ m := Nat.pos_pow_of_pos m (by omega)
    have h0 : slotTomb e idx = false := by
      have := hall 0 (Nat.succ_pos j)
      rwa [Nat.add_zero, Nat.mod_eq_of_lt hidx] at this
    rw [firstTombAux_succ, h0]
    simp only [Bool.false_eq_true, if_false]
    apply ih ((idx + 1) % 2 ^ m) (Nat.mod_lt _ hpos)
    intro i hi
    have hshift : ((idx + 1) % 2 ^ m + i) % 2 ^ m = (idx + (i + 1)) % 2 ^ m := by
      rw [Nat.mod_add_mod]; congr 1; omega
    rw [hshift]
    exact hall (i + 1) (by omega)

theorem firstTombAux_first (e : List Entry) (m : Nat) :
    ∀ (T J idx : Nat), idx < 2 ^ m → T < J →
      slotTomb e ((idx + T) % 2 ^ m) = true →
      (∀ j < T, slotTomb e ((idx + j) % 2 ^ m) = false) →
      firstTombAux e (2 ^ m) idx J = some ((idx + T) % 2 ^ m) := by
  intro T
  induction T with
  | zero =>
    intro J idx hidx hTJ htomb _hleast
    obtain ⟨j, rfl⟩ : ∃ j, J = j + 1 := ⟨J - 1, by omega⟩
    rw [Nat.add_zero, Nat.mod_eq_of_lt hidx] at htomb
    rw [firstTombAux_succ, htomb]
    simp only [if_true]
    rw [Nat.add_zero, Nat.mod_eq_of_lt hidx]
  | succ t ih =>
    intro J idx hidx hTJ htomb hleast
    obtain ⟨j, rfl⟩ : ∃ j, J = j + 1 := ⟨J - 1, by omega⟩
    have hpos : 0 < 2 ^ m := Nat.pos_pow_of_pos m (by omega)
    have h0 : slotTomb e idx = false := by
      have := hleast 0 (Nat.succ_pos t)
      rwa [Nat.add_zero, Nat.mod_eq_of_lt hidx] at this
    rw [firstTombAux_succ, h0]
    simp only [Bool.false_eq_true, if_false]
    have hshift : ∀ i : Nat, ((idx + 1) % 2 ^ m + i) % 2 ^ m = (idx + (i + 1)) % 2 ^ m := by
      intro i
      rw [Nat.mod_add_mod]; congr 1; omega
    have := ih j ((idx + 1) % 2 ^ m) (Nat.mod_lt _ hpos) (by omega)
      (by rw [hshift t]; exact htomb)
      (by intro i hi; rw [hshift i]; exact hleast (i + 1) (by omega))
    rw [this, hshift t]


/-- C9 (amended): for a table whose capacity is a power of two with at
least one truly empty slot, findEntry stops at the first probe position
(starting at hash mod capacity, stepping by +1) that either holds a key
pointer-equal to the probed key or is truly empty; it returns that
position on a match, and otherwise the first tombstone encountered along
the probe walk when one exists, else the empty stop position itself.  A
pointer-equal key that lies beyond the first truly empty slot of its
probe sequence is not found (see the counterexample). -/
theorem findEntry_three_cases (e : List Entry) (key : StrObj) (m : Nat)
    (hlen : e.length = 2 ^ m)
    (hempty : ∃ p < 2 ^ m, slotEmpty e p = true) :
    ∃ J < 2 ^ m,
      slotStop e key ((key.hash % 2 ^ m + J) % 2 ^ m) = true ∧
      (∀ j < J, slotStop e key ((key.hash % 2 ^ m + j) % 2 ^ m) = false) ∧
      ((slotMatches e key ((key.hash % 2 ^ m + J) % 2 ^ m) = true ∧
          findEntry e e.length key = some ((key.hash % 2 ^ m + J) % 2 ^ m)) ∨
        (slotMatches e key ((key.hash % 2 ^ m + J) % 2 ^ m) = false ∧
          slotEmpty e ((key.hash % 2 ^ m + J) % 2 ^ m) = true ∧
          ((∃ T < J, slotTomb e ((key.hash % 2 ^ m + T) % 2 ^ m) = true ∧
              (∀ j < T, slotTomb e ((key.hash % 2 ^ m + j) % 2 ^ m) = false) ∧
              findEntry e e.length key = some ((key.hash % 2 ^ m + T) % 2 ^ m)) ∨
            ((∀ j < J, slotTomb e ((key.hash % 2 ^ m + j) % 2 ^ m) = false) ∧
              findEntry e e.length key = some ((key.hash % 2 ^ m + J) % 2 ^ m))))) := by
  have hpos : 0 < 2 ^ m := Nat.pos_pow_of_pos m (by omega)
  have hstart : key.hash % 2 ^ m < 2 ^ m := Nat.mod_lt _ hpos
  have hstop : ∃ p < 2 ^ m, slotStop e key p = true := by
    obtain ⟨p, hp, hpe⟩ := hempty
    exact ⟨p, hp, by unfold slotStop; rw [hpe, Bool.or_true]⟩
  obtain ⟨J, hJlt, hJ, hJleast, hres⟩ := findEntry_spec e key m hlen hstop
  refine ⟨J, hJlt, hJ, hJleast, ?_⟩
  by_cases hm : slotMatches e key ((key.hash % 2 ^ m + J) % 2 ^ m) = true
  · left
    refine ⟨hm, ?_⟩
    rw [hres, if_pos hm]
  · right
    have hm2 : slotMatches e key ((key.hash % 2 ^ m + J) % 2 ^ m) = false :=
      Bool.eq_false_iff.mpr hm
    have hJe : slotEmpty e ((key.hash % 2 ^ m + J) % 2 ^ m) = true := by
      unfold slotStop at hJ
      rcases Bool.or_eq_true_iff.mp hJ with h | h
      · rw [hm2] at h
        exact absurd h (by simp)
      · exact h
    refine ⟨hm2, hJe, ?_⟩
    by_cases ht : ∃ T < J, slotTomb e ((key.hash % 2 ^ m + T) % 2 ^ m) = true
    · left
      classical
      have hext : ∃ T, slotTomb e ((key.hash % 2 ^ m + T) % 2 ^ m) = true := by
        obtain ⟨T, _, h⟩ := ht
        exact ⟨T, h⟩
      obtain ⟨T0, hT0lt, hT0⟩ := ht
      let T := Nat.find hext
      have hTspec : slotTomb e ((key.hash % 2 ^ m + T) % 2 ^ m) = true := Nat.find_spec hext
      have hTleast : ∀ j < T, slotTomb e ((key.hash % 2 ^ m + j) % 2 ^ m) = false := by
        intro j hj
        have := Nat.find_min hext hj
        simpa using this
      have hTJ : T < J := by
        have : T ≤ T0 := Nat.find_min' hext hT0
        omega
      refine ⟨T, hTJ, hTspec, hTleast, ?_⟩
      rw [hres, if_neg hm]
      rw [firstTombAux_first e m T J (key.hash % 2 ^ m) hstart hTJ hTspec hTleast]
      rfl
    · right
      push_neg at ht
      have hall : ∀ j < J, slotTomb e ((key.hash % 2 ^ m + j) % 2 ^ m) = false := by
        intro j hj
        exact Bool.eq_false_iff.mpr (ht j hj)
      refine ⟨hall, ?_⟩
      rw [hres, if_neg hm]
      rw [firstTombAux_none e m J (key.hash % 2 ^ m) hstart hall]
      rfl

/-- C9 counterexample: capacity 4, the probed key (id 1, hash 0) is
present at slot 1, but slot 0 (the start of its probe sequence) is
truly empty, so findEntry returns the empty slot 0 rather than the slot
whose key is pointer-equal to the probed key. -/
theorem findEntry_misses_present_key :
    findEntry
      [⟨none, .vnil⟩, ⟨some ⟨1, [], 0⟩, .vnum 0⟩, ⟨none, .vnil⟩, ⟨none, .vnil⟩]
      4 ⟨1, [], 0⟩ = some 0 ∧
    slotMatches
      [⟨none, .vnil⟩, ⟨some ⟨1, [], 0⟩, .vnum 0⟩, ⟨none, .vnil⟩, ⟨none, .vnil⟩]
      ⟨1, [], 0⟩ 1 = true ∧
    (List.get?
      [(⟨none, .vnil⟩ : Entry), ⟨some ⟨1, [], 0⟩, .vnum 0⟩, ⟨none, .vnil⟩, ⟨none, .vnil⟩]
      0).map Entry.key = some none := by
  refine ⟨rfl, rfl, rfl⟩

/-- Witness for C9 at a concrete table: capacity 2 with a tombstone at
slot 0 and an empty slot at slot 1, probing a key with hash 0. -/
theorem findEntry_three_cases_witness :
    ([(⟨none, .vbool true⟩ : Entry), ⟨none, .vnil⟩].length = 2 ^ 1) ∧
    (∃ p < 2 ^ 1, slotEmpty [(⟨none, .vbool true⟩ : Entry), ⟨none, .vnil⟩] p = true) ∧
    (∃ J < 2 ^ 1,
      slotStop [(⟨none, .vbool true⟩ : Entry), ⟨none, .vnil⟩] ⟨5, [], 0⟩
        (((⟨5, [], 0⟩ : StrObj).hash % 2 ^ 1 + J) % 2 ^ 1) = true ∧
      (∀ j < J, slotStop [(⟨none, .vbool true⟩ : Entry), ⟨none, .vnil⟩] ⟨5, [], 0⟩
        (((⟨5, [], 0⟩ : StrObj).hash % 2 ^ 1 + j) % 2 ^ 1) = false) ∧
      ((slotMatches [(⟨none, .vbool true⟩ : Entry), ⟨none, .vnil⟩] ⟨5, [], 0⟩
          (((⟨5, [], 0⟩ : StrObj).hash % 2 ^ 1 + J) % 2 ^ 1) = true ∧
          findEntry [(⟨none, .vbool true⟩ : Entry), ⟨none, .vnil⟩]
            [(⟨none, .vbool true⟩ : Entry), ⟨none, .vnil⟩].length ⟨5, [], 0⟩ =
            some (((⟨5, [], 0⟩ : StrObj).hash % 2 ^ 1 + J) % 2 ^ 1)) ∨
        (slotMatches [(⟨none, .vbool true⟩ : Entry), ⟨none, .vnil⟩] ⟨5, [], 0⟩
          (((⟨5, [], 0⟩ : StrObj).hash % 2 ^ 1 + J) % 2 ^ 1) = false ∧
          slotEmpty [(⟨none, .vbool true⟩ : Entry), ⟨none, .vnil⟩]
            (((⟨5, [], 0⟩ : StrObj).hash % 2 ^ 1 + J) % 2 ^ 1) = true ∧
          ((∃ T < J, slotTomb [(⟨none, .vbool true⟩ : Entry), ⟨none, .vnil⟩]
              (((⟨5, [], 0⟩ : StrObj).hash % 2 ^ 1 + T) % 2 ^ 1) = true ∧
              (∀ j < T, slotTomb [(⟨none, .vbool true⟩ : Entry), ⟨none, .vnil⟩]
                (((⟨5, [], 0⟩ : StrObj).hash % 2 ^ 1 + j) % 2 ^ 1) = false) ∧
              findEntry [(⟨none, .vbool true⟩ : Entry), ⟨none, .vnil⟩]
                [(⟨none, .vbool true⟩ : Entry), ⟨none, .vnil⟩].length ⟨5, [], 0⟩ =
                some (((⟨5, [], 0⟩ : StrObj).hash % 2 ^ 1 + T) % 2 ^ 1)) ∨
            ((∀ j < J, slotTomb [(⟨none, .vbool true⟩ : Entry), ⟨none, .vnil⟩]
                (((⟨5, [], 0⟩ : StrObj).hash % 2 ^ 1 + j) % 2 ^ 1) = false) ∧
              findEntry [(⟨none, .vbool true⟩ : Entry), ⟨none, .vnil⟩]
                [(⟨none, .vbool true⟩ : Entry), ⟨none, .vnil⟩].length ⟨5, [], 0⟩ =
                some (((⟨5, [], 0⟩ : StrObj).hash % 2 ^ 1 + J) % 2 ^ 1)))))) :=
  ⟨rfl, ⟨1, by decide, by decide⟩,
    findEntry_three_cases [(⟨none, .vbool true⟩ : Entry), ⟨none, .vnil⟩] ⟨5, [], 0⟩ 1
      rfl ⟨1, by decide, by decide⟩⟩


theorem length_filter_add_length_filter_not (l : List Entry) (p : Entry → Bool) :
    (l.filter p).length + (l.filter (fun a => !(p a))).length = l.length := by
  induction l with
  | nil => rfl
  | cons a t ih =>
    by_cases h : p a = true
    · rw [List.filter_cons_of_pos h, List.filter_cons_of_neg (by simp [h])]
      simp only [List.length_cons]
      omega
    · rw [List.filter_cons_of_neg h, List.filter_cons_of_pos (by simp [Bool.eq_false_iff.mpr h])]
      simp only [List.length_cons]
      omega

theorem nonEmptyCount_le_length (e : List Entry) : nonEmptyCount e ≤ e.length := by
  unfold nonEmptyCount
  exact List.length_filter_le _ _

theorem keyedCount_le_nonEmptyCount (e : List Entry) : keyedCount e ≤ nonEmptyCount e := by
  unfold keyedCount nonEmptyCount
  induction e with
  | nil => simp
  | cons a t ih =>
    simp only [List.filter_cons]
    by_cases h : a.key.isSome = true
    · have h2 : (!a.isEmptySlot) = true := by
        unfold Entry.isEmptySlot
        rcases hk : a.key with _ | k
        · rw [hk] at h; simp at h
        · simp [hk]
      rw [if_pos h, if_pos h2]
      simpa using ih
    · rw [if_neg h]
      by_cases h2 : (!a.isEmptySlot) = true
      · rw [if_pos h2]
        simp only [List.length_cons]
        omega
      · rw [if_neg h2]
        exact ih

/-- Fewer non-empty slots than slots at all yields a truly empty slot
at some index. -/
theorem exists_empty_of_lt {e : List Entry} (h : nonEmptyCount e < e.length) :
    ∃ p < e.length, slotEmpty e p = true := by
  have hex : ∃ en ∈ e, en.isEmptySlot = true := by
    by_contra hc
    push_neg at hc
    have heq : e.filter (fun en => !en.isEmptySlot) = e := by
      apply List.filter_eq_self.mpr
      intro en hen
      have := hc en hen
      simp only [Bool.not_eq_true] at this ⊢
      rw [this]
      rfl
    unfold nonEmptyCount at h
    rw [heq] at h
    omega
  obtain ⟨en, hen, he⟩ := hex
  obtain ⟨i, hi⟩ := List.mem_iff_get?.mp hen
  obtain ⟨hlt, _⟩ := List.get?_eq_some.mp hi
  exact ⟨i, hlt, by rw [slotEmpty_get? hi]; exact he⟩


theorem filter_length_set_le (p : Entry → Bool) :
    ∀ (e : List Entry) (i : Nat) (x : Entry),
      ((e.set i x).filter p).length ≤ (e.filter p).length + 1 := by
  intro e
  induction e with
  | nil => intro i x; simp
  | cons a t ih =>
    intro i x
    cases i with
    | zero =>
      simp only [List.set_cons_zero, List.filter_cons]
      by_cases hx : p x = true
      · rw [if_pos hx]
        by_cases ha : p a = true
        · rw [if_pos ha]
          simp
        · rw [if_neg ha]
          simp only [List.length_cons]
          omega
      · rw [if_neg hx]
        by_cases ha : p a = true
        · rw [if_pos ha]
          simp only [List.length_cons]
          omega
        · rw [if_neg ha]
          omega
    | succ j =>
      simp only [List.set_cons_succ, List.filter_cons]
      by_cases ha : p a = true
      · rw [if_pos ha, if_pos ha]
        simp only [List.length_cons]
        have := ih j x
        omega
      · rw [if_neg ha, if_neg ha]
        exact ih j x

theorem nonEmptyCount_set_le (e : List Entry) (i : Nat) (x : Entry) :
    nonEmptyCount (e.set i x) ≤ nonEmptyCount e + 1 :=
  filter_length_set_le _ e i x

/-- Setting a slot whose new key (if any) avoids kid preserves key
absence. -/
theorem keyAbsentB_set {e : List Entry} {kid : Nat} (h : keyAbsentB e kid = true)
    (i : Nat) (x : Entry) (hx : ∀ k, x.key = some k → k.id ≠ kid) :
    keyAbsentB (e.set i x) kid = true := by
  unfold keyAbsentB at h ⊢
  rw [List.all_eq_true] at h ⊢
  intro en hen
  rcases List.mem_or_eq_of_mem_set hen with hmem | rfl
  · exact h en hmem
  · rcases hk : en.key with _ | k
    · rfl
    · have := hx k hk
      simpa using this

theorem slotMatches_set_ne {e : List Entry} {s i : Nat} (h : s ≠ i) (x : Entry)
    (key : StrObj) : slotMatches (e.set s x) key i = slotMatches e key i := by
  unfold slotMatches
  rw [List.get?_set_ne x e h]

theorem slotEmpty_set_ne {e : List Entry} {s i : Nat} (h : s ≠ i) (x : Entry) :
    slotEmpty (e.set s x) i = slotEmpty e i := by
  unfold slotEmpty
  rw [List.get?_set_ne x e h]

theorem slotTomb_set_ne {e : List Entry} {s i : Nat} (h : s ≠ i) (x : Entry) :
    slotTomb (e.set s x) i = slotTomb e i := by
  unfold slotTomb
  rw [List.get?_set_ne x e h]

theorem slotStop_set_ne {e : List Entry} {s i : Nat} (h : s ≠ i) (x : Entry)
    (key : StrObj) : slotStop (e.set s x) key i = slotStop e key i := by
  unfold slotStop
  rw [slotMatches_set_ne h, slotEmpty_set_ne h]

/-- No slot matches a key whose id is absent from the array. -/
theorem slotMatches_absent {e : List Entry} {key : StrObj}
    (h : keyAbsentB e key.id = true) (i : Nat) : slotMatches e key i = false := by
  unfold slotMatches
  cases hg : e.get? i with
  | none => rfl
  | some en =>
    rcases hk : en.key with _ | k
    · obtain ⟨ek, ev⟩ := en
      cases ek
      · rfl
      · simp at hk
    · unfold keyAbsentB at h
      rw [List.all_eq_true] at h
      have := h en (List.get?_mem hg)
      rw [hk] at this
      obtain ⟨ek, ev⟩ := en
      simp only at hk
      subst hk
      simpa using this

/-- firstTombAux returns a tombstone position inside the array. -/
theorem firstTombAux_some {e : List Entry} {cap : Nat} (hcap : 0 < cap) :
    ∀ (J idx t : Nat), idx < cap → firstTombAux e cap idx J = some t →
      slotTomb e t = true ∧ t < cap := by
  intro J
  induction J with
  | zero => intro idx t _ h; rw [firstTombAux_zero] at h; exact absurd h (by simp)
  | succ j ih =>
    intro idx t hidx h
    rw [firstTombAux_succ] at h
    by_cases ht : slotTomb e idx = true
    · rw [if_pos ht] at h
      obtain rfl : idx = t := by simpa using h
      exact ⟨ht, hidx⟩
    · rw [if_neg ht] at h
      exact ih ((idx + 1) % cap) t (Nat.mod_lt _ hcap) h

theorem slotTomb_nonEmpty_pos {e : List Entry} {i : Nat} (h : slotTomb e i = true) :
    1 ≤ nonEmptyCount e := by
  unfold slotTomb at h
  cases hg : e.get? i with
  | none => rw [hg] at h; simp at h
  | some en =>
    rw [hg] at h
    have hmem : en ∈ e := List.get?_mem hg
    have hne : (!en.isEmptySlot) = true := by
      unfold Entry.isTombstone at h
      unfold Entry.isEmptySlot
      rw [Bool.and_eq_true] at h
      rw [h.1]
      simpa using h.2
    have : en ∈ e.filter (fun x => !x.isEmptySlot) := List.mem_filter.mpr ⟨hmem, hne⟩
    unfold nonEmptyCount
    exact List.length_pos.mpr (List.ne_nil_of_mem this)

theorem slotTomb_key_none {e : List Entry} {i : Nat} (h : slotTomb e i = true) :
    (e.getD i emptyEntry).key = none := by
  unfold slotTomb at h
  cases hg : e.get? i with
  | none => rw [hg] at h; simp at h
  | some en =>
    rw [hg] at h
    unfold Entry.isTombstone at h
    rw [Bool.and_eq_true] at h
    have : e.getD i emptyEntry = en := by
      show (e.get? i).getD emptyEntry = en
      rw [hg]
      rfl
    rw [this]
    simpa using h.1

theorem slotEmpty_key_none {e : List Entry} {i : Nat} (h : slotEmpty e i = true) :
    (e.getD i emptyEntry).key = none := by
  unfold slotEmpty at h
  cases hg : e.get? i with
  | none => rw [hg] at h; simp at h
  | some en =>
    rw [hg] at h
    unfold Entry.isEmptySlot at h
    rw [Bool.and_eq_true] at h
    have : e.getD i emptyEntry = en := by
      show (e.get? i).getD emptyEntry = en
      rw [hg]
      rfl
    rw [this]
    simpa using h.1

theorem slotEmpty_value_nil {e : List Entry} {i : Nat} (h : slotEmpty e i = true) :
    (e.getD i emptyEntry).value = .vnil := by
  unfold slotEmpty at h
  cases hg : e.get? i with
  | none => rw [hg] at h; simp at h
  | some en =>
    rw [hg] at h
    unfold Entry.isEmptySlot at h
    rw [Bool.and_eq_true] at h
    have : e.getD i emptyEntry = en := by
      show (e.get? i).getD emptyEntry = en
      rw [hg]
      rfl
    rw [this]
    simpa using h.2

/-- Distinct probe offsets below the capacity land on distinct slots. -/
theorem probe_pos_ne {cap st : Nat} (hst : st < cap) {j d : Nat} (hj : j < cap)
    (hd : d < cap) (hne : j ≠ d) : (st + j) % cap ≠ (st + d) % cap := by
  intro h
  have h1 : (st + j) % cap = (st + d) % cap := h
  have h2 : j % cap = d % cap := by
    have := Nat.ModEq.add_left_cancel' st h1
    exact this
  rw [Nat.mod_eq_of_lt hj, Nat.mod_eq_of_lt hd] at h2
  exact hne h2


theorem slotTomb_value_ne_nil {e : List Entry} {i : Nat} (h : slotTomb e i = true) :
    ¬ ((e.getD i emptyEntry).value = .vnil) := by
  unfold slotTomb at h
  cases hg : e.get? i with
  | none => rw [hg] at h; simp at h
  | some en =>
    rw [hg] at h
    unfold Entry.isTombstone at h
    rw [Bool.and_eq_true] at h
    have he : e.getD i emptyEntry = en := by
      show (e.get? i).getD emptyEntry = en
      rw [hg]
      rfl
    rw [he]
    have h2 := h.2
    simp only [Bool.not_eq_true] at h2
    intro hc
    rw [hc] at h2
    simp at h2

/-- Inverse characterization of firstTombAux: a returned position is
the first tombstone along the walk. -/
theorem firstTombAux_some_spec {e : List Entry} {cap : Nat} (hcap : 0 < cap) :
    ∀ (J idx t : Nat), idx < cap → firstTombAux e cap idx J = some t →
      ∃ T < J, t = (idx + T) % cap ∧ slotTomb e t = true ∧
        ∀ j < T, slotTomb e ((idx + j) % cap) = false := by
  intro J
  induction J with
  | zero => intro idx t _ h; rw [firstTombAux_zero] at h; exact absurd h (by simp)
  | succ j ih =>
    intro idx t hidx h
    rw [firstTombAux_succ] at h
    by_cases ht : slotTomb e idx = true
    · rw [if_pos ht] at h
      obtain rfl : idx = t := by simpa using h
      refine ⟨0, Nat.succ_pos j, ?_, ht, by omega⟩
      rw [Nat.add_zero, Nat.mod_eq_of_lt hidx]
    · rw [if_neg ht] at h
      obtain ⟨T, hTj, hTeq, hTt, hTleast⟩ := ih ((idx + 1) % cap) t (Nat.mod_lt _ hcap) h
      have hshift : ∀ i : Nat, ((idx + 1) % cap + i) % cap = (idx + (i + 1)) % cap := by
        intro i
        rw [Nat.mod_add_mod]
        congr 1
        omega
      refine ⟨T + 1, by omega, by rw [← hshift T]; exact hTeq, hTt, ?_⟩
      intro i hi
      cases i with
      | zero =>
        rw [Nat.add_zero, Nat.mod_eq_of_lt hidx]
        exact Bool.eq_false_iff.mpr ht
      | succ i2 =>
        rw [← hshift i2]
        exact hTleast i2 (by omega)

/-- A table with two more slots than non-empty slots has a truly empty
slot at an index different from any chosen index. -/
theorem exists_empty_ne {e : List Entry} (h : nonEmptyCount e + 2 ≤ e.length) (s : Nat) :
    ∃ p < e.length, p ≠ s ∧ slotEmpty e p = true := by
  have h2 : nonEmptyCount (e.set s ⟨some ⟨0, [], 0⟩, .vnil⟩) <
      (e.set s ⟨some ⟨0, [], 0⟩, .vnil⟩).length := by
    rw [List.length_set]
    have := nonEmptyCount_set_le e s ⟨some ⟨0, [], 0⟩, .vnil⟩
    omega
  obtain ⟨p, hp, hpe⟩ := exists_empty_of_lt h2
  rw [List.length_set] at hp
  have hps : p ≠ s := by
    intro heq
    subst heq
    by_cases hlt : p < e.length
    · unfold slotEmpty at hpe
      rw [List.get?_set_eq_of_lt _ hlt] at hpe
      unfold Entry.isEmptySlot at hpe
      simp at hpe
    · omega
  refine ⟨p, hp, hps, ?_⟩
  rw [slotEmpty_set_ne (by omega : s ≠ p)] at hpe
  exact hpe

theorem nonEmptyCount_replicate (n : Nat) :
    nonEmptyCount (List.replicate n emptyEntry) = 0 := by
  unfold nonEmptyCount
  rw [List.filter_eq_nil_iff.mpr]
  · rfl
  · intro a ha
    have : a = emptyEntry := List.eq_of_mem_replicate ha
    subst this
    simp [Entry.isEmptySlot, emptyEntry]

theorem keyAbsentB_replicate (n kid : Nat) :
    keyAbsentB (List.replicate n emptyEntry) kid = true := by
  unfold keyAbsentB
  rw [List.all_eq_true]
  intro en hen
  have : en = emptyEntry := List.eq_of_mem_replicate hen
  subst this
  rfl

theorem slotTomb_replicate (n i : Nat) :
    slotTomb (List.replicate n emptyEntry) i = false := by
  unfold slotTomb
  cases hg : (List.replicate n emptyEntry).get? i with
  | none => rfl
  | some en =>
    have : en = emptyEntry := List.eq_of_mem_replicate (List.get?_mem hg)
    subst this
    simp [Entry.isTombstone, emptyEntry]

/-- No tombstone at the keyed-update of a tombstone-free array. -/
theorem slotTomb_set_keyed {e : List Entry} (htomb : ∀ i, slotTomb e i = false)
    (s : Nat) (k : StrObj) (v : LoxValue) :
    ∀ i, slotTomb (e.set s ⟨some k, v⟩) i = false := by
  intro i
  by_cases hsi : s = i
  · subst hsi
    by_cases hlt : s < e.length
    · unfold slotTomb
      rw [List.get?_set_eq_of_lt _ hlt]
      simp [Entry.isTombstone]
    · rw [List.set_eq_of_length_le (by omega)]
      exact htomb s
  · rw [slotTomb_set_ne hsi]
    exact htomb i

/-- The reinsertion fold of adjustCapacity: with room for every keyed
entry, the fold succeeds, keeps the capacity, introduces no tombstones,
keeps key absence, and bounds the non-empty slots by the keyed entries
processed. -/
theorem adjust_fold (m2 kid : Nat) :
    ∀ (l : List Entry) (ents : List Entry) (cnt : Nat),
      ents.length = 2 ^ m2 →
      nonEmptyCount ents + keyedCount l < 2 ^ m2 →
      keyAbsentB ents kid = true →
      (∀ en ∈ l, ∀ k, en.key = some k → k.id ≠ kid) →
      (∀ i, slotTomb ents i = false) →
      ∃ ents2 cnt2,
        List.foldl (adjustInsert (2 ^ m2)) (some (ents, cnt)) l = some (ents2, cnt2) ∧
        ents2.length = 2 ^ m2 ∧
        nonEmptyCount ents2 ≤ nonEmptyCount ents + keyedCount l ∧
        keyAbsentB ents2 kid = true ∧
        (∀ i, slotTomb ents2 i = false) ∧
        (∀ en2 ∈ ents2, ∀ k2, en2.key = some k2 →
          (∃ en0 ∈ l, en0.key = some k2) ∨ (∃ en0 ∈ ents, en0.key = some k2)) := by
  intro l
  induction l with
  | nil =>
    intro ents cnt hlen _hb habs _hl htomb
    refine ⟨ents, cnt, rfl, hlen, ?_, habs, htomb, ?_⟩
    · unfold keyedCount
      simp
    · intro en2 h2 k2 hk2
      exact Or.inr ⟨en2, h2, hk2⟩
  | cons en rest ih =>
    intro ents cnt hlen hb habs hl htomb
    rw [List.foldl_cons]
    have hpos : 0 < 2 ^ m2 := Nat.pos_pow_of_pos m2 (by omega)
    rcases hk : en.key with _ | k
    · have hkc : keyedCount (en :: rest) = keyedCount rest := by
        unfold keyedCount
        rw [List.filter_cons, if_neg (by rw [hk]; simp)]
      dsimp only [adjustInsert]
      rw [hk]
      dsimp only
      rw [hkc] at hb ⊢
      obtain ⟨e2, c2, hfold, hl2, hb3, ha3, ht3, hsub3⟩ :=
        ih ents cnt hlen hb habs
          (fun e2 he => hl e2 (List.mem_cons_of_mem en he)) htomb
      refine ⟨e2, c2, hfold, hl2, hb3, ha3, ht3, ?_⟩
      intro en2 h2 k2 hk2
      rcases hsub3 en2 h2 k2 hk2 with ⟨en0, h0, hk0⟩ | hr
      · exact Or.inl ⟨en0, List.mem_cons_of_mem en h0, hk0⟩
      · exact Or.inr hr
    · have hkc : keyedCount (en :: rest) = keyedCount rest + 1 := by
        unfold keyedCount
        rw [List.filter_cons, if_pos (by rw [hk]; rfl)]
        simp [Nat.add_comm]
      rw [hkc] at hb
      dsimp only [adjustInsert]
      rw [hk]
      dsimp only
      have hroom : nonEmptyCount ents < 2 ^ m2 := by omega
      have hstop : ∃ p < 2 ^ m2, slotStop ents k p = true := by
        obtain ⟨p, hp, hpe⟩ := exists_empty_of_lt (by rw [hlen]; exact hroom)
        exact ⟨p, by rw [← hlen]; exact hp,
          by unfold slotStop; rw [hpe, Bool.or_true]⟩
      obtain ⟨J, hJlt, hJ, hJleast, hres⟩ := findEntry_spec ents k m2 hlen hstop
      rw [hlen] at hres
      have hstart : k.hash % 2 ^ m2 < 2 ^ m2 := Nat.mod_lt _ hpos
      have hfind : findEntry ents (2 ^ m2) k = some ((k.hash % 2 ^ m2 + J) % 2 ^ m2) := by
        rw [hres]
        by_cases hm : slotMatches ents k ((k.hash % 2 ^ m2 + J) % 2 ^ m2) = true
        · rw [if_pos hm]
        · rw [if_neg hm]
          cases hft : firstTombAux ents (2 ^ m2) (k.hash % 2 ^ m2) J with
          | none => rfl
          | some t =>
            have := (firstTombAux_some hpos J (k.hash % 2 ^ m2) t hstart hft).1
            rw [htomb t] at this
            exact absurd this (by simp)
      rw [hfind]
      dsimp only
      have hilt : (k.hash % 2 ^ m2 + J) % 2 ^ m2 < 2 ^ m2 := Nat.mod_lt _ hpos
      have hlen2 : (ents.set ((k.hash % 2 ^ m2 + J) % 2 ^ m2) ⟨some k, en.value⟩).length =
          2 ^ m2 := by
        rw [List.length_set]; exact hlen
      have hb2 : nonEmptyCount (ents.set ((k.hash % 2 ^ m2 + J) % 2 ^ m2) ⟨some k, en.value⟩) +
          keyedCount rest < 2 ^ m2 := by
        have := nonEmptyCount_set_le ents ((k.hash % 2 ^ m2 + J) % 2 ^ m2) ⟨some k, en.value⟩
        omega
      have habs2 : keyAbsentB
          (ents.set ((k.hash % 2 ^ m2 + J) % 2 ^ m2) ⟨some k, en.value⟩) kid = true := by
        apply keyAbsentB_set habs
        intro k2 hk2
        have : k2 = k := by simpa using hk2.symm
        subst this
        exact hl en (List.mem_cons_self en rest) k2 hk
      have htomb2 := slotTomb_set_keyed htomb ((k.hash % 2 ^ m2 + J) % 2 ^ m2) k en.value
      obtain ⟨e2, c2, hfold, hl2, hb3, ha3, ht3, hsub3⟩ :=
        ih (ents.set ((k.hash % 2 ^ m2 + J) % 2 ^ m2) ⟨some k, en.value⟩) (cnt + 1)
          hlen2 hb2 habs2 (fun e3 he => hl e3 (List.mem_cons_of_mem en he)) htomb2
      refine ⟨e2, c2, hfold, hl2, ?_, ha3, ht3, ?_⟩
      · have := nonEmptyCount_set_le ents ((k.hash % 2 ^ m2 + J) % 2 ^ m2) ⟨some k, en.value⟩
        omega
      · intro en2 h2 k2 hk2
        rcases hsub3 en2 h2 k2 hk2 with ⟨en0, h0, hk0⟩ | ⟨en0, h0, hk0⟩
        · exact Or.inl ⟨en0, List.mem_cons_of_mem en h0, hk0⟩
        · rcases List.mem_or_eq_of_mem_set h0 with h0e | h0e
          · exact Or.inr ⟨en0, h0e, hk0⟩
          · subst h0e
            simp only at hk0
            obtain rfl : k = k2 := by simpa using hk0
            exact Or.inl ⟨en, List.mem_cons_self en rest, hk⟩

/-- adjustCapacity to a power-of-two capacity with room for every keyed
entry succeeds; the result has the requested capacity, no tombstones,
at most as many non-empty slots as the old table had keyed entries, and
no key with the avoided id. -/
theorem adjust_ok (t : Table) (m2 kid : Nat)
    (hroom : keyedCount t.entries < 2 ^ m2)
    (habs : ∀ en ∈ t.entries, ∀ k, en.key = some k → k.id ≠ kid) :
    ∃ t2, adjustCapacity t (2 ^ m2) = some t2 ∧
      t2.entries.length = 2 ^ m2 ∧
      nonEmptyCount t2.entries ≤ keyedCount t.entries ∧
      keyAbsentB t2.entries kid = true ∧
      (∀ i, slotTomb t2.entries i = false) ∧
      (∀ en2 ∈ t2.entries, ∀ k2, en2.key = some k2 →
        ∃ en0 ∈ t.entries, en0.key = some k2) := by
  obtain ⟨e2, c2, hfold, hl2, hb2, ha2, ht2, hsub2⟩ :=
    adjust_fold m2 kid t.entries (List.replicate (2 ^ m2) emptyEntry) 0
      (by rw [List.length_replicate])
      (by rw [nonEmptyCount_replicate]; omega)
      (keyAbsentB_replicate _ _)
      habs
      (slotTomb_replicate _)
  refine ⟨⟨c2, e2⟩, ?_, hl2, ?_, ha2, ht2, ?_⟩
  case refine_2 =>
    show nonEmptyCount e2 ≤ keyedCount t.entries
    rw [nonEmptyCount_replicate] at hb2
    omega
  case refine_3 =>
    intro en2 h2 k2 hk2
    rcases hsub2 en2 h2 k2 hk2 with h | ⟨en0, h0, hk0⟩
    · exact h
    · have : en0 = emptyEntry := List.eq_of_mem_replicate h0
      subst this
      simp [emptyEntry] at hk0
  unfold adjustCapacity
  rw [hfold]
  rfl


/-- Core of the OP_SET_GLOBAL analysis: on a power-of-two table with
two spare slots, no tombstone unaccounted in count, and the name absent,
findEntry lands on a key-free slot; inserting the name there, deleting
it again and looking it up yields an absent binding. -/
theorem setInsertDeleteGet_core (t2 : Table) (name : StrObj) (v : LoxValue) (m2 : Nat)
    (hlen2 : t2.entries.length = 2 ^ m2)
    (habs2 : keyAbsentB t2.entries name.id = true)
    (hspace : nonEmptyCount t2.entries + 2 ≤ 2 ^ m2)
    (htc : ∀ i, slotTomb t2.entries i = true → 1 ≤ t2.count) :
    ∃ s < 2 ^ m2,
      findEntry t2.entries t2.entries.length name = some s ∧
      (t2.entries.getD s emptyEntry).key = none ∧
      1 ≤ (if ((t2.entries.getD s emptyEntry).key.isNone &&
            ((t2.entries.getD s emptyEntry).value == LoxValue.vnil)) then t2.count + 1
           else t2.count) ∧
      (∀ cnt3, 1 ≤ cnt3 →
        ∃ t4, tableDelete ⟨cnt3, t2.entries.set s ⟨some name, v⟩⟩ name = some (t4, true) ∧
          tableGet t4 name = some none ∧
          keyAbsentB t4.entries name.id = true) := by
  have hpos : 0 < 2 ^ m2 := Nat.pos_pow_of_pos m2 (by omega)
  have hstart : name.hash % 2 ^ m2 < 2 ^ m2 := Nat.mod_lt _ hpos
  have hempty : ∃ p < 2 ^ m2, slotEmpty t2.entries p = true := by
    obtain ⟨p, hp, hpe⟩ :=
      exists_empty_of_lt (e := t2.entries) (by rw [hlen2]; omega)
    exact ⟨p, by rw [← hlen2]; exact hp, hpe⟩
  have hstop : ∃ p < 2 ^ m2, slotStop t2.entries name p = true := by
    obtain ⟨p, hp, hpe⟩ := hempty
    exact ⟨p, hp, by unfold slotStop; rw [hpe, Bool.or_true]⟩
  obtain ⟨J, hJlt, hJ, hJleast, hres⟩ := findEntry_spec t2.entries name m2 hlen2 hstop
  have hnm : ∀ i, slotMatches t2.entries name i = false := slotMatches_absent habs2
  rw [if_neg (by rw [hnm]; simp)] at hres
  have hJempty : slotEmpty t2.entries ((name.hash % 2 ^ m2 + J) % 2 ^ m2) = true := by
    unfold slotStop at hJ
    rw [hnm] at hJ
    simpa using hJ
  -- choose the insertion slot with its first-stop distance
  have hmain : ∃ s D, s = (name.hash % 2 ^ m2 + D) % 2 ^ m2 ∧ D < 2 ^ m2 ∧ s < 2 ^ m2 ∧
      (∀ j < D, slotStop t2.entries name ((name.hash % 2 ^ m2 + j) % 2 ^ m2) = false) ∧
      findEntry t2.entries t2.entries.length name = some s ∧
      (t2.entries.getD s emptyEntry).key = none ∧
      1 ≤ (if ((t2.entries.getD s emptyEntry).key.isNone &&
            ((t2.entries.getD s emptyEntry).value == LoxValue.vnil)) then t2.count + 1
           else t2.count) := by
    cases hft : firstTombAux t2.entries (2 ^ m2) (name.hash % 2 ^ m2) J with
    | none =>
      rw [hft] at hres
      refine ⟨(name.hash % 2 ^ m2 + J) % 2 ^ m2, J, rfl, hJlt, Nat.mod_lt _ hpos,
        hJleast, hres, slotEmpty_key_none hJempty, ?_⟩
      rw [slotEmpty_key_none hJempty, slotEmpty_value_nil hJempty]
      simp
    | some tv =>
      rw [hft] at hres
      obtain ⟨T, hTJ, hTeq, hTtomb, _hTleast⟩ :=
        firstTombAux_some_spec hpos J (name.hash % 2 ^ m2) tv hstart hft
      have htvlt : tv < 2 ^ m2 := (firstTombAux_some hpos J (name.hash % 2 ^ m2) tv hstart hft).2
      refine ⟨tv, T, hTeq, by omega, htvlt, ?_, hres, slotTomb_key_none hTtomb, ?_⟩
      · intro j hj
        exact hJleast j (by omega)
      · rw [if_neg ?_]
        · exact htc tv hTtomb
        · intro hc
          rw [Bool.and_eq_true] at hc
          exact slotTomb_value_ne_nil hTtomb (by simpa using hc.2)
  obtain ⟨s, D, hsD, hDlt, hslt, hprev, hfind, hkeynone, hcnt⟩ := hmain
  refine ⟨s, hslt, hfind, hkeynone, hcnt, ?_⟩
  intro cnt3 hcnt3
  -- the freshly inserted slot is found again by tableDelete
  have hslt2 : s < t2.entries.length := by rw [hlen2]; exact hslt
  have hlen3 : (t2.entries.set s ⟨some name, v⟩).length = 2 ^ m2 := by
    rw [List.length_set]; exact hlen2
  have hget3 : (t2.entries.set s ⟨some name, v⟩).get? s = some ⟨some name, v⟩ :=
    List.get?_set_eq_of_lt _ hslt2
  have hmatch3 : slotMatches (t2.entries.set s ⟨some name, v⟩) name s = true := by
    rw [slotMatches_get? hget3 name]
    simp
  have hstop3 : ∃ p < 2 ^ m2, slotStop (t2.entries.set s ⟨some name, v⟩) name p = true :=
    ⟨s, hslt, by unfold slotStop; rw [hmatch3, Bool.true_or]⟩
  obtain ⟨J3, hJ3lt, hJ3, hJ3least, hres3⟩ :=
    findEntry_spec (t2.entries.set s ⟨some name, v⟩) name m2 hlen3 hstop3
  have hprev3 : ∀ j < D,
      slotStop (t2.entries.set s ⟨some name, v⟩) name ((name.hash % 2 ^ m2 + j) % 2 ^ m2) =
        false := by
    intro j hj
    have hne : s ≠ (name.hash % 2 ^ m2 + j) % 2 ^ m2 := by
      rw [hsD]
      exact (probe_pos_ne hstart (by omega) hDlt (by omega)).symm
    rw [slotStop_set_ne hne]
    exact hprev j hj
  have hstopD3 : slotStop (t2.entries.set s ⟨some name, v⟩) name
      ((name.hash % 2 ^ m2 + D) % 2 ^ m2) = true := by
    rw [← hsD]
    unfold slotStop
    rw [hmatch3, Bool.true_or]
  have hJ3D : J3 = D := by
    by_contra hne
    rcases Nat.lt_or_ge J3 D with hlt | hge
    · have := hprev3 J3 hlt
      rw [hJ3] at this
      exact absurd this (by simp)
    · have hDJ3 : D < J3 := by omega
      have := hJ3least D hDJ3
      rw [hstopD3] at this
      exact absurd this (by simp)
  subst hJ3D
  have hfind3 : findEntry (t2.entries.set s ⟨some name, v⟩)
      (t2.entries.set s ⟨some name, v⟩).length name = some s := by
    rw [hres3, if_pos (by rw [← hsD]; exact hmatch3), ← hsD]
  -- tableDelete tombstones exactly that slot
  have hdel : tableDelete ⟨cnt3, t2.entries.set s ⟨some name, v⟩⟩ name =
      some (⟨cnt3, (t2.entries.set s ⟨some name, v⟩).set s ⟨none, .vbool true⟩⟩, true) := by
    unfold tableDelete
    rw [if_neg (by dsimp only; omega :
      ¬ (Table.mk cnt3 (t2.entries.set s ⟨some name, v⟩)).count = 0)]
    dsimp only
    rw [hfind3]
    dsimp only
    have : ((t2.entries.set s ⟨some name, v⟩).getD s emptyEntry) = ⟨some name, v⟩ := by
      show ((t2.entries.set s ⟨some name, v⟩).get? s).getD emptyEntry = _
      rw [hget3]
      rfl
    rw [this]
  rw [List.set_set] at hdel
  refine ⟨⟨cnt3, t2.entries.set s ⟨none, .vbool true⟩⟩, hdel, ?_, ?_⟩
  · -- tableGet finds no binding afterwards
    have hlen4 : (t2.entries.set s ⟨none, .vbool true⟩).length = 2 ^ m2 := by
      rw [List.length_set]; exact hlen2
    have habs4 : keyAbsentB (t2.entries.set s ⟨none, .vbool true⟩) name.id = true := by
      apply keyAbsentB_set habs2
      intro k hk
      simp at hk
    have hnm4 : ∀ i, slotMatches (t2.entries.set s ⟨none, .vbool true⟩) name i = false :=
      slotMatches_absent habs4
    have hstop4 : ∃ p < 2 ^ m2, slotStop (t2.entries.set s ⟨none, .vbool true⟩) name p =
        true := by
      obtain ⟨p, hp, hpne, hpe⟩ := exists_empty_ne (e := t2.entries) (by omega) s
      refine ⟨p, by rw [← hlen2]; exact hp, ?_⟩
      unfold slotStop
      rw [slotEmpty_set_ne (by omega : s ≠ p), hpe, Bool.or_true]
    obtain ⟨J4, hJ4lt, hJ4, _hJ4least, hres4⟩ :=
      findEntry_spec (t2.entries.set s ⟨none, .vbool true⟩) name m2 hlen4 hstop4
    rw [if_neg (by rw [hnm4]; simp)] at hres4
    have hJ4empty : slotEmpty (t2.entries.set s ⟨none, .vbool true⟩)
        ((name.hash % 2 ^ m2 + J4) % 2 ^ m2) = true := by
      unfold slotStop at hJ4
      rw [hnm4] at hJ4
      simpa using hJ4
    have hkeynone4 : ((t2.entries.set s ⟨none, .vbool true⟩).getD
        ((firstTombAux (t2.entries.set s ⟨none, .vbool true⟩) (2 ^ m2)
          (name.hash % 2 ^ m2) J4).getD ((name.hash % 2 ^ m2 + J4) % 2 ^ m2))
        emptyEntry).key = none := by
      cases hft4 : firstTombAux (t2.entries.set s ⟨none, .vbool true⟩) (2 ^ m2)
          (name.hash % 2 ^ m2) J4 with
      | none =>
        dsimp only [Option.getD]
        exact slotEmpty_key_none hJ4empty
      | some tv4 =>
        dsimp only [Option.getD]
        exact slotTomb_key_none
          (firstTombAux_some hpos J4 (name.hash % 2 ^ m2) tv4 hstart hft4).1
    unfold tableGet
    rw [if_neg (by dsimp only; omega :
      ¬ (Table.mk cnt3 (t2.entries.set s ⟨none, .vbool true⟩)).count = 0)]
    dsimp only
    rw [hres4]
    dsimp only
    rw [hkeynone4]
  · apply keyAbsentB_set habs2
    intro k hk
    simp at hk

/-- C10: executing OP_SET_GLOBAL for a name with no binding in the
globals table reports the runtime error "undefined variable '<name>'",
and the globals table holds no binding for that name afterwards: the
entry transiently inserted by tableSet to detect novelty is deleted
again (tombstoned) before the error is reported, so a failed assignment
never creates a global.  Hypotheses are the table invariants the VM
maintains: power-of-two capacity, count = non-empty slots, load at most
3/4, and the name's absence. -/
theorem opSetGlobal_undefined_var (g : Table) (name : StrObj) (v : LoxValue) (m : Nat)
    (hlen : g.entries.length = 2 ^ m)
    (hload : 4 * g.count ≤ 3 * g.entries.length)
    (hcount : g.count = nonEmptyCount g.entries)
    (habsent : keyAbsentB g.entries name.id = true) :
    ∃ g4 : Table,
      opSetGlobal g name v =
        some (g4, some s!"undefined variable '{String.mk name.chars}'") ∧
      tableGet g4 name = some none ∧
      keyAbsentB g4.entries name.id = true := by
  have hnele := nonEmptyCount_le_length g.entries
  by_cases hgrow : 4 * (g.count + 1) > 3 * g.entries.length
  · -- growth path: adjustCapacity first
    have hkle := keyedCount_le_nonEmptyCount g.entries
    have hm8 : growCapacity (2 ^ m) = 2 ^ (if m < 3 then 3 else m + 1) := by
      by_cases hm : m < 3
      · have h4 : 2 ^ m < 8 := by
          calc 2 ^ m ≤ 2 ^ 2 := Nat.pow_le_pow_right (by omega) (by omega)
          _ < 8 := by omega
        rw [if_pos hm]
        unfold growCapacity
        rw [if_pos h4]
        rfl
      · have h8 : ¬ (2 ^ m < 8) := by
          have : (8 : Nat) = 2 ^ 3 := by omega
          rw [this]
          have := Nat.pow_le_pow_right (by omega : 1 ≤ 2) (by omega : 3 ≤ m)
          omega
        rw [if_neg hm]
        unfold growCapacity
        rw [if_neg h8]
        rw [Nat.pow_succ]
    have hcountlt : g.count + 2 ≤ 2 ^ (if m < 3 then 3 else m + 1) := by
      by_cases hm : m < 3
      · have h4 : 2 ^ m ≤ 4 := by
          calc 2 ^ m ≤ 2 ^ 2 := Nat.pow_le_pow_right (by omega) (by omega)
          _ = 4 := by omega
        rw [if_pos hm]
        rw [hlen] at hload
        omega
      · have h8 : 8 ≤ 2 ^ m := by
          have : (8 : Nat) = 2 ^ 3 := by omega
          rw [this]
          exact Nat.pow_le_pow_right (by omega) (by omega)
        rw [if_neg hm, Nat.pow_succ]
        rw [hlen] at hload
        omega
    have habsF : ∀ en ∈ g.entries, ∀ k, en.key = some k → k.id ≠ name.id := by
      intro en hen k hk
      unfold keyAbsentB at habsent
      rw [List.all_eq_true] at habsent
      have := habsent en hen
      rw [hk] at this
      simpa using this
    obtain ⟨t2, hadj, hlen2, hne2, habs2, htomb2, _hsub2⟩ :=
      adjust_ok g (if m < 3 then 3 else m + 1) name.id (by omega) habsF
    have hspace : nonEmptyCount t2.entries + 2 ≤ 2 ^ (if m < 3 then 3 else m + 1) := by
      omega
    have htc : ∀ i, slotTomb t2.entries i = true → 1 ≤ t2.count := by
      intro i hti
      rw [htomb2 i] at hti
      exact absurd hti (by simp)
    obtain ⟨s, hslt, hfind, hkeynone, hcnt, hrest⟩ :=
      setInsertDeleteGet_core t2 name v (if m < 3 then 3 else m + 1) hlen2 habs2 hspace htc
    have hset : tableSet g name v =
        some (⟨(if ((t2.entries.getD s emptyEntry).key.isNone &&
              ((t2.entries.getD s emptyEntry).value == LoxValue.vnil)) then t2.count + 1
             else t2.count), t2.entries.set s ⟨some name, v⟩⟩, true) := by
      unfold tableSet
      rw [if_pos hgrow, hlen, hm8, hadj]
      dsimp only
      rw [hfind]
      dsimp only
      rw [hkeynone]
      rfl
    obtain ⟨t4, hdel, hget4, habs4⟩ := hrest _ hcnt
    refine ⟨t4, ?_, hget4, habs4⟩
    unfold opSetGlobal
    rw [hset]
    dsimp only
    rw [if_pos rfl, hdel]
  · -- no growth: the table is used as is
    push_neg at hgrow
    have hspace : nonEmptyCount g.entries + 2 ≤ 2 ^ m := by
      rw [hlen] at hgrow
      rw [hcount] at hgrow
      omega
    have htc : ∀ i, slotTomb g.entries i = true → 1 ≤ g.count := by
      intro i hti
      rw [hcount]
      exact slotTomb_nonEmpty_pos hti
    obtain ⟨s, hslt, hfind, hkeynone, hcnt, hrest⟩ :=
      setInsertDeleteGet_core g name v m hlen habsent hspace htc
    have hset : tableSet g name v =
        some (⟨(if ((g.entries.getD s emptyEntry).key.isNone &&
              ((g.entries.getD s emptyEntry).value == LoxValue.vnil)) then g.count + 1
             else g.count), g.entries.set s ⟨some name, v⟩⟩, true) := by
      unfold tableSet
      rw [if_neg (by omega : ¬ 4 * (g.count + 1) > 3 * g.entries.length)]
      dsimp only
      rw [hfind]
      dsimp only
      rw [hkeynone]
      rfl
    obtain ⟨t4, hdel, hget4, habs4⟩ := hrest _ hcnt
    refine ⟨t4, ?_, hget4, habs4⟩
    unfold opSetGlobal
    rw [hset]
    dsimp only
    rw [if_pos rfl, hdel]


/-- Witness for C10 at a concrete state: a one-slot empty globals table
and the name x (id 3). -/
theorem opSetGlobal_undefined_var_witness :
    ((Table.mk 0 [emptyEntry]).entries.length = 2 ^ 0) ∧
    (4 * (Table.mk 0 [emptyEntry]).count ≤ 3 * (Table.mk 0 [emptyEntry]).entries.length) ∧
    ((Table.mk 0 [emptyEntry]).count = nonEmptyCount (Table.mk 0 [emptyEntry]).entries) ∧
    (keyAbsentB (Table.mk 0 [emptyEntry]).entries (StrObj.mk 3 ['x'] 0).id = true) ∧
    (∃ g4 : Table,
      opSetGlobal ⟨0, [emptyEntry]⟩ ⟨3, ['x'], 0⟩ (.vnum 7) =
        some (g4, some "undefined variable 'x'") ∧
      tableGet g4 ⟨3, ['x'], 0⟩ = some none ∧
      keyAbsentB g4.entries (StrObj.mk 3 ['x'] 0).id = true) :=
  ⟨rfl, by decide, by decide, by decide,
    opSetGlobal_undefined_var ⟨0, [emptyEntry]⟩ ⟨3, ['x'], 0⟩ (.vnum 7) 0 rfl
      (by decide) (by decide) (by decide)⟩


theorem slotContent_get? {e : List Entry} {i : Nat} {en : Entry} (h : e.get? i = some en)
    (c : Chars) (hh : Nat) :
    slotContent e c hh i =
      (match en.key with
       | some k => (k.chars.length == c.length) && (k.hash == hh) && (k.chars == c)
       | none => false) := by
  unfold slotContent
  rw [h]
  obtain ⟨ek, ev⟩ := en
  cases ek <;> rfl

/-- Characterization of the probe loop of tableFindString: when the
first stop (content match or truly empty slot) lies J steps ahead and
within fuel, the loop returns the stopped-at key on a content match and
NULL on an empty slot. -/
theorem tableFindStringAux_spec (e : List Entry) (c : Chars) (hh : Nat) (m : Nat)
    (hlen : e.length = 2 ^ m) :
    ∀ (J fuel idx : Nat), J < fuel → idx < 2 ^ m →
      slotFsStop e c hh ((idx + J) % 2 ^ m) = true →
      (∀ j < J, slotFsStop e c hh ((idx + j) % 2 ^ m) = false) →
      tableFindStringAux e (2 ^ m) c hh fuel idx =
        (if slotContent e c hh ((idx + J) % 2 ^ m) then
           some ((e.getD ((idx + J) % 2 ^ m) emptyEntry).key)
         else some none) := by
  intro J
  induction J with
  | zero =>
    intro fuel idx hfuel hidx hstop _hleast
    obtain ⟨f, rfl⟩ : ∃ f, fuel = f + 1 := ⟨fuel - 1, by omega⟩
    have hmod : (idx + 0) % 2 ^ m = idx := by
      rw [Nat.add_zero]; exact Nat.mod_eq_of_lt hidx
    rw [hmod] at hstop ⊢
    obtain ⟨en, hen⟩ := get?_of_lt (hlen ▸ hidx)
    have hgd : e.getD idx emptyEntry = en := by
      show (e.get? idx).getD emptyEntry = en
      rw [hen]
      rfl
    unfold slotFsStop at hstop
    cases hk : en.key with
    | some k =>
      have hcontent : ((k.chars.length == c.length) && (k.hash == hh) &&
          (k.chars == c)) = true := by
        rw [slotContent_get? hen c hh, hk] at hstop
        rcases Bool.or_eq_true_iff.mp hstop with h2 | h2
        · exact h2
        · rw [slotEmpty_get? hen] at h2
          unfold Entry.isEmptySlot at h2
          rw [hk] at h2
          simp at h2
      have hcm : slotContent e c hh idx = true := by
        rw [slotContent_get? hen c hh, hk]; exact hcontent
      rw [hcm]
      unfold tableFindStringAux
      rw [hen]
      dsimp only
      rw [hk]
      dsimp only
      have hprop : k.chars.length = c.length ∧ k.hash = hh ∧ k.chars = c := by
        rw [Bool.and_eq_true, Bool.and_eq_true] at hcontent
        refine ⟨by simpa using hcontent.1.1, by simpa using hcontent.1.2,
          by simpa using hcontent.2⟩
      rw [if_pos hprop, if_pos rfl, hgd, hk]
    | none =>
      have hempty2 : en.isEmptySlot = true := by
        rw [slotContent_get? hen c hh, hk, slotEmpty_get? hen] at hstop
        simpa using hstop
      have hnil : en.value = .vnil := by
        unfold Entry.isEmptySlot at hempty2
        rw [Bool.and_eq_true] at hempty2
        simpa using hempty2.2
      have hcm : slotContent e c hh idx = false := by
        rw [slotContent_get? hen c hh, hk]
      rw [hcm]
      unfold tableFindStringAux
      rw [hen]
      dsimp only
      rw [hk]
      dsimp only
      rw [if_pos hnil]
      rw [if_neg (by simp)]
  | succ j ih =>
    intro fuel idx hfuel hidx hstop hleast
    obtain ⟨f, rfl⟩ : ∃ f, fuel = f + 1 := ⟨fuel - 1, by omega⟩
    have hpos : 0 < 2 ^ m := Nat.pos_pow_of_pos m (by omega)
    have hmod : (idx + 0) % 2 ^ m = idx := by
      rw [Nat.add_zero]; exact Nat.mod_eq_of_lt hidx
    have hnostop : slotFsStop e c hh idx = false := by
      have := hleast 0 (Nat.succ_pos j)
      rwa [hmod] at this
    obtain ⟨en, hen⟩ := get?_of_lt (hlen ▸ hidx)
    have hnc : slotContent e c hh idx = false := by
      unfold slotFsStop at hnostop
      exact (Bool.or_eq_false_iff.mp hnostop).1
    have hne : slotEmpty e idx = false := by
      unfold slotFsStop at hnostop
      exact (Bool.or_eq_false_iff.mp hnostop).2
    have hmask : (idx + 1) &&& (2 ^ m - 1) = (idx + 1) % 2 ^ m :=
      Nat.and_pow_two_sub_one_eq_mod (idx + 1) m
    have hidx2 : (idx + 1) % 2 ^ m < 2 ^ m := Nat.mod_lt _ hpos
    have hshift : ∀ i : Nat, ((idx + 1) % 2 ^ m + i) % 2 ^ m = (idx + (i + 1)) % 2 ^ m := by
      intro i
      rw [Nat.mod_add_mod]
      congr 1
      omega
    have hstop2 : slotFsStop e c hh (((idx + 1) % 2 ^ m + j) % 2 ^ m) = true := by
      rw [hshift j]; exact hstop
    have hleast2 : ∀ i < j, slotFsStop e c hh (((idx + 1) % 2 ^ m + i) % 2 ^ m) = false := by
      intro i hi
      rw [hshift i]
      exact hleast (i + 1) (by omega)
    have hjf : j < f := by omega
    unfold tableFindStringAux
    rw [hen]
    dsimp only
    cases hk : en.key with
    | some k =>
      have hnprop : ¬ (k.chars.length = c.length ∧ k.hash = hh ∧ k.chars = c) := by
        rw [slotContent_get? hen c hh, hk] at hnc
        dsimp only at hnc
        intro hc
        obtain ⟨h1, h2, h3⟩ := hc
        rw [h1, h2, h3] at hnc
        simp at hnc
      dsimp only
      rw [if_neg hnprop]
      rw [hmask]
      rw [ih f ((idx + 1) % 2 ^ m) hjf hidx2 hstop2 hleast2, hshift j]
    | none =>
      have hnnil : ¬ (en.value = .vnil) := by
        rw [slotEmpty_get? hen] at hne
        unfold Entry.isEmptySlot at hne
        rw [hk] at hne
        simpa using hne
      dsimp only
      rw [if_neg hnnil]
      rw [hmask]
      rw [ih f ((idx + 1) % 2 ^ m) hjf hidx2 hstop2 hleast2, hshift j]


/-- Existence of a stop of a boolean slot predicate along the +1 probe
walk from any start, within capacity steps. -/
theorem stop_shift (P : Nat → Bool) (m start p : Nat)
    (hstart : start < 2 ^ m) (hp : p < 2 ^ m) (hP : P p = true) :
    ∃ j < 2 ^ m, P ((start + j) % 2 ^ m) = true := by
  by_cases hge : start ≤ p
  · refine ⟨p - start, by omega, ?_⟩
    have h2 : start + (p - start) = p := by omega
    rw [h2, Nat.mod_eq_of_lt hp]
    exact hP
  · refine ⟨p + 2 ^ m - start, by omega, ?_⟩
    have h1 : start + (p + 2 ^ m - start) = p + 2 ^ m := by omega
    rw [h1, Nat.add_mod_right, Nat.mod_eq_of_lt hp]
    exact hP

/-- tableFindString unfolded through the probe characterization at the
least stop, for a non-empty table. -/
theorem tableFindString_spec (t : Table) (c : Chars) (hh : Nat) (m : Nat)
    (hlen : t.entries.length = 2 ^ m)
    (hcnt : ¬ t.count = 0)
    (hstop : ∃ p < 2 ^ m, slotFsStop t.entries c hh p = true) :
    ∃ J < 2 ^ m,
      slotFsStop t.entries c hh ((hh % 2 ^ m + J) % 2 ^ m) = true ∧
      (∀ j < J, slotFsStop t.entries c hh ((hh % 2 ^ m + j) % 2 ^ m) = false) ∧
      tableFindString t c hh =
        (if slotContent t.entries c hh ((hh % 2 ^ m + J) % 2 ^ m) then
           some ((t.entries.getD ((hh % 2 ^ m + J) % 2 ^ m) emptyEntry).key)
         else some none) := by
  have hpos : 0 < 2 ^ m := Nat.pos_pow_of_pos m (by omega)
  have hstart : hh % 2 ^ m < 2 ^ m := Nat.mod_lt _ hpos
  obtain ⟨p, hp, hps⟩ := hstop
  have hex : ∃ j, slotFsStop t.entries c hh ((hh % 2 ^ m + j) % 2 ^ m) = true := by
    obtain ⟨j, _, hj⟩ :=
      stop_shift (fun i => slotFsStop t.entries c hh i) m (hh % 2 ^ m) p hstart hp hps
    exact ⟨j, hj⟩
  classical
  have hJ : slotFsStop t.entries c hh ((hh % 2 ^ m + Nat.find hex) % 2 ^ m) = true :=
    Nat.find_spec hex
  have hJleast : ∀ j < Nat.find hex,
      slotFsStop t.entries c hh ((hh % 2 ^ m + j) % 2 ^ m) = false := by
    intro j hj
    have := Nat.find_min hex hj
    simpa using this
  have hJlt : Nat.find hex < 2 ^ m := by
    obtain ⟨j, hjlt, hj⟩ :=
      stop_shift (fun i => slotFsStop t.entries c hh i) m (hh % 2 ^ m) p hstart hp hps
    have : Nat.find hex ≤ j := Nat.find_min' hex hj
    omega
  refine ⟨Nat.find hex, hJlt, hJ, hJleast, ?_⟩
  have hmask : hh &&& (2 ^ m - 1) = hh % 2 ^ m :=
    Nat.and_pow_two_sub_one_eq_mod hh m
  unfold tableFindString
  rw [if_neg hcnt, hlen, hmask]
  exact tableFindStringAux_spec t.entries c hh m hlen (Nat.find hex) (2 ^ m) (hh % 2 ^ m)
    hJlt hstart hJ hJleast

theorem growCapacity_pow (m : Nat) :
    growCapacity (2 ^ m) = 2 ^ (if m < 3 then 3 else m + 1) := by
  by_cases hm : m < 3
  · have h4 : 2 ^ m < 8 := by
      calc 2 ^ m ≤ 2 ^ 2 := Nat.pow_le_pow_right (by omega) (by omega)
      _ < 8 := by omega
    rw [if_pos hm]
    unfold growCapacity
    rw [if_pos h4]
    rfl
  · have h8 : ¬ (2 ^ m < 8) := by
      have h3 : (8 : Nat) = 2 ^ 3 := by norm_num
      rw [h3]
      exact not_lt.mpr (Nat.pow_le_pow_right (by omega) (by omega))
    rw [if_neg hm]
    unfold growCapacity
    rw [if_neg h8]
    rw [Nat.pow_succ, Nat.mul_comm]

theorem two_pow_le_grown (m : Nat) : 2 ^ m ≤ 2 ^ (if m < 3 then 3 else m + 1) := by
  apply Nat.pow_le_pow_right (by omega)
  by_cases hm : m < 3
  · rw [if_pos hm]; omega
  · rw [if_neg hm]; omega

theorem pow_two_small_cases (m : Nat) : 2 ^ m = 1 ∨ 2 ^ m = 2 ∨ 4 ≤ 2 ^ m := by
  match m with
  | 0 => exact Or.inl rfl
  | 1 => exact Or.inr (Or.inl rfl)
  | n + 2 =>
    refine Or.inr (Or.inr ?_)
    have h4 : 2 ^ 2 ≤ 2 ^ (n + 2) := Nat.pow_le_pow_right (by omega) (by omega)
    have h2 : (2 : Nat) ^ 2 = 4 := rfl
    omega

theorem pow_gap (m : Nat) : 2 ^ m + 2 ≤ 2 ^ (if m < 3 then 3 else m + 1) := by
  by_cases hm : m < 3
  · rw [if_pos hm]
    have h1 : 2 ^ m ≤ 2 ^ 2 := Nat.pow_le_pow_right (by omega) (by omega)
    have h2 : (2 : Nat) ^ 2 = 4 := rfl
    have h3 : (2 : Nat) ^ 3 = 8 := rfl
    omega
  · rw [if_neg hm]
    have h1 : 2 ^ 2 ≤ 2 ^ m := Nat.pow_le_pow_right (by omega) (by omega)
    have h2 : (2 : Nat) ^ 2 = 4 := rfl
    rw [Nat.pow_succ]
    omega

/-- On a power-of-two table with a spare slot, probing for a key whose
id is absent lands findEntry on a key-free slot: the first stop of the
probe walk, or the first tombstone before it.  The count tableSet would
derive for this slot is positive. -/
theorem findEntry_fresh (t2 : Table) (key : StrObj) (m2 : Nat)
    (hlen2 : t2.entries.length = 2 ^ m2)
    (habs2 : keyAbsentB t2.entries key.id = true)
    (hspace : nonEmptyCount t2.entries + 1 ≤ 2 ^ m2)
    (htc : ∀ i, slotTomb t2.entries i = true → 1 ≤ t2.count) :
    ∃ s D,
      s = (key.hash % 2 ^ m2 + D) % 2 ^ m2 ∧ D < 2 ^ m2 ∧ s < 2 ^ m2 ∧
      (∀ j < D, slotStop t2.entries key ((key.hash % 2 ^ m2 + j) % 2 ^ m2) = false) ∧
      findEntry t2.entries t2.entries.length key = some s ∧
      (t2.entries.getD s emptyEntry).key = none ∧
      1 ≤ (if ((t2.entries.getD s emptyEntry).key.isNone &&
            ((t2.entries.getD s emptyEntry).value == LoxValue.vnil)) then t2.count + 1
           else t2.count) := by
  have hpos : 0 < 2 ^ m2 := Nat.pos_pow_of_pos m2 (by omega)
  have hstart : key.hash % 2 ^ m2 < 2 ^ m2 := Nat.mod_lt _ hpos
  have hempty : ∃ p < 2 ^ m2, slotEmpty t2.entries p = true := by
    obtain ⟨p, hp, hpe⟩ :=
      exists_empty_of_lt (e := t2.entries) (by rw [hlen2]; omega)
    exact ⟨p, by rw [← hlen2]; exact hp, hpe⟩
  have hstop : ∃ p < 2 ^ m2, slotStop t2.entries key p = true := by
    obtain ⟨p, hp, hpe⟩ := hempty
    exact ⟨p, hp, by unfold slotStop; rw [hpe, Bool.or_true]⟩
  obtain ⟨J, hJlt, hJ, hJleast, hres⟩ := findEntry_spec t2.entries key m2 hlen2 hstop
  have hnm : ∀ i, slotMatches t2.entries key i = false := slotMatches_absent habs2
  rw [if_neg (by rw [hnm]; simp)] at hres
  have hJempty : slotEmpty t2.entries ((key.hash % 2 ^ m2 + J) % 2 ^ m2) = true := by
    unfold slotStop at hJ
    rw [hnm] at hJ
    simpa using hJ
  cases hft : firstTombAux t2.entries (2 ^ m2) (key.hash % 2 ^ m2) J with
  | none =>
    rw [hft] at hres
    refine ⟨(key.hash % 2 ^ m2 + J) % 2 ^ m2, J, rfl, hJlt, Nat.mod_lt _ hpos,
      hJleast, hres, slotEmpty_key_none hJempty, ?_⟩
    rw [slotEmpty_key_none hJempty, slotEmpty_value_nil hJempty]
    simp
  | some tv =>
    rw [hft] at hres
    obtain ⟨T, hTJ, hTeq, hTtomb, _hTleast⟩ :=
      firstTombAux_some_spec hpos J (key.hash % 2 ^ m2) tv hstart hft
    have htvlt : tv < 2 ^ m2 :=
      (firstTombAux_some hpos J (key.hash % 2 ^ m2) tv hstart hft).2
    refine ⟨tv, T, hTeq, by omega, htvlt, ?_, hres, slotTomb_key_none hTtomb, ?_⟩
    · intro j hj
      exact hJleast j (by omega)
    · rw [if_neg ?_]
      · exact htc tv hTtomb
      · intro hc
        rw [Bool.and_eq_true] at hc
        exact slotTomb_value_ne_nil hTtomb (by simpa using hc.2)

/-- tableSet of a key whose id is absent succeeds, reports a new key,
and writes the key into a previously key-free slot of the (possibly
regrown) array; the probe-walk position is exposed and every key of the
array written into comes from the original table. -/
theorem tableSet_fresh (t : Table) (key : StrObj) (v : LoxValue) (m : Nat)
    (hlen : t.entries.length = 2 ^ m)
    (hcnt : t.count = nonEmptyCount t.entries)
    (habs : keyAbsentB t.entries key.id = true) :
    ∃ m2 e2 s D cnt2,
      tableSet t key v = some (⟨cnt2, e2.set s ⟨some key, v⟩⟩, true) ∧
      e2.length = 2 ^ m2 ∧
      1 ≤ cnt2 ∧
      nonEmptyCount e2 + 2 ≤ 2 ^ m2 ∧
      s = (key.hash % 2 ^ m2 + D) % 2 ^ m2 ∧ D < 2 ^ m2 ∧ s < 2 ^ m2 ∧
      (∀ j < D, slotStop e2 key ((key.hash % 2 ^ m2 + j) % 2 ^ m2) = false) ∧
      (e2.getD s emptyEntry).key = none ∧
      (∀ en ∈ e2, ∀ k2, en.key = some k2 → ∃ en0 ∈ t.entries, en0.key = some k2) := by
  have hkle := keyedCount_le_nonEmptyCount t.entries
  have hnle := nonEmptyCount_le_length t.entries
  by_cases hgrow : 4 * (t.count + 1) > 3 * t.entries.length
  · have hm8 := growCapacity_pow m
    have hgap := pow_gap m
    have habsF : ∀ en ∈ t.entries, ∀ k, en.key = some k → k.id ≠ key.id := by
      intro en hen k hk
      unfold keyAbsentB at habs
      rw [List.all_eq_true] at habs
      have := habs en hen
      rw [hk] at this
      simpa using this
    obtain ⟨t2, hadj, hlen2, hne2, habs2, htomb2, hsub2⟩ :=
      adjust_ok t (if m < 3 then 3 else m + 1) key.id (by omega) habsF
    have hspace2 : nonEmptyCount t2.entries + 2 ≤ 2 ^ (if m < 3 then 3 else m + 1) := by
      omega
    have htc2 : ∀ i, slotTomb t2.entries i = true → 1 ≤ t2.count := by
      intro i hti
      rw [htomb2 i] at hti
      exact absurd hti (by simp)
    obtain ⟨s, D, hsD, hDlt, hslt, hprev, hfind, hkeynone, hcnt2⟩ :=
      findEntry_fresh t2 key (if m < 3 then 3 else m + 1) hlen2 habs2 (by omega) htc2
    refine ⟨(if m < 3 then 3 else m + 1), t2.entries, s, D,
      (if ((t2.entries.getD s emptyEntry).key.isNone &&
          ((t2.entries.getD s emptyEntry).value == LoxValue.vnil)) then t2.count + 1
        else t2.count), ?_, hlen2, hcnt2, hspace2, hsD, hDlt, hslt, hprev, hkeynone,
      fun en hen k2 hk2 => hsub2 en hen k2 hk2⟩
    unfold tableSet
    rw [if_pos hgrow, hlen, hm8, hadj]
    dsimp only
    rw [hfind]
    dsimp only
    rw [hkeynone]
    rfl
  · have hsmall := pow_two_small_cases m
    have hsp : nonEmptyCount t.entries + 2 ≤ 2 ^ m := by omega
    have htc : ∀ i, slotTomb t.entries i = true → 1 ≤ t.count := by
      intro i hti
      have := slotTomb_nonEmpty_pos hti
      omega
    obtain ⟨s, D, hsD, hDlt, hslt, hprev, hfind, hkeynone, hcnt2⟩ :=
      findEntry_fresh t key m hlen habs (by omega) htc
    refine ⟨m, t.entries, s, D,
      (if ((t.entries.getD s emptyEntry).key.isNone &&
          ((t.entries.getD s emptyEntry).value == LoxValue.vnil)) then t.count + 1
        else t.count), ?_, hlen, hcnt2, hsp, hsD, hDlt, hslt, hprev, hkeynone,
      fun en hen k2 hk2 => ⟨en, hen, hk2⟩⟩
    unfold tableSet
    rw [if_neg hgrow]
    dsimp only
    rw [hfind]
    dsimp only
    rw [hkeynone]
    rfl

/-- Success of tableSet for a key with absent id, needing only one
spare slot. -/
theorem tableSet_some (t : Table) (key : StrObj) (v : LoxValue) (m : Nat)
    (hlen : t.entries.length = 2 ^ m)
    (hne : nonEmptyCount t.entries < 2 ^ m)
    (htc : ∀ i, slotTomb t.entries i = true → 1 ≤ t.count)
    (habs : keyAbsentB t.entries key.id = true) :
    ∃ r, tableSet t key v = some r := by
  have hkle := keyedCount_le_nonEmptyCount t.entries
  by_cases hgrow : 4 * (t.count + 1) > 3 * t.entries.length
  · have hm8 := growCapacity_pow m
    have hmono := two_pow_le_grown m
    have habsF : ∀ en ∈ t.entries, ∀ k, en.key = some k → k.id ≠ key.id := by
      intro en hen k hk
      unfold keyAbsentB at habs
      rw [List.all_eq_true] at habs
      have := habs en hen
      rw [hk] at this
      simpa using this
    obtain ⟨t2, hadj, hlen2, hne2, habs2, htomb2, _hsub2⟩ :=
      adjust_ok t (if m < 3 then 3 else m + 1) key.id (by omega) habsF
    have hmono2 := two_pow_le_grown m
    have htc2 : ∀ i, slotTomb t2.entries i = true → 1 ≤ t2.count := by
      intro i hti
      rw [htomb2 i] at hti
      exact absurd hti (by simp)
    obtain ⟨s, D, _hsD, _hDlt, _hslt, _hprev, hfind, _hkeynone, _hcnt⟩ :=
      findEntry_fresh t2 key (if m < 3 then 3 else m + 1) hlen2 habs2 (by omega) htc2
    refine ⟨(⟨(if ((t2.entries.getD s emptyEntry).key.isNone &&
          ((t2.entries.getD s emptyEntry).value == LoxValue.vnil)) then t2.count + 1
        else t2.count), t2.entries.set s ⟨some key, v⟩⟩,
      (t2.entries.getD s emptyEntry).key.isNone), ?_⟩
    unfold tableSet
    rw [if_pos hgrow, hlen, hm8, hadj]
    dsimp only
    rw [hfind]
  · obtain ⟨s, D, _hsD, _hDlt, _hslt, _hprev, hfind, _hkeynone, _hcnt⟩ :=
      findEntry_fresh t key m hlen habs (by omega) htc
    refine ⟨(⟨(if ((t.entries.getD s emptyEntry).key.isNone &&
          ((t.entries.getD s emptyEntry).value == LoxValue.vnil)) then t.count + 1
        else t.count), t.entries.set s ⟨some key, v⟩⟩,
      (t.entries.getD s emptyEntry).key.isNone), ?_⟩
    unfold tableSet
    rw [if_neg hgrow]
    dsimp only
    rw [hfind]

theorem slotContent_set_ne {e : List Entry} {s i : Nat} (h : s ≠ i) (x : Entry)
    (c : Chars) (hh : Nat) : slotContent (e.set s x) c hh i = slotContent e c hh i := by
  unfold slotContent
  rw [List.get?_set_ne x e h]

theorem idsInjectiveB_head {a : Entry} {t : List Entry} (h : idsInjectiveB (a :: t) = true) :
    (∀ k, a.key = some k → ∀ en2 ∈ t, ∀ k2, en2.key = some k2 → k.id ≠ k2.id) ∧
      idsInjectiveB t = true := by
  unfold idsInjectiveB at h
  rw [Bool.and_eq_true] at h
  refine ⟨?_, h.2⟩
  intro k hk en2 hen2 k2 hk2
  have h1 := h.1
  rw [hk] at h1
  dsimp only at h1
  rw [List.all_eq_true] at h1
  have h2 := h1 en2 hen2
  rw [hk2] at h2
  simpa using h2

theorem idsInjective_mem {l : List Entry} (h : idsInjectiveB l = true) :
    ∀ en1 ∈ l, ∀ en2 ∈ l, ∀ k1 k2, en1.key = some k1 → en2.key = some k2 →
      k1.id = k2.id → k1 = k2 := by
  induction l with
  | nil => intro en1 h1; exact absurd h1 (by simp)
  | cons a t ih =>
    obtain ⟨hhead, htail⟩ := idsInjectiveB_head h
    intro en1 h1 en2 h2 k1 k2 hk1 hk2 hid
    rcases List.mem_cons.mp h1 with h1a | h1t
    · rcases List.mem_cons.mp h2 with h2a | h2t
      · rw [h1a] at hk1
        rw [h2a] at hk2
        rw [hk1] at hk2
        exact Option.some_inj.mp hk2
      · exact absurd hid (hhead k1 (h1a ▸ hk1) en2 h2t k2 hk2)
    · rcases List.mem_cons.mp h2 with h2a | h2t
      · exact absurd hid.symm (hhead k2 (h2a ▸ hk2) en1 h1t k1 hk1)
      · exact ih htail en1 h1t en2 h2t k1 k2 hk1 hk2 hid

theorem idsBounded_mem {st : InternState} (h : idsBounded st = true) :
    ∀ en ∈ st.strings.entries, ∀ k, en.key = some k → k.id < st.nextId := by
  intro en hen k hk
  unfold idsBounded at h
  rw [List.all_eq_true] at h
  have := h en hen
  rw [hk] at this
  simpa using this

theorem keysHashed_mem {t : Table} (h : keysHashed t = true) :
    ∀ en ∈ t.entries, ∀ k, en.key = some k → k.hash = hashString k.chars := by
  intro en hen k hk
  unfold keysHashed at h
  rw [List.all_eq_true] at h
  have := h en hen
  rw [hk] at this
  simpa using this

theorem keysFindable_mem {t : Table} (h : keysFindable t = true) :
    ∀ en ∈ t.entries, ∀ k, en.key = some k →
      tableFindString t k.chars k.hash = some (some k) := by
  intro en hen k hk
  unfold keysFindable at h
  rw [List.all_eq_true] at h
  have := h en hen
  rw [hk] at this
  simpa using this

theorem keyAbsentB_of_keys_lt {e : List Entry} {n : Nat}
    (h : ∀ en ∈ e, ∀ k, en.key = some k → k.id < n) : keyAbsentB e n = true := by
  unfold keyAbsentB
  rw [List.all_eq_true]
  intro en hen
  cases hk : en.key with
  | none => rfl
  | some k =>
    dsimp only
    simp only [bne_iff_ne, ne_eq, decide_eq_true_eq]
    exact Nat.ne_of_lt (h en hen k hk)

theorem no_keys_of_nonEmpty_zero {e : List Entry} (h : nonEmptyCount e = 0) :
    ∀ en ∈ e, ∀ k, en.key = some k → False := by
  intro en hen k hk
  have hne : (!en.isEmptySlot) = true := by
    unfold Entry.isEmptySlot
    rw [hk]
    rfl
  have hmem : en ∈ e.filter (fun en2 => !en2.isEmptySlot) :=
    List.mem_filter.mpr ⟨hen, hne⟩
  unfold nonEmptyCount at h
  rw [List.length_eq_zero] at h
  rw [h] at hmem
  exact absurd hmem (by simp)

theorem slotContent_true {e : List Entry} {c : Chars} {hh i : Nat}
    (h : slotContent e c hh i = true) :
    ∃ en, e.get? i = some en ∧ ∃ k, en.key = some k ∧ k.chars = c ∧ k.hash = hh := by
  unfold slotContent at h
  cases hg : e.get? i with
  | none => rw [hg] at h; simp at h
  | some en =>
    rw [hg] at h
    obtain ⟨ek, ev⟩ := en
    cases ek with
    | none => simp at h
    | some k =>
      simp only [Bool.and_eq_true, beq_iff_eq] at h
      refine ⟨⟨some k, ev⟩, ?_, k, ?_, ?_, ?_⟩
      · rfl
      · rfl
      · exact h.2
      · exact h.1.2

theorem findString_no_key {t : Table} {c : Chars}
    (hfindable : keysFindable t = true) (hhashed : keysHashed t = true)
    (hres : tableFindString t c (hashString c) = some none) :
    ∀ en ∈ t.entries, ∀ k, en.key = some k → ¬ (k.chars = c) := by
  intro en hen k hk hkc
  have hf := keysFindable_mem hfindable en hen k hk
  have hhh := keysHashed_mem hhashed en hen k hk
  rw [hkc] at hf hhh
  rw [hhh] at hf
  rw [hres] at hf
  simp at hf

/-- Dichotomy of copyString under the interning invariants: either it
returns an already-interned key with the probed bytes, or the lookup
misses, no interned key carries those bytes, and the call reduces to
allocateString. -/
theorem copyString_cases (st : InternState) (c : Chars) (m : Nat)
    (hlen : st.strings.entries.length = 2 ^ m)
    (hload : 4 * st.strings.count ≤ 3 * st.strings.entries.length)
    (hcount : st.strings.count = nonEmptyCount st.strings.entries)
    (hfindable : keysFindable st.strings = true)
    (hhashed : keysHashed st.strings = true) :
    (∃ K, copyString st c = some (st, K) ∧ K.chars = c ∧ K.hash = hashString c ∧
      (∃ en ∈ st.strings.entries, en.key = some K)) ∨
    (copyString st c = allocateString st c (hashString c) ∧
      (∀ en ∈ st.strings.entries, ∀ k, en.key = some k → ¬ (k.chars = c))) := by
  by_cases hc0 : st.strings.count = 0
  · have hfs : tableFindString st.strings c (hashString c) = some none := by
      unfold tableFindString
      rw [if_pos hc0]
    refine Or.inr ⟨?_, ?_⟩
    · unfold copyString
      rw [hfs]
    · intro en hen k hk _hkc
      exact no_keys_of_nonEmpty_zero (by omega) en hen k hk
  · have hle := nonEmptyCount_le_length st.strings.entries
    have hnelt : nonEmptyCount st.strings.entries < st.strings.entries.length := by omega
    have hstop : ∃ p < 2 ^ m, slotFsStop st.strings.entries c (hashString c) p = true := by
      obtain ⟨p, hp, hpe⟩ := exists_empty_of_lt hnelt
      refine ⟨p, by rw [← hlen]; exact hp, ?_⟩
      unfold slotFsStop
      rw [hpe, Bool.or_true]
    obtain ⟨J, hJlt, hJ, hJleast, hres⟩ :=
      tableFindString_spec st.strings c (hashString c) m hlen hc0 hstop
    by_cases hcont :
        slotContent st.strings.entries c (hashString c)
          ((hashString c % 2 ^ m + J) % 2 ^ m) = true
    · rw [if_pos hcont] at hres
      obtain ⟨en, hget, k, hkk, hkc, hkh⟩ := slotContent_true hcont
      have hgd : st.strings.entries.getD ((hashString c % 2 ^ m + J) % 2 ^ m) emptyEntry = en := by
        show (st.strings.entries.get? ((hashString c % 2 ^ m + J) % 2 ^ m)).getD emptyEntry = en
        rw [hget]
        rfl
      rw [hgd, hkk] at hres
      refine Or.inl ⟨k, ?_, hkc, hkh, en, List.get?_mem hget, hkk⟩
      unfold copyString
      rw [hres]
    · rw [if_neg hcont] at hres
      refine Or.inr ⟨?_, findString_no_key hfindable hhashed hres⟩
      unfold copyString
      rw [hres]

/-- Writing a fresh key into the key-free slot findEntry chose makes
tableFindString under that key's bytes and cached hash return exactly
that key. -/
theorem insert_then_findString (e2 : List Entry) (key : StrObj) (v : LoxValue)
    (m2 s D cnt3 : Nat)
    (hlen2 : e2.length = 2 ^ m2)
    (hsD : s = (key.hash % 2 ^ m2 + D) % 2 ^ m2)
    (hDlt : D < 2 ^ m2)
    (hprev : ∀ j < D, slotStop e2 key ((key.hash % 2 ^ m2 + j) % 2 ^ m2) = false)
    (hnoc : ∀ i, slotContent e2 key.chars key.hash i = false)
    (hcnt3 : ¬ cnt3 = 0) :
    tableFindString ⟨cnt3, e2.set s ⟨some key, v⟩⟩ key.chars key.hash = some (some key) := by
  have hpos : 0 < 2 ^ m2 := Nat.pos_pow_of_pos m2 (by omega)
  have hstart : key.hash % 2 ^ m2 < 2 ^ m2 := Nat.mod_lt _ hpos
  have hslt : s < 2 ^ m2 := by rw [hsD]; exact Nat.mod_lt _ hpos
  have hlen3 : (e2.set s ⟨some key, v⟩).length = 2 ^ m2 := by
    rw [List.length_set]; exact hlen2
  have hget3 : (e2.set s ⟨some key, v⟩).get? s = some ⟨some key, v⟩ :=
    List.get?_set_eq_of_lt _ (by rw [hlen2]; exact hslt)
  have hgd3 : (e2.set s ⟨some key, v⟩).getD s emptyEntry = ⟨some key, v⟩ := by
    show ((e2.set s ⟨some key, v⟩).get? s).getD emptyEntry = _
    rw [hget3]
    rfl
  have hcont3 : slotContent (e2.set s ⟨some key, v⟩) key.chars key.hash s = true := by
    rw [slotContent_get? hget3]
    simp
  have hstop3 : ∃ p < 2 ^ m2,
      slotFsStop (e2.set s ⟨some key, v⟩) key.chars key.hash p = true := by
    refine ⟨s, hslt, ?_⟩
    unfold slotFsStop
    rw [hcont3, Bool.true_or]
  obtain ⟨J5, hJ5lt, hJ5, hJ5least, hres5⟩ :=
    tableFindString_spec ⟨cnt3, e2.set s ⟨some key, v⟩⟩ key.chars key.hash m2 hlen3 hcnt3 hstop3
  have hJ5D : J5 = D := by
    by_contra hne
    rcases Nat.lt_or_ge J5 D with hlt | hge
    · have hpne : (key.hash % 2 ^ m2 + J5) % 2 ^ m2 ≠ s := by
        rw [hsD]
        exact probe_pos_ne hstart hJ5lt hDlt hne
      have hc2 : slotContent (e2.set s ⟨some key, v⟩) key.chars key.hash
          ((key.hash % 2 ^ m2 + J5) % 2 ^ m2) = false := by
        rw [slotContent_set_ne (fun hs => hpne hs.symm)]
        exact hnoc _
      have he2 : slotEmpty (e2.set s ⟨some key, v⟩)
          ((key.hash % 2 ^ m2 + J5) % 2 ^ m2) = false := by
        rw [slotEmpty_set_ne (fun hs => hpne hs.symm)]
        have := hprev J5 hlt
        unfold slotStop at this
        exact (Bool.or_eq_false_iff.mp this).2
      unfold slotFsStop at hJ5
      rw [hc2, he2] at hJ5
      simp at hJ5
    · have hlt2 : D < J5 := by omega
      have := hJ5least D hlt2
      rw [← hsD] at this
      unfold slotFsStop at this
      rw [hcont3] at this
      simp at this
  rw [hJ5D, ← hsD] at hres5
  rw [hres5, if_pos hcont3, hgd3]


/-- C5: string interning yields pointer identity exactly on content
equality.  Under the vm.strings invariants (power-of-two capacity,
3/4 load, count = non-empty slots, every key findable under its own
bytes and cached hash, ids fresh and pairwise distinct), two string
creations through takeString or copyString both succeed, return
objects carrying the requested bytes, and the two objects are the same
heap object (same allocation id) iff the two byte sequences are
equal. -/
theorem interning_identity (st : InternState) (m : Nat) (c1 c2 : Chars) (f1 f2 : Bool)
    (hlen : st.strings.entries.length = 2 ^ m)
    (hload : 4 * st.strings.count ≤ 3 * st.strings.entries.length)
    (hcount : st.strings.count = nonEmptyCount st.strings.entries)
    (hfindable : keysFindable st.strings = true)
    (hhashed : keysHashed st.strings = true)
    (hbounded : idsBounded st = true)
    (hinj : idsInjectiveB st.strings.entries = true) :
    ∃ st1 a st2 b,
      mkString f1 st c1 = some (st1, a) ∧
      mkString f2 st1 c2 = some (st2, b) ∧
      a.chars = c1 ∧ b.chars = c2 ∧
      (a.id = b.id ↔ c1 = c2) := by
  have hmk : ∀ (f : Bool) (s3 : InternState) (c : Chars),
      mkString f s3 c = copyString s3 c := by
    intro f s3 c
    cases f
    · rfl
    · rfl
  have hnle := nonEmptyCount_le_length st.strings.entries
  rcases copyString_cases st c1 m hlen hload hcount hfindable hhashed with
    ⟨K, hcall1, hKc, hKh, en, hen, henk⟩ | ⟨hcall1, hnokey1⟩
  · -- first call hits the interned key K
    rcases copyString_cases st c2 m hlen hload hcount hfindable hhashed with
      ⟨K2, hcall2, hK2c, hK2h, en2, hen2, henk2⟩ | ⟨hcall2, hnokey2⟩
    · refine ⟨st, K, st, K2, ?_, ?_, hKc, hK2c, ?_⟩
      · rw [hmk]; exact hcall1
      · rw [hmk]; exact hcall2
      · constructor
        · intro hid
          have hKK := idsInjective_mem hinj en hen en2 hen2 K K2 henk henk2 hid
          rw [← hKc, ← hK2c, hKK]
        · intro hcc2
          have t1 := keysFindable_mem hfindable en hen K henk
          have t1h := keysHashed_mem hhashed en hen K henk
          rw [hKc] at t1 t1h
          rw [t1h] at t1
          have t2 := keysFindable_mem hfindable en2 hen2 K2 henk2
          have t2h := keysHashed_mem hhashed en2 hen2 K2 henk2
          rw [hK2c] at t2 t2h
          rw [t2h] at t2
          rw [hcc2] at t1
          rw [t2] at t1
          have hKK : K2 = K := by simpa using t1
          rw [hKK]
    · -- first hit, second miss: a fresh object is allocated for c2
      have h1le : 1 ≤ nonEmptyCount st.strings.entries := by
        have hne2 : (!en.isEmptySlot) = true := by
          unfold Entry.isEmptySlot
          rw [henk]
          rfl
        exact List.length_pos_of_mem (List.mem_filter.mpr ⟨hen, hne2⟩)
      have hKlt := idsBounded_mem hbounded en hen K henk
      have htc : ∀ i, slotTomb st.strings.entries i = true → 1 ≤ st.strings.count := by
        intro i hti
        have := slotTomb_nonEmpty_pos hti
        omega
      obtain ⟨r, hset2⟩ := tableSet_some st.strings ⟨st.nextId, c2, hashString c2⟩
        LoxValue.vnil m hlen (by omega) htc
        (keyAbsentB_of_keys_lt (idsBounded_mem hbounded))
      have hcall2f : copyString st c2 =
          some (⟨st.nextId + 1, r.1⟩, ⟨st.nextId, c2, hashString c2⟩) := by
        rw [hcall2]
        unfold allocateString
        rw [hset2]
      refine ⟨st, K, ⟨st.nextId + 1, r.1⟩, ⟨st.nextId, c2, hashString c2⟩, ?_, ?_, hKc, rfl, ?_⟩
      · rw [hmk]; exact hcall1
      · rw [hmk]; exact hcall2f
      · constructor
        · intro hid
          have hid2 : K.id = st.nextId := hid
          omega
        · intro hcc2
          exact absurd (hKc.trans hcc2) (hnokey2 en hen K henk)
  · -- first call misses: a fresh object is interned for c1
    obtain ⟨m2, e2, s, D, cnt2, hset, hlen2, hcnt2, hsp2, hsD, hDlt, hslt, hprev, hkeyn, hsub⟩ :=
      tableSet_fresh st.strings ⟨st.nextId, c1, hashString c1⟩ LoxValue.vnil m hlen hcount
        (keyAbsentB_of_keys_lt (idsBounded_mem hbounded))
    set e3 : List Entry := e2.set s ⟨some ⟨st.nextId, c1, hashString c1⟩, LoxValue.vnil⟩ with he3
    have hcall1f : copyString st c1 =
        some (⟨st.nextId + 1, ⟨cnt2, e3⟩⟩, ⟨st.nextId, c1, hashString c1⟩) := by
      rw [hcall1]
      unfold allocateString
      rw [hset]
    have hcnt3 : ¬ cnt2 = 0 := by omega
    have hnoc : ∀ i, slotContent e2 c1 (hashString c1) i = false := by
      intro i
      cases hb : slotContent e2 c1 (hashString c1) i
      · rfl
      · obtain ⟨en6, hget6, k6, hkk6, hkc6, hkh6⟩ := slotContent_true hb
        obtain ⟨en0, hen0, hen0k⟩ := hsub en6 (List.get?_mem hget6) k6 hkk6
        exact absurd hkc6 (hnokey1 en0 hen0 k6 hen0k)
    have hlen3 : e3.length = 2 ^ m2 := by
      rw [he3, List.length_set]
      exact hlen2
    by_cases hcc : c1 = c2
    · -- equal contents: the second call finds the just-interned object
      subst hcc
      have hfs2 : tableFindString ⟨cnt2, e3⟩ c1 (hashString c1) =
          some (some ⟨st.nextId, c1, hashString c1⟩) :=
        insert_then_findString e2 ⟨st.nextId, c1, hashString c1⟩ LoxValue.vnil m2 s D cnt2
          hlen2 hsD hDlt hprev hnoc hcnt3
      have hcall2f : copyString ⟨st.nextId + 1, ⟨cnt2, e3⟩⟩ c1 =
          some (⟨st.nextId + 1, ⟨cnt2, e3⟩⟩, ⟨st.nextId, c1, hashString c1⟩) := by
        unfold copyString
        dsimp only
        rw [hfs2]
      refine ⟨⟨st.nextId + 1, ⟨cnt2, e3⟩⟩, ⟨st.nextId, c1, hashString c1⟩,
        ⟨st.nextId + 1, ⟨cnt2, e3⟩⟩, ⟨st.nextId, c1, hashString c1⟩, ?_, ?_, rfl, rfl,
        ⟨fun _ => rfl, fun _ => rfl⟩⟩
      · rw [hmk]; exact hcall1f
      · rw [hmk]; exact hcall2f
    · -- different contents
      have hsetle := nonEmptyCount_set_le e2 s
        ⟨some ⟨st.nextId, c1, hashString c1⟩, LoxValue.vnil⟩
      have hne3 : nonEmptyCount e3 < 2 ^ m2 := by
        rw [he3]
        omega
      have hstop3 : ∃ p < 2 ^ m2, slotFsStop e3 c2 (hashString c2) p = true := by
        obtain ⟨p, hp, hpe⟩ := @exists_empty_of_lt e3 (by rw [hlen3]; exact hne3)
        rw [hlen3] at hp
        refine ⟨p, hp, ?_⟩
        unfold slotFsStop
        rw [hpe, Bool.or_true]
      obtain ⟨J6, hJ6lt, hJ6, hJ6least, hres6⟩ :=
        tableFindString_spec ⟨cnt2, e3⟩ c2 (hashString c2) m2 hlen3 hcnt3 hstop3
      dsimp only at hres6
      by_cases hcont6 : slotContent e3 c2 (hashString c2)
          ((hashString c2 % 2 ^ m2 + J6) % 2 ^ m2) = true
      · -- the second lookup hits some already-interned key
        rw [if_pos hcont6] at hres6
        obtain ⟨en6, hget6, k6, hkk6, hkc6, hkh6⟩ := slotContent_true hcont6
        have hgd6 : e3.getD ((hashString c2 % 2 ^ m2 + J6) % 2 ^ m2) emptyEntry = en6 := by
          show (e3.get? ((hashString c2 % 2 ^ m2 + J6) % 2 ^ m2)).getD emptyEntry = en6
          rw [hget6]
          rfl
        rw [hgd6, hkk6] at hres6
        have hcall2f : copyString ⟨st.nextId + 1, ⟨cnt2, e3⟩⟩ c2 =
            some (⟨st.nextId + 1, ⟨cnt2, e3⟩⟩, k6) := by
          unfold copyString
          dsimp only
          rw [hres6]
        have hkid6 : k6.id < st.nextId := by
          rcases List.mem_or_eq_of_mem_set (he3 ▸ List.get?_mem hget6) with h6 | h6
          · obtain ⟨en0, hen0, hen0k⟩ := hsub en6 h6 k6 hkk6
            exact idsBounded_mem hbounded en0 hen0 k6 hen0k
          · rw [h6] at hkk6
            dsimp only at hkk6
            have hk61 : k6 = ⟨st.nextId, c1, hashString c1⟩ := (Option.some_inj.mp hkk6).symm
            rw [hk61] at hkc6
            exact absurd hkc6 hcc
        refine ⟨⟨st.nextId + 1, ⟨cnt2, e3⟩⟩, ⟨st.nextId, c1, hashString c1⟩,
          ⟨st.nextId + 1, ⟨cnt2, e3⟩⟩, k6, ?_, ?_, rfl, hkc6, ?_⟩
        · rw [hmk]; exact hcall1f
        · rw [hmk]; exact hcall2f
        · constructor
          · intro hid
            have hid2 : st.nextId = k6.id := hid
            omega
          · intro hcc2
            exact absurd hcc2 hcc
      · -- the second lookup also misses: allocate under the next id
        rw [if_neg hcont6] at hres6
        have hcall2p : copyString ⟨st.nextId + 1, ⟨cnt2, e3⟩⟩ c2 =
            allocateString ⟨st.nextId + 1, ⟨cnt2, e3⟩⟩ c2 (hashString c2) := by
          unfold copyString
          dsimp only
          rw [hres6]
        have habs3 : keyAbsentB e3 (st.nextId + 1) = true := by
          apply keyAbsentB_of_keys_lt
          intro en6 hen6 k6 hkk6
          rcases List.mem_or_eq_of_mem_set (he3 ▸ hen6) with h6 | h6
          · obtain ⟨en0, hen0, hen0k⟩ := hsub en6 h6 k6 hkk6
            have := idsBounded_mem hbounded en0 hen0 k6 hen0k
            omega
          · rw [h6] at hkk6
            dsimp only at hkk6
            have hk61 : k6 = ⟨st.nextId, c1, hashString c1⟩ := (Option.some_inj.mp hkk6).symm
            rw [hk61]
            show st.nextId < st.nextId + 1
            omega
        obtain ⟨r, hset2⟩ := tableSet_some ⟨cnt2, e3⟩ ⟨st.nextId + 1, c2, hashString c2⟩
          LoxValue.vnil m2 hlen3 hne3 (fun _ _ => hcnt2) habs3
        have hcall2f : copyString ⟨st.nextId + 1, ⟨cnt2, e3⟩⟩ c2 =
            some (⟨st.nextId + 1 + 1, r.1⟩, ⟨st.nextId + 1, c2, hashString c2⟩) := by
          rw [hcall2p]
          unfold allocateString
          dsimp only
          rw [hset2]
        refine ⟨⟨st.nextId + 1, ⟨cnt2, e3⟩⟩, ⟨st.nextId, c1, hashString c1⟩,
          ⟨st.nextId + 1 + 1, r.1⟩, ⟨st.nextId + 1, c2, hashString c2⟩, ?_, ?_, rfl, rfl, ?_⟩
        · rw [hmk]; exact hcall1f
        · rw [hmk]; exact hcall2f
        · constructor
          · intro hid
            have hid2 : st.nextId = st.nextId + 1 := hid
            omega
          · intro hcc2
            exact absurd hcc2 hcc

/-- Witness: the interning identity theorem applied to the empty
one-slot string table with bytes "x" and "y". -/
theorem interning_identity_witness :
    ∃ st1 a st2 b,
      mkString false ⟨0, ⟨0, List.replicate 1 emptyEntry⟩⟩ ['x'] = some (st1, a) ∧
      mkString false st1 ['y'] = some (st2, b) ∧
      a.chars = ['x'] ∧ b.chars = ['y'] ∧
      (a.id = b.id ↔ (['x'] : Chars) = ['y']) :=
  interning_identity ⟨0, ⟨0, List.replicate 1 emptyEntry⟩⟩ 0 ['x'] ['y'] false false rfl
    (by decide) rfl rfl rfl rfl rfl

theorem gcMono_refl (st : GcState) : GcMono st st :=
  ⟨rfl, rfl, fun _ h => h, fun _ h => h, fun _ h hg => ⟨h, hg⟩⟩

theorem gcMono_trans {a b c : GcState} (h1 : GcMono a b) (h2 : GcMono b c) : GcMono a c := by
  obtain ⟨hh1, hs1, hm1, hg1, hr1⟩ := h1
  obtain ⟨hh2, hs2, hm2, hg2, hr2⟩ := h2
  refine ⟨hh2.trans hh1, hs2.trans hs1, fun x hx => hm2 x (hm1 x hx),
    fun x hx => hg2 x (hg1 x hx), fun x hx hgx => ?_⟩
  obtain ⟨hxb, hgb⟩ := hr2 x hx hgx
  exact hr1 x hxb hgb

theorem markObject_mono (st : GcState) (o : Option Nat) : GcMono st (markObject st o) := by
  cases o with
  | none => exact gcMono_refl st
  | some i =>
    unfold markObject
    dsimp only
    by_cases hm : i ∈ st.marked
    · rw [if_pos hm]
      exact gcMono_refl st
    · rw [if_neg hm]
      refine ⟨rfl, rfl, fun x hx => List.mem_cons_of_mem _ hx,
        fun x hx => List.mem_cons_of_mem _ hx, fun x hx hgx => ?_⟩
      rcases List.mem_cons.mp hx with rfl | hx2
      · exact absurd (List.mem_cons_self _ _) hgx
      · exact ⟨hx2, fun hg0 => hgx (List.mem_cons_of_mem _ hg0)⟩

theorem markValue_mono (st : GcState) (v : LoxValue) : GcMono st (markValue st v) := by
  cases v with
  | vobj i => exact markObject_mono st (some i)
  | vnil => exact gcMono_refl st
  | vbool b => exact gcMono_refl st
  | vnum n => exact gcMono_refl st

theorem foldl_mono {α : Type} (f : GcState → α → GcState)
    (hf : ∀ s a, GcMono s (f s a)) :
    ∀ (l : List α) (st : GcState), GcMono st (l.foldl f st) := by
  intro l
  induction l with
  | nil => intro st; exact gcMono_refl st
  | cons a tl ih => intro st; exact gcMono_trans (hf st a) (ih (f st a))

theorem markTable_mono (st : GcState) (t : Table) : GcMono st (markTable st t) := by
  unfold markTable
  exact foldl_mono _ (fun s en => gcMono_trans (markObject_mono s (en.key.map StrObj.id))
    (markValue_mono _ en.value)) t.entries st

theorem markArray_mono (st : GcState) (vs : List LoxValue) : GcMono st (markArray st vs) := by
  unfold markArray
  exact foldl_mono _ (fun s v => markValue_mono s v) vs st

theorem markRoots_mono (st : GcState) : GcMono st (markRoots st) := by
  unfold markRoots
  exact gcMono_trans (foldl_mono _ (fun s v => markValue_mono s v) st.stack st)
    (gcMono_trans (foldl_mono _ (fun s o => markObject_mono s o) st.frames _)
      (gcMono_trans (foldl_mono _ (fun s i => markObject_mono s (some i)) st.openUpvalues _)
        (gcMono_trans (markTable_mono _ st.globals)
          (gcMono_trans (foldl_mono _ (fun s o => markObject_mono s o) st.compilerFunctions _)
            (markObject_mono _ st.initString)))))

theorem blackenObject_mono (st : GcState) (i : Nat) : GcMono st (blackenObject st i) := by
  unfold blackenObject
  cases hf : heapFind st.heap i with
  | none => exact gcMono_refl st
  | some o =>
    cases o with
    | gboundMethod receiver method =>
      exact gcMono_trans (markValue_mono st receiver) (markObject_mono _ method)
    | gclass name methods =>
      exact gcMono_trans (markObject_mono st name) (markTable_mono _ methods)
    | gclosure f ups =>
      exact gcMono_trans (markObject_mono st f)
        (foldl_mono _ (fun s o2 => markObject_mono s o2) ups _)
    | gfunction name consts =>
      exact gcMono_trans (markObject_mono st name) (markArray_mono _ consts)
    | ginstance cls fields =>
      exact gcMono_trans (markObject_mono st cls) (markTable_mono _ fields)
    | gnative => exact gcMono_refl st
    | gstring => exact gcMono_refl st
    | gupvalue closed => exact markValue_mono st closed

theorem markObject_marks (st : GcState) (j : Nat) : j ∈ (markObject st (some j)).marked := by
  unfold markObject
  dsimp only
  by_cases hm : j ∈ st.marked
  · rw [if_pos hm]
    exact hm
  · rw [if_neg hm]
    exact List.mem_cons_self _ _

theorem markValue_marks (st : GcState) (v : LoxValue) :
    ∀ j ∈ valueIds v, j ∈ (markValue st v).marked := by
  intro j hj
  cases v with
  | vobj i =>
    have hji : j = i := by simpa [valueIds] using hj
    subst hji
    exact markObject_marks st j
  | vnil => exact absurd hj (by simp [valueIds])
  | vbool b => exact absurd hj (by simp [valueIds])
  | vnum n => exact absurd hj (by simp [valueIds])

theorem foldl_marks {α : Type} (f : GcState → α → GcState) (ids : α → List Nat)
    (hmono : ∀ s a, GcMono s (f s a))
    (hm : ∀ s a, ∀ x ∈ ids a, x ∈ (f s a).marked) :
    ∀ (l : List α) (st : GcState) (x : Nat),
      (∃ a ∈ l, x ∈ ids a) → x ∈ (l.foldl f st).marked := by
  intro l
  induction l with
  | nil =>
    intro st x hx
    obtain ⟨a, ha, _⟩ := hx
    exact absurd ha (by simp)
  | cons a tl ih =>
    intro st x hx
    rw [List.foldl_cons]
    obtain ⟨b, hb, hxb⟩ := hx
    rcases List.mem_cons.mp hb with rfl | hb2
    · exact (foldl_mono f hmono tl (f st b)).2.2.1 x (hm st b x hxb)
    · exact ih (f st a) x ⟨b, hb2, hxb⟩

theorem mem_foldr_ids {α : Type} (g : α → List Nat) (l : List α) (x : Nat) :
    x ∈ l.foldr (fun a acc => g a ++ acc) [] ↔ ∃ a ∈ l, x ∈ g a := by
  induction l with
  | nil => simp
  | cons a tl ih =>
    simp only [List.foldr_cons, List.mem_append, ih, List.mem_cons]
    constructor
    · intro h
      rcases h with h | ⟨b, hb, hxb⟩
      · exact ⟨a, Or.inl rfl, h⟩
      · exact ⟨b, Or.inr hb, hxb⟩
    · intro h
      obtain ⟨b, hb, hxb⟩ := h
      rcases hb with rfl | hb2
      · exact Or.inl hxb
      · exact Or.inr ⟨b, hb2, hxb⟩

theorem markTable_step_marks (s : GcState) (en : Entry) :
    ∀ x ∈ entryIds en, x ∈ (markValue (markObject s (en.key.map StrObj.id)) en.value).marked := by
  intro x hx
  unfold entryIds at hx
  rcases List.mem_append.mp hx with h | h
  · cases hk : en.key with
    | none => rw [hk] at h; exact absurd h (by simp)
    | some k =>
      rw [hk] at h
      have hxk : x = k.id := by simpa using h
      subst hxk
      exact (markValue_mono _ en.value).2.2.1 k.id (markObject_marks s k.id)
  · exact markValue_marks _ en.value x h

theorem markTable_marks (st : GcState) (t : Table) :
    ∀ x ∈ tableIds t, x ∈ (markTable st t).marked := by
  intro x hx
  unfold tableIds at hx
  rw [mem_foldr_ids] at hx
  unfold markTable
  exact foldl_marks _ entryIds
    (fun s en => gcMono_trans (markObject_mono s (en.key.map StrObj.id))
      (markValue_mono _ en.value))
    markTable_step_marks t.entries st x hx

theorem markOpt_marks (s : GcState) (o : Option Nat) :
    ∀ x ∈ o.toList, x ∈ (markObject s o).marked := by
  intro x hx
  cases o with
  | none => exact absurd hx (by simp)
  | some i =>
    have hxi : x = i := by simpa using hx
    subst hxi
    exact markObject_marks s x

theorem markRoots_marks (st : GcState) : ∀ x ∈ rootIds st, x ∈ (markRoots st).marked := by
  intro x hx
  unfold rootIds at hx
  unfold markRoots
  simp only [List.mem_append] at hx
  rcases hx with ((((h1 | h2) | h3) | h4) | h5) | h6
  · apply (markObject_mono _ st.initString).2.2.1
    apply (foldl_mono markObject (fun s2 o => markObject_mono s2 o) st.compilerFunctions _).2.2.1
    apply (markTable_mono _ st.globals).2.2.1
    apply (foldl_mono (fun s2 i => markObject s2 (some i))
      (fun s2 i => markObject_mono s2 (some i)) st.openUpvalues _).2.2.1
    apply (foldl_mono markObject (fun s2 o2 => markObject_mono s2 o2) st.frames _).2.2.1
    exact foldl_marks markValue valueIds (fun s v => markValue_mono s v) markValue_marks
      st.stack st x (by rw [← mem_foldr_ids]; exact h1)
  · obtain ⟨o, ho, hxo⟩ := List.mem_filterMap.mp h2
    have hox : o = some x := hxo
    subst hox
    apply (markObject_mono _ st.initString).2.2.1
    apply (foldl_mono markObject (fun s2 o2 => markObject_mono s2 o2) st.compilerFunctions _).2.2.1
    apply (markTable_mono _ st.globals).2.2.1
    apply (foldl_mono (fun s2 i => markObject s2 (some i))
      (fun s2 i => markObject_mono s2 (some i)) st.openUpvalues _).2.2.1
    exact foldl_marks markObject Option.toList (fun s2 o2 => markObject_mono s2 o2)
      markOpt_marks st.frames _ x ⟨some x, ho, by simp⟩
  · apply (markObject_mono _ st.initString).2.2.1
    apply (foldl_mono markObject (fun s2 o2 => markObject_mono s2 o2) st.compilerFunctions _).2.2.1
    apply (markTable_mono _ st.globals).2.2.1
    exact foldl_marks (fun s2 i => markObject s2 (some i)) (fun i => [i])
      (fun s2 i => markObject_mono s2 (some i))
      (fun s2 i x2 hx2 => by
        have hxi : x2 = i := by simpa using hx2
        subst hxi
        exact markObject_marks s2 x2)
      st.openUpvalues _ x ⟨x, h3, by simp⟩
  · apply (markObject_mono _ st.initString).2.2.1
    apply (foldl_mono markObject (fun s2 o2 => markObject_mono s2 o2) st.compilerFunctions _).2.2.1
    exact markTable_marks _ st.globals x h4
  · obtain ⟨o, ho, hxo⟩ := List.mem_filterMap.mp h5
    have hox : o = some x := hxo
    subst hox
    apply (markObject_mono _ st.initString).2.2.1
    exact foldl_marks markObject Option.toList (fun s2 o2 => markObject_mono s2 o2)
      markOpt_marks st.compilerFunctions _ x ⟨some x, ho, by simp⟩
  · exact markOpt_marks _ st.initString x h6

theorem blackenObject_marks (st : GcState) (i : Nat) (o : GObj)
    (hf : heapFind st.heap i = some o) :
    ∀ j ∈ objRefs o, j ∈ (blackenObject st i).marked := by
  intro j hj
  unfold blackenObject
  rw [hf]
  cases o with
  | gboundMethod receiver method =>
    dsimp only
    unfold objRefs at hj
    rcases List.mem_append.mp hj with h | h
    · exact (markObject_mono _ method).2.2.1 j (markValue_marks st receiver j h)
    · exact markOpt_marks _ method j h
  | gclass name methods =>
    dsimp only
    unfold objRefs at hj
    rcases List.mem_append.mp hj with h | h
    · exact (markTable_mono _ methods).2.2.1 j (markOpt_marks st name j h)
    · exact markTable_marks _ methods j h
  | gclosure f ups =>
    dsimp only
    unfold objRefs at hj
    rcases List.mem_append.mp hj with h | h
    · exact (foldl_mono markObject (fun s2 o2 => markObject_mono s2 o2) ups _).2.2.1 j
        (markOpt_marks st f j h)
    · obtain ⟨o2, ho2, hjo2⟩ := List.mem_filterMap.mp h
      have ho2j : o2 = some j := hjo2
      subst ho2j
      exact foldl_marks markObject Option.toList (fun s2 o3 => markObject_mono s2 o3)
        markOpt_marks ups _ j ⟨some j, ho2, by simp⟩
  | gfunction name consts =>
    dsimp only
    unfold objRefs at hj
    rcases List.mem_append.mp hj with h | h
    · exact (markArray_mono _ consts).2.2.1 j (markOpt_marks st name j h)
    · unfold markArray
      exact foldl_marks markValue valueIds (fun s2 v => markValue_mono s2 v) markValue_marks
        consts _ j (by rw [← mem_foldr_ids]; exact h)
  | ginstance cls fields =>
    dsimp only
    unfold objRefs at hj
    rcases List.mem_append.mp hj with h | h
    · exact (markTable_mono _ fields).2.2.1 j (markOpt_marks st cls j h)
    · exact markTable_marks _ fields j h
  | gnative => exact absurd hj (by simp [objRefs])
  | gstring => exact absurd hj (by simp [objRefs])
  | gupvalue closed =>
    dsimp only
    unfold objRefs at hj
    exact markValue_marks st closed j hj

theorem traceReferences_zero (st : GcState) :
    traceReferences 0 st = match st.grayStack with | [] => some st | _ :: _ => none := rfl

theorem traceReferences_succ (f : Nat) (st : GcState) :
    traceReferences (f + 1) st =
      match st.grayStack with
      | [] => some st
      | i :: rest => traceReferences f (blackenObject { st with grayStack := rest } i) := rfl

/-- traceReferences leaves heap and strings untouched, only grows the
mark set, empties the gray stack, and preserves the tri-color
invariant. -/
theorem traceReferences_spec :
    ∀ (fuel : Nat) (st st2 : GcState), traceReferences fuel st = some st2 →
      (st2.heap = st.heap ∧ st2.strings = st.strings ∧
        (∀ x, x ∈ st.marked → x ∈ st2.marked)) ∧
      st2.grayStack = [] ∧ (MarkInv st → MarkInv st2) := by
  intro fuel
  induction fuel with
  | zero =>
    intro st st2 h
    rw [traceReferences_zero] at h
    cases hg : st.grayStack with
    | nil =>
      rw [hg] at h
      dsimp only at h
      obtain rfl : st = st2 := Option.some_inj.mp h
      exact ⟨⟨rfl, rfl, fun _ hx => hx⟩, hg, fun hi => hi⟩
    | cons a tl =>
      rw [hg] at h
      exact absurd h (by simp)
  | succ f ih =>
    intro st st2 h
    rw [traceReferences_succ] at h
    cases hg : st.grayStack with
    | nil =>
      rw [hg] at h
      dsimp only at h
      obtain rfl : st = st2 := Option.some_inj.mp h
      exact ⟨⟨rfl, rfl, fun _ hx => hx⟩, hg, fun hi => hi⟩
    | cons i rest =>
      rw [hg] at h
      dsimp only at h
      obtain ⟨⟨hh2, hs2, hm2⟩, hg2, hinv2⟩ := ih _ _ h
      have hbm := blackenObject_mono { st with grayStack := rest } i
      refine ⟨⟨hh2.trans hbm.1, hs2.trans hbm.2.1,
        fun x hx => hm2 x (hbm.2.2.1 x hx)⟩, hg2, ?_⟩
      intro hinv
      apply hinv2
      -- MarkInv after popping i and blackening it
      intro x hx hgx o hfo j hj
      have hrev := hbm.2.2.2.2 x hx hgx
      have hfo2 : heapFind st.heap x = some o := by
        rw [hbm.1] at hfo
        exact hfo
      by_cases hxi : x = i
      · subst hxi
        have := blackenObject_marks { st with grayStack := rest } x o hfo2 j hj
        exact this
      · have hxg : x ∉ st.grayStack := by
          rw [hg]
          intro hmem
          rcases List.mem_cons.mp hmem with rfl | hmem2
          · exact hxi rfl
          · exact hrev.2 hmem2
        have := hinv x hrev.1 hxg o hfo2 j hj
        exact hbm.2.2.1 j this

theorem getD_of_get? {l : List Entry} {i : Nat} {en : Entry} (h : l.get? i = some en) :
    l.getD i emptyEntry = en := by
  show (l.get? i).getD emptyEntry = en
  rw [h]
  rfl

theorem getD_key_get? {l : List Entry} {i : Nat} {k : StrObj}
    (h : (l.getD i emptyEntry).key = some k) :
    ∃ en, l.get? i = some en ∧ en.key = some k := by
  cases hg : l.get? i with
  | none =>
    have he : l.getD i emptyEntry = emptyEntry := by
      show (l.get? i).getD emptyEntry = emptyEntry
      rw [hg]
      rfl
    rw [he] at h
    exact absurd h (by simp [emptyEntry])
  | some en =>
    refine ⟨en, rfl, ?_⟩
    rw [← getD_of_get? hg]
    exact h

theorem nonEmptyCount_set_same :
    ∀ (e : List Entry) (j : Nat) (x y : Entry), e.get? j = some x →
      ((!x.isEmptySlot) = (!y.isEmptySlot)) →
      nonEmptyCount (e.set j y) = nonEmptyCount e := by
  intro e
  induction e with
  | nil => intro j x y hget _; exact absurd hget (by simp)
  | cons a tl ih =>
    intro j x y hget hflag
    cases j with
    | zero =>
      have hax : a = x := by simpa using hget
      subst hax
      show nonEmptyCount (y :: tl) = nonEmptyCount (a :: tl)
      unfold nonEmptyCount
      simp only [List.filter_cons]
      by_cases hy : (!y.isEmptySlot) = true
      · rw [if_pos hy, if_pos (hflag.trans hy)]
        simp
      · rw [if_neg hy, if_neg (fun hc => hy (hflag.symm.trans hc))]
    | succ j2 =>
      have hget2 : tl.get? j2 = some x := by simpa using hget
      show nonEmptyCount (a :: tl.set j2 y) = nonEmptyCount (a :: tl)
      unfold nonEmptyCount
      simp only [List.filter_cons]
      by_cases ha : (!a.isEmptySlot) = true
      · rw [if_pos ha, if_pos ha]
        simp only [List.length_cons]
        have := ih j2 x y hget2 hflag
        unfold nonEmptyCount at this
        omega
      · rw [if_neg ha, if_neg ha]
        exact ih j2 x y hget2 hflag

theorem idsInjective_slots {l : List Entry} (h : idsInjectiveB l = true) :
    ∀ (i j : Nat) (en1 en2 : Entry) (k1 k2 : StrObj),
      l.get? i = some en1 → l.get? j = some en2 →
      en1.key = some k1 → en2.key = some k2 → k1.id = k2.id → i = j := by
  induction l with
  | nil => intro i j en1 en2 k1 k2 h1; exact absurd h1 (by simp)
  | cons a tl ih =>
    obtain ⟨hhead, htail⟩ := idsInjectiveB_head h
    intro i j en1 en2 k1 k2 h1 h2 hk1 hk2 hid
    cases i with
    | zero =>
      cases j with
      | zero => rfl
      | succ j2 =>
        have ha1 : a = en1 := by simpa using h1
        have h2t : tl.get? j2 = some en2 := by simpa using h2
        exact absurd hid (hhead k1 (ha1 ▸ hk1) en2 (List.get?_mem h2t) k2 hk2)
    | succ i2 =>
      cases j with
      | zero =>
        have ha2 : a = en2 := by simpa using h2
        have h1t : tl.get? i2 = some en1 := by simpa using h1
        exact absurd hid.symm (hhead k2 (ha2 ▸ hk2) en1 (List.get?_mem h1t) k1 hk1)
      | succ j2 =>
        have h1t : tl.get? i2 = some en1 := by simpa using h1
        have h2t : tl.get? j2 = some en2 := by simpa using h2
        have := ih htail i2 j2 en1 en2 k1 k2 h1t h2t hk1 hk2 hid
        omega

theorem all_set {P : Entry → Bool} {l : List Entry} (h : l.all P = true)
    (j : Nat) (x : Entry) (hx : P x = true) : (l.set j x).all P = true := by
  rw [List.all_eq_true] at h ⊢
  intro en hen
  rcases List.mem_or_eq_of_mem_set hen with h1 | h1
  · exact h en h1
  · rw [h1]
    exact hx

theorem idsInjectiveB_set_tomb {l : List Entry} (h : idsInjectiveB l = true) :
    ∀ (j : Nat) (v : LoxValue), idsInjectiveB (l.set j ⟨none, v⟩) = true := by
  induction l with
  | nil => intro j v; rw [List.set_eq_of_length_le (by simp)]; rfl
  | cons a tl ih =>
    intro j v
    unfold idsInjectiveB at h
    rw [Bool.and_eq_true] at h
    cases j with
    | zero =>
      show idsInjectiveB (⟨none, v⟩ :: tl) = true
      unfold idsInjectiveB
      rw [Bool.and_eq_true]
      exact ⟨rfl, h.2⟩
    | succ j2 =>
      show idsInjectiveB (a :: tl.set j2 ⟨none, v⟩) = true
      unfold idsInjectiveB
      rw [Bool.and_eq_true]
      refine ⟨?_, ih h.2 j2 v⟩
      cases hk : a.key with
      | none => rfl
      | some k =>
        rw [hk] at h
        dsimp only at h ⊢
        exact all_set h.1 j2 _ rfl

theorem keyFound_mem {t : Table} (h : keyFoundAtOwnSlot t = true) :
    ∀ en ∈ t.entries, ∀ k, en.key = some k →
      ∃ i, findEntry t.entries t.entries.length k = some i ∧
        (t.entries.getD i emptyEntry).key = some k := by
  intro en hen k hk
  unfold keyFoundAtOwnSlot at h
  rw [List.all_eq_true] at h
  have h2 := h en hen
  rw [hk] at h2
  dsimp only at h2
  cases hfe : findEntry t.entries t.entries.length k with
  | none => rw [hfe] at h2; exact absurd h2 (by simp)
  | some i =>
    rw [hfe] at h2
    dsimp only at h2
    exact ⟨i, rfl, by simpa using h2⟩

theorem tableDelete_at_slot (t : Table) (k : StrObj) (j : Nat) (en : Entry)
    (hcount : t.count = nonEmptyCount t.entries)
    (hfound : keyFoundAtOwnSlot t = true)
    (hinj : idsInjectiveB t.entries = true)
    (hget : t.entries.get? j = some en) (hkey : en.key = some k) :
    tableDelete t k = some (⟨t.count, t.entries.set j ⟨none, LoxValue.vbool true⟩⟩, true) := by
  have hmem := List.get?_mem hget
  have hcne : ¬ t.count = 0 := by
    have h1 : (!en.isEmptySlot) = true := by
      unfold Entry.isEmptySlot
      rw [hkey]
      rfl
    have h2 : 1 ≤ nonEmptyCount t.entries :=
      List.length_pos_of_mem (List.mem_filter.mpr ⟨hmem, h1⟩)
    omega
  obtain ⟨i, hfe, hki⟩ := keyFound_mem hfound en hmem k hkey
  obtain ⟨eni, hgeti, hkeyi⟩ := getD_key_get? hki
  have hij : i = j := idsInjective_slots hinj i j eni en k k hgeti hget hkeyi hkey rfl
  subst hij
  unfold tableDelete
  rw [if_neg hcne, hfe]
  dsimp only
  rw [hki]

/-- Tombstoning one keyed slot keeps every other key findable at its
own slot: the probe walks are unchanged because a tombstone is neither
a pointer match nor a truly empty stop. -/
theorem keyFound_after_delete (t : Table) (m : Nat) (j : Nat) (en : Entry) (k0 : StrObj)
    (hlen : t.entries.length = 2 ^ m)
    (hinj : idsInjectiveB t.entries = true)
    (hfound : keyFoundAtOwnSlot t = true)
    (hget : t.entries.get? j = some en) (hkey : en.key = some k0) :
    keyFoundAtOwnSlot ⟨t.count, t.entries.set j ⟨none, LoxValue.vbool true⟩⟩ = true := by
  have hpos : 0 < 2 ^ m := Nat.pos_pow_of_pos m (by omega)
  have hjlt : j < t.entries.length := by
    by_contra hc
    rw [List.get?_eq_none.mpr (by omega)] at hget
    exact absurd hget (by simp)
  have hlen2 : (t.entries.set j ⟨none, LoxValue.vbool true⟩).length = 2 ^ m := by
    rw [List.length_set]
    exact hlen
  unfold keyFoundAtOwnSlot
  rw [List.all_eq_true]
  intro en2 hen2
  dsimp only at hen2 ⊢
  cases hk2 : en2.key with
  | none => rfl
  | some b =>
    dsimp only
    have hen2t : en2 ∈ t.entries := by
      rcases List.mem_or_eq_of_mem_set hen2 with h | h
      · exact h
      · rw [h] at hk2
        exact absurd hk2 (by simp)
    obtain ⟨sb, hsbget⟩ := List.mem_iff_get?.mp hen2
    have hsbj : ¬ sb = j := by
      intro hc
      subst hc
      rw [List.get?_set_eq_of_lt _ hjlt] at hsbget
      have he2 : (⟨none, LoxValue.vbool true⟩ : Entry) = en2 := Option.some_inj.mp hsbget
      rw [← he2] at hk2
      exact absurd hk2 (by simp)
    have hsbt : t.entries.get? sb = some en2 := by
      rw [← List.get?_set_ne (⟨none, LoxValue.vbool true⟩ : Entry) t.entries
        (fun h => hsbj h.symm)]
      exact hsbget
    have hsblt : sb < t.entries.length := by
      by_contra hc
      rw [List.get?_eq_none.mpr (by omega)] at hsbt
      exact absurd hsbt (by simp)
    have hsbm : sb < 2 ^ m := by omega
    obtain ⟨ib, hfe, hki⟩ := keyFound_mem hfound en2 hen2t b hk2
    obtain ⟨enib, hgetib, hkeyib⟩ := getD_key_get? hki
    have hibsb : ib = sb := idsInjective_slots hinj ib sb enib en2 b b hgetib hsbt hkeyib hk2 rfl
    rw [hibsb] at hfe hki
    have hstopm : slotStop t.entries b sb = true := by
      unfold slotStop
      rw [slotMatches_get? hsbt b, hk2]
      simp
    obtain ⟨J, hJlt, hJ, hJleast, hres⟩ := findEntry_spec t.entries b m hlen ⟨sb, hsbm, hstopm⟩
    rw [hfe] at hres
    have hmB : slotMatches t.entries b ((b.hash % 2 ^ m + J) % 2 ^ m) = true := by
      by_contra hmB
      rw [if_neg hmB] at hres
      have hsbeq := Option.some_inj.mp hres
      cases hft : firstTombAux t.entries (2 ^ m) (b.hash % 2 ^ m) J with
      | some tv =>
        rw [hft] at hsbeq
        simp only [Option.getD_some] at hsbeq
        have htomb := (firstTombAux_some hpos J (b.hash % 2 ^ m) tv
          (Nat.mod_lt _ hpos) hft).1
        have hkn := slotTomb_key_none htomb
        rw [← hsbeq, getD_of_get? hsbt, hk2] at hkn
        exact absurd hkn (by simp)
      | none =>
        rw [hft] at hsbeq
        simp only [Option.getD_none] at hsbeq
        have hJ2 := hJ
        unfold slotStop at hJ2
        rw [Bool.or_eq_true] at hJ2
        rcases hJ2 with hJ2 | hJ2
        · exact hmB hJ2
        · have hkn := slotEmpty_key_none hJ2
          rw [← hsbeq, getD_of_get? hsbt, hk2] at hkn
          exact absurd hkn (by simp)
    rw [if_pos hmB] at hres
    have hposJ : (b.hash % 2 ^ m + J) % 2 ^ m = sb := (Option.some_inj.mp hres).symm
    have hm2sb : slotMatches (t.entries.set j ⟨none, LoxValue.vbool true⟩) b sb = true := by
      rw [slotMatches_get? hsbget b, hk2]
      simp
    have hstop2 : slotStop (t.entries.set j ⟨none, LoxValue.vbool true⟩) b sb = true := by
      unfold slotStop
      rw [hm2sb]
      rfl
    have hnewleast : ∀ jj < J,
        slotStop (t.entries.set j ⟨none, LoxValue.vbool true⟩) b
          ((b.hash % 2 ^ m + jj) % 2 ^ m) = false := by
      intro jj hjj
      by_cases hpj : (b.hash % 2 ^ m + jj) % 2 ^ m = j
      · rw [hpj]
        have hgt : (t.entries.set j ⟨none, LoxValue.vbool true⟩).get? j =
            some ⟨none, LoxValue.vbool true⟩ := List.get?_set_eq_of_lt _ hjlt
        unfold slotStop
        rw [slotMatches_get? hgt b, slotEmpty_get? hgt]
        rfl
      · rw [slotStop_set_ne (fun h => hpj h.symm)]
        exact hJleast jj hjj
    have hstopJ2 : slotStop (t.entries.set j ⟨none, LoxValue.vbool true⟩) b
        ((b.hash % 2 ^ m + J) % 2 ^ m) = true := by
      rw [hposJ]
      exact hstop2
    obtain ⟨J2, hJ2lt, hJ2, hJ2least, hres2⟩ :=
      findEntry_spec (t.entries.set j ⟨none, LoxValue.vbool true⟩) b m hlen2 ⟨sb, hsbm, hstop2⟩
    have hJ2J : J2 = J := by
      by_contra hne
      rcases Nat.lt_or_ge J2 J with hlt | hge
      · rw [hnewleast J2 hlt] at hJ2
        exact absurd hJ2 (by simp)
      · have hlt2 : J < J2 := by omega
        have hc := hJ2least J hlt2
        rw [hstopJ2] at hc
        exact absurd hc (by simp)
    subst hJ2J
    have hm2 : slotMatches (t.entries.set j ⟨none, LoxValue.vbool true⟩) b
        ((b.hash % 2 ^ m + J2) % 2 ^ m) = true := by
      rw [hposJ]
      exact hm2sb
    rw [if_pos hm2, hposJ] at hres2
    rw [hres2]
    dsimp only
    rw [getD_of_get? hsbget, hk2]
    simp

theorem getD_set_ne {l : List Entry} {i i2 : Nat} (h : ¬ i = i2) (x : Entry) :
    (l.set i x).getD i2 emptyEntry = l.getD i2 emptyEntry := by
  show ((l.set i x).get? i2).getD emptyEntry = (l.get? i2).getD emptyEntry
  rw [List.get?_set_ne x l h]

theorem removeWhiteFrom_cons (marked : List Nat) (i : Nat) (rest : List Nat) (t : Table) :
    removeWhiteFrom marked (i :: rest) t =
      (match (t.entries.getD i emptyEntry).key with
       | none => removeWhiteFrom marked rest t
       | some k =>
         if k.id ∈ marked then removeWhiteFrom marked rest t
         else
           match tableDelete t k with
           | none => none
           | some r => removeWhiteFrom marked rest r.1) := rfl

/-- Walking the slot indices deleting unmarked keys succeeds under the
table invariants; afterwards each visited slot holds no unmarked key,
and per-slot keys only disappear. -/
theorem removeWhiteFrom_spec (marked : List Nat) (m : Nat) :
    ∀ (idxs : List Nat) (t : Table),
      t.entries.length = 2 ^ m →
      t.count = nonEmptyCount t.entries →
      keyFoundAtOwnSlot t = true →
      idsInjectiveB t.entries = true →
      ∃ t2, removeWhiteFrom marked idxs t = some t2 ∧
        t2.entries.length = 2 ^ m ∧
        (∀ i k, (t2.entries.getD i emptyEntry).key = some k →
          (t.entries.getD i emptyEntry).key = some k) ∧
        (∀ i ∈ idxs, ∀ k, (t2.entries.getD i emptyEntry).key = some k → k.id ∈ marked) := by
  intro idxs
  induction idxs with
  | nil =>
    intro t hlen hcount hfound hinj
    exact ⟨t, rfl, hlen, fun i k h => h, by simp⟩
  | cons i rest ih =>
    intro t hlen hcount hfound hinj
    cases hki : (t.entries.getD i emptyEntry).key with
    | none =>
      obtain ⟨t2, hrw, hl2, hmono, hmarked⟩ := ih t hlen hcount hfound hinj
      refine ⟨t2, ?_, hl2, hmono, ?_⟩
      · rw [removeWhiteFrom_cons, hki]
        exact hrw
      · intro i2 hi2 k hk
        rcases List.mem_cons.mp hi2 with rfl | hi2t
        · rw [hmono i2 k hk] at hki
          exact absurd hki (by simp)
        · exact hmarked i2 hi2t k hk
    | some k =>
      by_cases hkm : k.id ∈ marked
      · obtain ⟨t2, hrw, hl2, hmono, hmarked⟩ := ih t hlen hcount hfound hinj
        refine ⟨t2, ?_, hl2, hmono, ?_⟩
        · rw [removeWhiteFrom_cons, hki]
          dsimp only
          rw [if_pos hkm]
          exact hrw
        · intro i2 hi2 k2 hk2
          rcases List.mem_cons.mp hi2 with rfl | hi2t
          · have := hmono i2 k2 hk2
            rw [hki] at this
            have hk2k : k = k2 := Option.some_inj.mp this
            rw [← hk2k]
            exact hkm
          · exact hmarked i2 hi2t k2 hk2
      · obtain ⟨en, hget, hkey⟩ := getD_key_get? hki
        have hdel := tableDelete_at_slot t k i en hcount hfound hinj hget hkey
        have hlen2 : (t.entries.set i ⟨none, LoxValue.vbool true⟩).length = 2 ^ m := by
          rw [List.length_set]
          exact hlen
        have hcount2 : t.count =
            nonEmptyCount (t.entries.set i ⟨none, LoxValue.vbool true⟩) := by
          rw [nonEmptyCount_set_same t.entries i en ⟨none, LoxValue.vbool true⟩ hget ?_]
          · exact hcount
          · unfold Entry.isEmptySlot
            rw [hkey]
            rfl
        have hfound2 := keyFound_after_delete t m i en k hlen hinj hfound hget hkey
        have hinj2 := idsInjectiveB_set_tomb hinj i (LoxValue.vbool true)
        obtain ⟨t2, hrw, hl2, hmono, hmarked⟩ :=
          ih ⟨t.count, t.entries.set i ⟨none, LoxValue.vbool true⟩⟩ hlen2 hcount2 hfound2 hinj2
        refine ⟨t2, ?_, hl2, ?_, ?_⟩
        · rw [removeWhiteFrom_cons, hki]
          dsimp only
          rw [if_neg hkm, hdel]
          exact hrw
        · intro i2 k2 hk2
          have h1 := hmono i2 k2 hk2
          by_cases hii : i = i2
          · subst hii
            rw [getD_of_get? (List.get?_set_eq_of_lt _ ?_)] at h1
            · exact absurd h1 (by simp)
            · by_contra hc
              rw [List.get?_eq_none.mpr (by omega)] at hget
              exact absurd hget (by simp)
          · rw [getD_set_ne hii] at h1
            exact h1
        · intro i2 hi2 k2 hk2
          rcases List.mem_cons.mp hi2 with rfl | hi2t
          · have h1 := hmono i2 k2 hk2
            rw [getD_of_get? (List.get?_set_eq_of_lt _ ?_)] at h1
            · exact absurd h1 (by simp)
            · by_contra hc
              rw [List.get?_eq_none.mpr (by omega)] at hget
              exact absurd hget (by simp)
          · exact hmarked i2 hi2t k2 hk2

/-- tableRemoveWhite succeeds under the invariants; every key left in
the table is marked and came from the original table. -/
theorem tableRemoveWhite_spec (marked : List Nat) (t : Table) (m : Nat)
    (hlen : t.entries.length = 2 ^ m)
    (hcount : t.count = nonEmptyCount t.entries)
    (hfound : keyFoundAtOwnSlot t = true)
    (hinj : idsInjectiveB t.entries = true) :
    ∃ t2, tableRemoveWhite marked t = some t2 ∧
      (∀ en ∈ t2.entries, ∀ k, en.key = some k →
        k.id ∈ marked ∧ ∃ en0 ∈ t.entries, en0.key = some k) := by
  obtain ⟨t2, hrw, hl2, hmono, hmarked⟩ :=
    removeWhiteFrom_spec marked m (List.range t.entries.length) t hlen hcount hfound hinj
  refine ⟨t2, hrw, ?_⟩
  intro en hen k hk
  obtain ⟨i, hi⟩ := List.mem_iff_get?.mp hen
  have hilt : i < t2.entries.length := by
    by_contra hc
    rw [List.get?_eq_none.mpr (by omega)] at hi
    exact absurd hi (by simp)
  have hik : (t2.entries.getD i emptyEntry).key = some k := by
    rw [getD_of_get? hi]
    exact hk
  have hrange : i ∈ List.range t.entries.length := by
    rw [List.mem_range, hlen]
    omega
  refine ⟨hmarked i hrange k hik, ?_⟩
  obtain ⟨en0, hget0, hkey0⟩ := getD_key_get? (hmono i k hik)
  exact ⟨en0, List.get?_mem hget0, hkey0⟩

theorem sweepAux_kept (marked : List Nat) :
    ∀ (l : List (Nat × GObj)), ∀ p ∈ l, p.1 ∈ marked → p ∈ (sweepAux marked l).1 := by
  intro l
  induction l with
  | nil => intro p hp; exact absurd hp (by simp)
  | cons a rest ih =>
    intro p hp hm
    obtain ⟨i, o⟩ := a
    rcases List.mem_cons.mp hp with rfl | hp2
    · unfold sweepAux
      rw [if_pos hm]
      exact List.mem_cons_self _ _
    · unfold sweepAux
      by_cases hi : i ∈ marked
      · rw [if_pos hi]
        exact List.mem_cons_of_mem _ (ih p hp2 hm)
      · rw [if_neg hi]
        exact ih p hp2 hm

theorem sweepAux_drops (marked : List Nat) :
    ∀ (l : List (Nat × GObj)), ∀ p ∈ l, ¬ p.1 ∈ marked → p.1 ∈ (sweepAux marked l).2 := by
  intro l
  induction l with
  | nil => intro p hp; exact absurd hp (by simp)
  | cons a rest ih =>
    intro p hp hm
    obtain ⟨i, o⟩ := a
    rcases List.mem_cons.mp hp with rfl | hp2
    · unfold sweepAux
      rw [if_neg hm]
      exact List.mem_cons_self _ _
    · unfold sweepAux
      by_cases hi : i ∈ marked
      · rw [if_pos hi]
        exact ih p hp2 hm
      · rw [if_neg hi]
        exact List.mem_cons_of_mem _ (ih p hp2 hm)

theorem sweepAux_freed (marked : List Nat) :
    ∀ (l : List (Nat × GObj)), ∀ i ∈ (sweepAux marked l).2,
      ¬ i ∈ marked ∧ ∃ o, (i, o) ∈ l := by
  intro l
  induction l with
  | nil => intro i hi; exact absurd hi (by simp [sweepAux])
  | cons a rest ih =>
    intro i hi
    obtain ⟨i2, o2⟩ := a
    unfold sweepAux at hi
    by_cases hm : i2 ∈ marked
    · rw [if_pos hm] at hi
      obtain ⟨hnm, o, ho⟩ := ih i hi
      exact ⟨hnm, o, List.mem_cons_of_mem _ ho⟩
    · rw [if_neg hm] at hi
      rcases List.mem_cons.mp hi with rfl | hi2
      · exact ⟨hm, o2, List.mem_cons_self _ _⟩
      · obtain ⟨hnm, o, ho⟩ := ih i hi2
        exact ⟨hnm, o, List.mem_cons_of_mem _ ho⟩

/-- C4: GC soundness and phase ordering.  A successful collectGarbage
run yields a mark set M (the post-trace marks) such that: every id
reachable from the roots is in M; sweep keeps exactly the heap objects
whose id is in M and frees exactly those whose id is not; the
interned-strings table is scrubbed with M before sweep runs, so every
key remaining in it is marked (and came from the original table); and
consequently no object reachable from the roots is freed. -/
theorem gc_soundness (fuel : Nat) (st st2 : GcState) (freed : List Nat) (m : Nat)
    (hgray : st.grayStack = []) (hmark : st.marked = [])
    (hslen : st.strings.entries.length = 2 ^ m)
    (hscount : st.strings.count = nonEmptyCount st.strings.entries)
    (hsfound : keyFoundAtOwnSlot st.strings = true)
    (hsinj : idsInjectiveB st.strings.entries = true)
    (hgc : collectGarbage fuel st = some (st2, freed)) :
    ∃ M : List Nat,
      (∀ i, Reachable st i → i ∈ M) ∧
      (∀ p ∈ st.heap, p.1 ∈ M → p ∈ st2.heap) ∧
      (∀ p ∈ st.heap, ¬ p.1 ∈ M → p.1 ∈ freed) ∧
      (∀ i ∈ freed, ¬ i ∈ M ∧ ∃ o, (i, o) ∈ st.heap) ∧
      (∀ en ∈ st2.strings.entries, ∀ k, en.key = some k →
        k.id ∈ M ∧ ∃ en0 ∈ st.strings.entries, en0.key = some k) ∧
      (∀ i, Reachable st i → ¬ i ∈ freed) := by
  have hmR := markRoots_mono st
  unfold collectGarbage at hgc
  cases htr : traceReferences fuel (markRoots st) with
  | none =>
    rw [htr] at hgc
    exact absurd hgc (by simp)
  | some stT =>
    rw [htr] at hgc
    dsimp only at hgc
    obtain ⟨⟨hh, hs, hmm⟩, hgT, hinvT⟩ := traceReferences_spec fuel (markRoots st) stT htr
    have hstr : stT.strings = st.strings := hs.trans hmR.2.1
    have hheap : stT.heap = st.heap := hh.trans hmR.1
    obtain ⟨t2, hrw, hkeys⟩ :=
      tableRemoveWhite_spec stT.marked st.strings m hslen hscount hsfound hsinj
    rw [hstr, hrw] at hgc
    dsimp only at hgc
    rw [Option.some_inj, Prod.ext_iff] at hgc
    obtain ⟨hst2, hfr⟩ := hgc
    dsimp only at hst2 hfr
    have hinv0 : MarkInv (markRoots st) := by
      intro x hx hgx o hfo j hj
      have h2 := hmR.2.2.2.2 x hx hgx
      rw [hmark] at h2
      exact absurd h2.1 (by simp)
    have hinvT2 := hinvT hinv0
    have hreach : ∀ i, Reachable st i → i ∈ stT.marked := by
      intro i hr
      induction hr with
      | root i2 h2 => exact hmm i2 (markRoots_marks st i2 h2)
      | step i2 j2 o hi2 ho hj2 ih2 =>
        have hgT2 : i2 ∉ stT.grayStack := by
          rw [hgT]
          exact List.not_mem_nil i2
        have ho2 : heapFind stT.heap i2 = some o := by
          rw [hheap]
          exact ho
        exact hinvT2 i2 ih2 hgT2 o ho2 j2 hj2
    refine ⟨stT.marked, hreach, ?_, ?_, ?_, ?_, ?_⟩
    · intro p hp hpm
      rw [← hst2]
      dsimp only
      exact sweepAux_kept stT.marked stT.heap p (by rw [hheap]; exact hp) hpm
    · intro p hp hpm
      rw [← hfr]
      exact sweepAux_drops stT.marked stT.heap p (by rw [hheap]; exact hp) hpm
    · intro i hi
      rw [← hfr] at hi
      obtain ⟨hnm, o, ho⟩ := sweepAux_freed stT.marked stT.heap i hi
      refine ⟨hnm, o, ?_⟩
      rw [← hheap]
      exact ho
    · intro en hen k hk
      rw [← hst2] at hen
      dsimp only at hen
      exact hkeys en hen k hk
    · intro i hr hif
      rw [← hfr] at hif
      exact (sweepAux_freed stT.marked stT.heap i hif).1 (hreach i hr)

/-- Witness: a three-object heap where the stack reaches an upvalue
that reaches an interned string, and a third object is garbage.  The
GC frees exactly the garbage object and keeps the interned key. -/
theorem gc_soundness_witness :
    ∃ M : List Nat,
      (∀ i, Reachable {
        heap := [(0, .gstring), (1, .gupvalue (.vobj 0)), (2, .gstring)],
        marked := [], grayStack := [],
        stack := [.vobj 1],
        frames := [], openUpvalues := [], globals := ⟨0, []⟩,
        compilerFunctions := [], initString := none,
        strings := ⟨1, [⟨some ⟨0, [], 0⟩, .vnil⟩]⟩ } i → i ∈ M) ∧
      (∀ p ∈ [((0 : Nat), GObj.gstring), (1, .gupvalue (.vobj 0)), (2, .gstring)],
        p.1 ∈ M → p ∈ [((0 : Nat), GObj.gstring), (1, .gupvalue (.vobj 0))]) ∧
      (∀ p ∈ [((0 : Nat), GObj.gstring), (1, .gupvalue (.vobj 0)), (2, .gstring)],
        ¬ p.1 ∈ M → p.1 ∈ [2]) ∧
      (∀ i ∈ [(2 : Nat)], ¬ i ∈ M ∧
        ∃ o, (i, o) ∈ [((0 : Nat), GObj.gstring), (1, .gupvalue (.vobj 0)), (2, .gstring)]) ∧
      (∀ en ∈ [(⟨some ⟨0, [], 0⟩, .vnil⟩ : Entry)], ∀ k, en.key = some k →
        k.id ∈ M ∧ ∃ en0 ∈ [(⟨some ⟨0, [], 0⟩, .vnil⟩ : Entry)], en0.key = some k) ∧
      (∀ i, Reachable {
        heap := [(0, .gstring), (1, .gupvalue (.vobj 0)), (2, .gstring)],
        marked := [], grayStack := [],
        stack := [.vobj 1],
        frames := [], openUpvalues := [], globals := ⟨0, []⟩,
        compilerFunctions := [], initString := none,
        strings := ⟨1, [⟨some ⟨0, [], 0⟩, .vnil⟩]⟩ } i → ¬ i ∈ [(2 : Nat)]) :=
  gc_soundness 10
    { heap := [(0, .gstring), (1, .gupvalue (.vobj 0)), (2, .gstring)],
      marked := [], grayStack := [],
      stack := [.vobj 1],
      frames := [], openUpvalues := [], globals := ⟨0, []⟩,
      compilerFunctions := [], initString := none,
      strings := ⟨1, [⟨some ⟨0, [], 0⟩, .vnil⟩]⟩ }
    { heap := [(0, .gstring), (1, .gupvalue (.vobj 0))],
      marked := [], grayStack := [],
      stack := [.vobj 1],
      frames := [], openUpvalues := [], globals := ⟨0, []⟩,
      compilerFunctions := [], initString := none,
      strings := ⟨1, [⟨some ⟨0, [], 0⟩, .vnil⟩]⟩ }
    [2] 0 rfl rfl rfl rfl (by decide) (by decide) (by decide)
